import Mathlib

/-!
# Starfleet Tactical Simulator (`game.js`): shallow embedding

The game core of `src/game.js` as Lean definitions.

* Mutable objects become explicit state passing: a function that mutates
  `game` or a side returns the new value.
* A `TypeError` raised by reading a property of `undefined` is an explicit
  fault result; the state carried next to it is the state at the throw.
* `Math.random` becomes an explicit argument (a natural number per draw).
* Sizes, ids and coordinates are `Nat` and `Int`: they stay far below
  `2 ^ 53`, where double arithmetic is exact.  The two places where doubles
  show are modelled as such: the career counters (`JSNumber`, `jsAddOne`) and
  the percent of the summary (`toDouble`, `mathRound`, `accuracy`).
* DOM rendering and the status line (`renderAll`, `renderLog`, `setStatus`,
  `renderStatsLine`) are presentation; the page is taken to have its
  elements, and of rendering only the throw of `renderBoard` on a grid with
  a missing row is kept (`renderAllThrows`).
-/

namespace Battleship

/-! ## Coordinates, keys and sets -/

/-- Board edge, `const SIZE = 10`. -/
def SIZE : Nat := 10

/-- Member of the `shots`, `cells` and `hits` sets.  The source uses the
string with the row, a comma and the column; for integer coordinates that
string and the pair determine each other, so the pair stands for it. -/
abbrev Key := Int × Int

/-- Source `key(r, c)`. -/
def key (r c : Int) : Key := (r, c)

/-- Source `inBounds(r, c)`. -/
def inBounds (r c : Int) : Bool :=
  decide (0 ≤ r) && decide (r < (SIZE : Int)) && decide (0 ≤ c) && decide (c < (SIZE : Int))

/-- A JavaScript `Set`: the members in insertion order, none twice. -/
abbrev JSSet (α : Type) := { l : List α // l.Nodup }

namespace JSSet

variable {α : Type}

/-- The value of `new Set()`. -/
def empty : JSSet α := ⟨[], List.nodup_nil⟩

/-- The method `set.has(k)`. -/
def has [DecidableEq α] (s : JSSet α) (k : α) : Bool := decide (k ∈ s.1)

/-- The method `set.add(k)`: a member already present stays where it is. -/
def add [DecidableEq α] (s : JSSet α) (k : α) : JSSet α :=
  if h : k ∈ s.1 then s
  else ⟨s.1 ++ [k], List.Nodup.append s.2 (List.nodup_singleton k) (by
    intro a ha hk
    rw [List.mem_singleton] at hk
    exact h (hk ▸ ha))⟩

/-- The property `set.size`. -/
def size (s : JSSet α) : Nat := s.1.length

/-- The call `Array.from(set)`. -/
def toArray (s : JSSet α) : List α := s.1

/-- The call `new Set(array)`. -/
def ofArray [DecidableEq α] (l : List α) : JSSet α := l.foldl add empty

end JSSet

/-- JavaScript array read `xs[i]`: `none` is `undefined`. -/
def jsIndex {α : Type} (xs : List α) (i : Int) : Option α :=
  if 0 ≤ i then xs[i.toNat]? else none

/-! ## Ships and sides -/

/-- A ship object as built by `placeAllShipsRandom`. -/
structure Ship where
  id : Nat
  name : String
  length : Nat
  cells : JSSet Key
  hits : JSSet Key
deriving DecidableEq

/-- The occupancy grid: rows of entries, `none` for `null`, `some id` for a
ship id. -/
abbrev Grid := List (List (Option Nat))

/-- A side as built by `createSide`. -/
structure Side where
  grid : Grid
  shots : JSSet Key
  ships : List Ship
deriving DecidableEq

/-- What the expression `grid[r][c]` evaluates to. -/
inductive GridRead where
  /-- The row `grid[r]` is `undefined`, reading `[c]` of it throws. -/
  | typeError
  /-- The row exists and has no entry `c`. -/
  | undefined
  /-- An entry: `null` or a ship id. -/
  | value (v : Option Nat)
deriving DecidableEq

/-- The expression `grid[r][c]`. -/
def gridRead (grid : Grid) (r c : Int) : GridRead :=
  match jsIndex grid r with
  | none => .typeError
  | some row =>
    match jsIndex row c with
    | none => .undefined
    | some v => .value v

/-- The object `applyShot` returns. -/
structure ShotResult where
  hit : Bool
  sunk : Option String
deriving DecidableEq

/-- The lines `ship = ships.find(s => s.id === shipId); ship.hits.add(k)`:
the first ship with the id gets the key; the result is that ship after the
update and the updated list, `none` when `find` returns `undefined`. -/
def hitShip (shipId : Nat) (k : Key) : List Ship → Option (Ship × List Ship)
  | [] => none
  | s :: rest =>
    if s.id = shipId then
      some ({ s with hits := s.hits.add k }, { s with hits := s.hits.add k } :: rest)
    else
      match hitShip shipId k rest with
      | none => none
      | some (t, rest') => some (t, s :: rest')

/-- Source `applyShot(defender, r, c)`.  The second component is `none` when
the call throws a `TypeError`; the side is the defender as mutated so far. -/
def applyShot (defender : Side) (r c : Int) : Side × Option ShotResult :=
  let shotKey := key r c
  let marked : Side := { defender with shots := defender.shots.add shotKey }
  match gridRead marked.grid r c with
  | .typeError => (marked, none)
  | .value none => (marked, some { hit := false, sunk := none })
  | .undefined => (marked, none)
  | .value (some shipId) =>
    match hitShip shipId shotKey marked.ships with
    | none => (marked, none)
    | some (ship, ships) =>
      ({ marked with ships := ships },
        some { hit := true,
               sunk := if ship.hits.size = ship.cells.size then some ship.name else none })

/-- Source `isAllSunk(side)`. -/
def isAllSunk (side : Side) : Bool :=
  side.ships.all (fun ship => decide (ship.hits.size = ship.cells.size))

/-- Source `countHits(defenderSide)`. -/
def countHits (defenderSide : Side) : Nat :=
  defenderSide.ships.foldl (fun sum ship => sum + ship.hits.size) 0

/-- The side after successive `applyShot` calls at the coordinates (a call
that throws leaves the side as mutated so far and the run goes on). -/
def sideAfterShots (side : Side) (coords : List (Int × Int)) : Side :=
  coords.foldl (fun s p => (applyShot s p.1 p.2).1) side

/-- The results of successive `applyShot` calls at the coordinates, in call
order; `none` is a call that throws. -/
def shotResults (side : Side) : List (Int × Int) → List (Option ShotResult)
  | [] => []
  | p :: rest => (applyShot side p.1 p.2).2 :: shotResults (applyShot side p.1 p.2).1 rest

/-- The ship named `n` of the side has as many hits as cells. -/
def SunkIn (side : Side) (n : String) : Prop :=
  ∃ s ∈ side.ships, s.name = n ∧ s.hits.size = s.cells.size

instance (side : Side) (n : String) : Decidable (SunkIn side n) := by
  unfold SunkIn; infer_instance

/-! ## The opponent AI -/

/-- The tag `game.ai.mode`. -/
inductive Mode where
  | hunt
  | target
deriving DecidableEq

/-- The tag `lastEnd` and the `end` of a candidate: the string pos or neg. -/
inductive LineEnd where
  | pos
  | neg
deriving DecidableEq

/-- A direction object with the fields `dr` and `dc`. -/
structure Dir where
  dr : Int
  dc : Int
deriving DecidableEq

/-- The object `game.ai`; `none` in `dir` and `lastEnd` is `null`. -/
structure AIState where
  mode : Mode
  targets : List (Int × Int)
  currentHits : List (Int × Int)
  dir : Option Dir
  blockedPos : Bool
  blockedNeg : Bool
  lastEnd : Option LineEnd
deriving DecidableEq

/-- The AI object literal of `newMission`, also what `resetAIToHunt` leaves. -/
def freshAI : AIState :=
  { mode := .hunt, targets := [], currentHits := [], dir := none,
    blockedPos := false, blockedNeg := false, lastEnd := none }

/-- Source `getAdjacentCells(r, c)`. -/
def getAdjacentCells (r c : Int) : List (Int × Int) :=
  [(r - 1, c), (r + 1, c), (r, c - 1), (r, c + 1)].filter (fun p => inBounds p.1 p.2)

/-- The pairs `[r, c]` visited by `for r < SIZE, for c < SIZE`, in that order. -/
def boardCells : List (Int × Int) :=
  (List.range SIZE).flatMap (fun (r : Nat) =>
    (List.range SIZE).map (fun (c : Nat) => ((r : Int), (c : Int))))

/-- The array `options` of `getRandomUntargetedCell`. -/
def untargetedCells (side : Side) : List (Int × Int) :=
  boardCells.filter (fun p => !side.shots.has (key p.1 p.2))

/-- Source `getRandomUntargetedCell(side)`.  The draw `u` stands for
`Math.random()`: the index `Math.floor(Math.random() * options.length)` is
`u % options.length`.  `none` is `undefined` (an empty `options`). -/
def getRandomUntargetedCell (side : Side) (u : Nat) : Option (Int × Int) :=
  let options := untargetedCells side
  options[u % options.length]?

/-- Source `pushUniqueTargets(list, coords, side)`; the result is `list`
after the pushes.  The set `seen` always holds the keys of the list. -/
def pushUniqueTargets (list coords : List (Int × Int)) (side : Side) : List (Int × Int) :=
  coords.foldl (fun acc p =>
    if !side.shots.has (key p.1 p.2) && !decide (key p.1 p.2 ∈ acc.map (fun q => key q.1 q.2))
    then acc ++ [p] else acc) list

/-- The inner loop of `determineDirectionFromHits` for one `i`: the entries
`hits[j]`, `j > i`, are compared with `hits[i]`. -/
def scanPairs (h : Int × Int) : List (Int × Int) → Option Dir
  | [] => none
  | x :: rest =>
    if h.1 = x.1 then some { dr := 0, dc := 1 }
    else if h.2 = x.2 then some { dr := 1, dc := 0 }
    else scanPairs h rest

/-- The outer loop of `determineDirectionFromHits`. -/
def scanHits : List (Int × Int) → Option Dir
  | [] => none
  | h :: rest =>
    match scanPairs h rest with
    | some d => some d
    | none => scanHits rest

/-- Source `determineDirectionFromHits(hits)`; `none` is `null`. -/
def determineDirectionFromHits (hits : List (Int × Int)) : Option Dir :=
  if hits.length < 2 then none else scanHits hits

/-- The loop variables of `getLineEnds`; `none` in `minT` is `Infinity`, in
`maxT` it is `-Infinity`, in the ends it is `null`. -/
structure LineScan where
  minT : Option Int
  maxT : Option Int
  negEnd : Option (Int × Int)
  posEnd : Option (Int × Int)
deriving DecidableEq

/-- One pass of the loop body of `getLineEnds`. -/
def lineScanStep (dir : Dir) (st : LineScan) (p : Int × Int) : LineScan :=
  let t := if dir.dr = 0 then p.2 else p.1
  let st1 : LineScan :=
    if (match st.minT with | none => true | some m => decide (t < m))
    then { st with minT := some t, negEnd := some p } else st
  if (match st1.maxT with | none => true | some m => decide (t > m))
  then { st1 with maxT := some t, posEnd := some p } else st1

/-- Source `getLineEnds(hits, dir)`: the pair `(posEnd, negEnd)`. -/
def getLineEnds (hits : List (Int × Int)) (dir : Dir) : Option (Int × Int) × Option (Int × Int) :=
  let st := hits.foldl (lineScanStep dir)
    { minT := none, maxT := none, negEnd := none, posEnd := none }
  (st.posEnd, st.negEnd)

/-- Source `nextCellFromEnd(end, dir, sign)`. -/
def nextCellFromEnd (e : Int × Int) (dir : Dir) (sign : Int) : Int × Int :=
  (e.1 + dir.dr * sign, e.2 + dir.dc * sign)

/-- The object `pickTargetForAI` returns. -/
structure Choice where
  r : Int
  c : Int
  lineEnd : Option LineEnd
deriving DecidableEq

/-- The loop `for (const cand of candidates)` of `pickTargetForAI`: the
first candidate in bounds and not shot is returned, each one passed over
sets its blocked flag. -/
def tryCandidates (shots : JSSet Key) : List ((Int × Int) × LineEnd) → AIState → AIState × Option Choice
  | [], ai => (ai, none)
  | (cell, e) :: rest, ai =>
    if inBounds cell.1 cell.2 && !shots.has (key cell.1 cell.2) then
      (ai, some { r := cell.1, c := cell.2, lineEnd := some e })
    else
      tryCandidates shots rest
        (match e with
         | .pos => { ai with blockedPos := true }
         | .neg => { ai with blockedNeg := true })

/-- The loop `while (... targets.length > 0)` of `pickTargetForAI`: entries
are shifted off the queue until one is not shot; the result is the queue
left and that entry. -/
def shiftTargets (shots : JSSet Key) : List (Int × Int) → List (Int × Int) × Option (Int × Int)
  | [] => ([], none)
  | p :: rest => if !shots.has (key p.1 p.2) then (rest, some p) else shiftTargets shots rest

/-! ## Numbers -/

/-- The integer nearest to the fraction `n / d`, a tie going to the even
one (the rounding of double arithmetic). -/
def roundHalfEven (n d : Nat) : Nat :=
  let q := n / d
  let r := n % d
  if 2 * r < d then q
  else if d < 2 * r then q + 1
  else if q % 2 = 0 then q else q + 1

/-- The least `j` from `k` on, looking at `fuel` values, with
`n < 2 ^ 2 ^ j`. -/
def levels : Nat → Nat → Nat → Nat
  | 0, _, k => k
  | fuel + 1, n, k => bif Nat.blt n (2 ^ 2 ^ k) then k else levels fuel n (k + 1)

/-- The exponent of the power of two at or below `n`, for `0 < n < 2 ^ 2 ^ k`:
its binary digits from digit `k - 1` down. -/
def descend : Nat → Nat → Nat
  | 0, _ => 0
  | k + 1, n =>
    bif Nat.ble (2 ^ 2 ^ k) n then 2 ^ k + descend k (n / 2 ^ 2 ^ k) else descend k n

/-- The exponent of the power of two at or below `n`, for `n > 0`. -/
def floorLog2 (n : Nat) : Nat := descend (levels n n 0) n

/-- The double nearest to the fraction `n / d` (`d > 0`), as a fraction
again: with `e` the exponent of `n / d` (the power of two at or below it),
the fraction is scaled by `2 ^ (52 - e)`, rounded to an integer of 53 bits
and scaled back.  Subnormal and infinite results are outside the model. -/
def toDouble (n d : Nat) : Nat × Nat :=
  if n = 0 then (0, 1)
  else
    let a := floorLog2 n
    let b := floorLog2 d
    let e : Int := (a : Int) - (b : Int) - (if d * 2 ^ (a - b) ≤ n * 2 ^ (b - a) then 0 else 1)
    let s : Int := 52 - e
    if 0 ≤ s then (roundHalfEven (n * 2 ^ s.toNat) d, 2 ^ s.toNat)
    else (roundHalfEven n (d * 2 ^ (-s).toNat) * 2 ^ (-s).toNat, 1)

/-- `Math.round(y)` for a double `y ≥ 0` given as a fraction: the integer
nearest to `y`, a tie going up. -/
def mathRound (y : Nat × Nat) : Nat := (2 * y.1 + y.2) / (2 * y.2)

/-- A JavaScript number as far as the counters go: `NaN`, or a double whose
value is the integer `n`.  Fractions and the infinities, which only a stored
text can bring into a counter, are left out. -/
inductive JSNumber where
  | nan
  | int (n : Int)
deriving DecidableEq

/-- The double nearest to the integer `m`: `m` itself up to `2 ^ 53` in
magnitude (every such integer is a double, `toDouble_of_int`), beyond that
the rounding of `toDouble`, which gives an integer again. -/
def nearestDouble (m : Int) : Int :=
  if m.natAbs ≤ 2 ^ 53 then m
  else
    let y := toDouble m.natAbs 1
    if 0 ≤ m then ((y.1 / y.2 : Nat) : Int) else -((y.1 / y.2 : Nat) : Int)

/-- The value `x + 1` of double arithmetic, as in `stats.fedWins += 1`:
`NaN` stays `NaN`, an integer becomes the double nearest to its successor. -/
def jsAddOne : JSNumber → JSNumber
  | .nan => .nan
  | .int n => .int (nearestDouble (n + 1))

/-! ## The session -/

/-- The tag `game.phase`. -/
inductive Phase where
  | battle
  | gameover
deriving DecidableEq

/-- The tag `game.turn`. -/
inductive Turn where
  | player
  | cpu
deriving DecidableEq

/-- An entry of `game.log`. -/
structure LogEntry where
  text : String
  kind : String
deriving DecidableEq

/-- The object `game`. -/
structure Session where
  phase : Phase
  turn : Turn
  revealCPU : Bool
  log : List LogEntry
  ai : AIState
  player : Side
  cpu : Side
deriving DecidableEq

/-- Source `resetAIToHunt()`. -/
def resetAIToHunt (g : Session) : Session := { g with ai := freshAI }

/-- Steps 2 and 3 of `pickTargetForAI()`: the queue while the mode is
target, then the random hunt.  The choice is `none` when the hunt throws a
`TypeError` (destructuring `undefined`). -/
def queueOrHunt (g : Session) (u : Nat) : Session × Option Choice :=
  -- 2) the queue
  let queued : List (Int × Int) × Option (Int × Int) :=
    if g.ai.mode = .target then shiftTargets g.player.shots g.ai.targets
    else (g.ai.targets, none)
  let g2 : Session := { g with ai := { g.ai with targets := queued.1 } }
  match queued.2 with
  | some p => (g2, some { r := p.1, c := p.2, lineEnd := none })
  | none =>
    -- 3) random hunt
    match getRandomUntargetedCell g2.player u with
    | none => (g2, none)
    | some p => (g2, some { r := p.1, c := p.2, lineEnd := none })

/-- Step 1 of `pickTargetForAI()`, the direction-locked extension: the AI
state it leaves and the candidate it returns, if any; `none` when it throws
(an end that is `null`). -/
def lockedExtension (g : Session) : Option (AIState × Option Choice) :=
  match g.ai.dir with
  | some dir =>
    if g.ai.mode = .target ∧ g.ai.currentHits.length > 0 then
      let ends := getLineEnds g.ai.currentHits dir
      let tryPos : Option (Option (Int × Int)) :=
        if !g.ai.blockedPos then ends.1.map (fun e => some (nextCellFromEnd e dir 1))
        else some none
      let tryNeg : Option (Option (Int × Int)) :=
        if !g.ai.blockedNeg then ends.2.map (fun e => some (nextCellFromEnd e dir (-1)))
        else some none
      match tryPos, tryNeg with
      | some tp, some tn =>
        let candidates : List ((Int × Int) × LineEnd) :=
          (match tp with | some cell => [(cell, LineEnd.pos)] | none => []) ++
          (match tn with | some cell => [(cell, LineEnd.neg)] | none => [])
        some (tryCandidates g.player.shots candidates g.ai)
      | _, _ => none
    else some (g.ai, none)
  | none => some (g.ai, none)

/-- Source `pickTargetForAI()`.  The session returned carries the changes
made to `game.ai` (blocked flags, queue); the choice is `none` when the call
throws a `TypeError`. -/
def pickTargetForAI (g : Session) (u : Nat) : Session × Option Choice :=
  match lockedExtension g with
  | none => (g, none)
  | some (ai1, some choice) => ({ g with ai := ai1 }, some choice)
  | some (ai1, none) => queueOrHunt { g with ai := ai1 } u

/-- Source `coordLabel(r, c)` for a column whose letter code `65 + c` is a
character code (as for every column of the board). -/
def coordLabel (r c : Int) : String :=
  String.singleton (Char.ofNat (65 + c).toNat) ++ toString (r + 1)

/-- Source `addLogLine(text, kind)` with a session present. -/
def addLogLine (g : Session) (text kind : String) : Session :=
  { g with log := g.log ++ [{ text := text, kind := kind }] }

/-- The expression `shots ? Math.round((hits / shots) * 100) : 0` of
`finalizeLogSummary`, in double arithmetic, for counts below `2 ^ 53` (which
are doubles): the quotient is rounded to a double, its product with `100` is
rounded to a double, and `Math.round` takes the nearest integer of that. -/
def accuracy (hits shots : Nat) : Nat :=
  if shots = 0 then 0
  else
    let q := toDouble hits shots
    mathRound (toDouble (q.1 * 100) q.2)

/-- Source `finalizeLogSummary(winner)`. -/
def finalizeLogSummary (g : Session) (winner : String) : Session :=
  let totalFederationShots := g.cpu.shots.size
  let totalEnemyShots := g.player.shots.size
  let federationHits := countHits g.cpu
  let enemyHits := countHits g.player
  let fedAcc := accuracy federationHits totalFederationShots
  let enemyAcc := accuracy enemyHits totalEnemyShots
  let g1 := addLogLine g "— — — Mission Summary — — —" "muted"
  let g2 := addLogLine g1 ("Winner: <span class=\"sinkTxt\">" ++ winner ++ "</span>") "muted"
  let g3 := addLogLine g2
    ("Federation shots: " ++ toString totalFederationShots ++ " | hits: " ++
      toString federationHits ++ " | accuracy: " ++ toString fedAcc ++ "%") "muted"
  addLogLine g3
    ("Enemy shots: " ++ toString totalEnemyShots ++ " | hits: " ++
      toString enemyHits ++ " | accuracy: " ++ toString enemyAcc ++ "%") "muted"

/-- Truthiness of `result.sunk`: `null` and the empty string are falsy. -/
def truthy (sunk : Option String) : Bool :=
  match sunk with
  | none => false
  | some s => decide (s ≠ "")

/-- The text `${result.sunk}` of a template string. -/
def sunkText (sunk : Option String) : String :=
  match sunk with
  | none => "null"
  | some s => s

/-! ## Persistence -/

/-- The record `serializeSide` builds for a ship; a `none` field is one that
`deserializeSide` finds missing. -/
structure ShipRecord where
  id : Nat
  name : String
  length : Nat
  cells : Option (List Key)
  hits : Option (List Key)
deriving DecidableEq

/-- The record `serializeSide` builds. -/
structure SideRecord where
  grid : Grid
  shots : Option (List Key)
  ships : Option (List ShipRecord)
deriving DecidableEq

/-- The record `serializeGame` builds. -/
structure Payload where
  phase : Phase
  turn : Turn
  revealCPU : Bool
  log : Option (List LogEntry)
  ai : Option AIState
  player : SideRecord
  cpu : SideRecord
deriving DecidableEq

/-- Source `serializeSide(side)`. -/
def serializeSide (side : Side) : SideRecord :=
  { grid := side.grid,
    shots := some side.shots.toArray,
    ships := some (side.ships.map (fun s =>
      { id := s.id, name := s.name, length := s.length,
        cells := some s.cells.toArray, hits := some s.hits.toArray })) }

/-- Source `serializeGame(g)`. -/
def serializeGame (g : Session) : Payload :=
  { phase := g.phase, turn := g.turn, revealCPU := g.revealCPU,
    log := some g.log, ai := some g.ai,
    player := serializeSide g.player, cpu := serializeSide g.cpu }

/-- Source `deserializeSide(pSide)`; `x || []` is `x.getD []`, an array
being truthy. -/
def deserializeSide (pSide : SideRecord) : Side :=
  { grid := pSide.grid,
    shots := JSSet.ofArray (pSide.shots.getD []),
    ships := (pSide.ships.getD []).map (fun s =>
      { id := s.id, name := s.name, length := s.length,
        cells := JSSet.ofArray (s.cells.getD []),
        hits := JSSet.ofArray (s.hits.getD []) }) }

/-- Source `deserializeGame(p)`. -/
def deserializeGame (p : Payload) : Session :=
  { phase := p.phase, turn := p.turn, revealCPU := p.revealCPU,
    log := p.log.getD [],
    ai := p.ai.getD
      { mode := .hunt, targets := [], currentHits := [], dir := none,
        blockedPos := false, blockedNeg := false, lastEnd := none },
    player := deserializeSide p.player,
    cpu := deserializeSide p.cpu }

/-- The record `stats`: its two counters are JavaScript numbers, those
`loadStats` returned at start-up with the increments made since. -/
structure Stats where
  fedWins : JSNumber
  enemyWins : JSNumber
deriving DecidableEq

/-- The save slot as `loadGame` meets it: what `getItem`, `JSON.parse` and
`deserializeGame` make of the text stored there. -/
inductive SaveSlot where
  /-- Nothing stored (`getItem` gives `null`), or the empty text. -/
  | absent
  /-- Text on which `JSON.parse` throws. -/
  | unparsable
  /-- Text that parses to a value on which `deserializeGame` throws: `null`,
  or a value whose `player` or `cpu` is missing or `null`, so that the read
  of `pSide.grid` in `deserializeSide` throws. -/
  | noSides
  /-- Text that parses to a record with both sides: the JSON of `p`.  A side
  stored without a grid, or as a number or a string, is read as one with
  the grid `[]`: `deserializeGame` returns and `renderAll` throws on its
  first row, as it does on `[]`. -/
  | record (p : Payload)
deriving DecidableEq

/-- What the functions of a session read and write besides their
arguments: the variables `game` and `stats`, the two `localStorage` slots
and the number of `cpuMove` calls scheduled with `setTimeout`. -/
structure World where
  game : Option Session
  stats : Stats
  savedGame : SaveSlot
  savedStats : Option Stats
  pendingCpuMoves : Nat
deriving DecidableEq

/-- A handler run: the world it leaves and whether it ended by a throw. -/
structure Outcome where
  world : World
  threw : Bool
deriving DecidableEq

/-- Source `saveGame()` at a point where the mutations made so far have
turned the session into `g`: the variable `game` holds `g` and the save slot
holds its record. -/
def saveGame (w : World) (g : Session) : World :=
  { w with game := some g, savedGame := .record (serializeGame g) }

/-- Whether `renderBoard(container, side, opts)` throws, the container
being present: its loops read `side.grid[r][c]` for every cell of the board
and a missing row makes the read throw. -/
def renderBoardThrows (side : Side) : Bool :=
  boardCells.any (fun p => decide (gridRead side.grid p.1 p.2 = .typeError))

/-- Whether `renderAll()` throws: it renders the player's board, then the
cpu's. -/
def renderAllThrows (g : Session) : Bool :=
  renderBoardThrows g.player || renderBoardThrows g.cpu

/-- Source `loadGame()`: the world it leaves and the boolean it returns.
The variable `game` is assigned before `renderAll()` runs; the `catch`
removes the saved entry. -/
def loadGame (w : World) : World × Bool :=
  match w.savedGame with
  | .absent => (w, false)
  | .unparsable => ({ w with savedGame := .absent }, false)
  | .noSides => ({ w with savedGame := .absent }, false)
  | .record p =>
    let g := deserializeGame p
    if renderAllThrows g then ({ w with game := some g, savedGame := .absent }, false)
    else ({ w with game := some g }, true)

/-! ## Career stats in storage -/

/-- A value `JSON.parse` can return; the numbers are the integers. -/
inductive Json where
  | null
  | bool (b : Bool)
  | num (n : Int)
  | str (s : String)
  | arr (items : List Json)
  | obj (fields : List (String × Json))

/-- Truthiness of a parsed value. -/
def Json.truthy : Json → Bool
  | .null => false
  | .bool b => b
  | .num n => decide (n ≠ 0)
  | .str s => decide (s ≠ "")
  | .arr _ => true
  | .obj _ => true

/-- The property read `p.name` on a parsed value: `none` is the
`TypeError` on `null`, `some none` is `undefined`; of a key written twice
the last one counts. -/
def Json.field (p : Json) (name : String) : Option (Option Json) :=
  match p with
  | .null => none
  | .obj fields => some ((fields.reverse.find? (fun kv => kv.1 == name)).map (fun kv => kv.2))
  | _ => some none

/-- The expression `Number(x || 0)`, `x` a property read.  The argument
`conv` is the built-in `Number` on a truthy string, an array or an object
(a conversion through text), `none` when it throws. -/
def numberOrZero (conv : Json → Option JSNumber) (x : Option Json) : Option JSNumber :=
  match x with
  | none => some (.int 0)
  | some v =>
    if v.truthy then
      match v with
      | .bool _ => some (.int 1)
      | .num n => some (.int n)
      | other => conv other
    else some (.int 0)

/-- The record `loadStats` returns. -/
structure LoadedStats where
  fedWins : JSNumber
  enemyWins : JSNumber
deriving DecidableEq

/-- The stats slot as `loadStats` meets it. -/
inductive StatsSlot where
  /-- Nothing stored, or the empty text. -/
  | absent
  /-- Text on which `JSON.parse` throws. -/
  | unparsable
  /-- Text that parses to the value `v`. -/
  | parsed (v : Json)

/-- Source `loadStats()`; a throw inside `try` gives the zero record. -/
def loadStats (conv : Json → Option JSNumber) (raw : StatsSlot) : LoadedStats :=
  match raw with
  | .absent => { fedWins := .int 0, enemyWins := .int 0 }
  | .unparsable => { fedWins := .int 0, enemyWins := .int 0 }
  | .parsed p =>
    match (p.field "fedWins").bind (numberOrZero conv),
          (p.field "enemyWins").bind (numberOrZero conv) with
    | some f, some e => { fedWins := f, enemyWins := e }
    | _, _ => { fedWins := .int 0, enemyWins := .int 0 }

/-- The log lines `onFireAtEnemy` adds for the result of the shot at
`(r, c)`. -/
def logPlayerShot (g : Session) (r c : Int) (result : ShotResult) : Session :=
  let place := coordLabel r c
  if result.hit then
    let gh := addLogLine g
      ("You fired on " ++ place ++ ": <span class=\"hitTxt\">HIT</span>.") "muted"
    if truthy result.sunk then
      addLogLine gh
        ("Enemy vessel disabled: <span class=\"sinkTxt\">" ++ sunkText result.sunk ++
          "</span>.") "muted"
    else gh
  else
    addLogLine g
      ("You fired on " ++ place ++ ": <span class=\"missTxt\">MISS</span>.") "muted"

/-- The end of `onFireAtEnemy`, from the comment `Victory only after a HIT`
on; `w` and `g` are the world and the session after the first `saveGame()`. -/
def finishPlayerShot (w : World) (g : Session) (result : ShotResult) : Outcome :=
  if result.hit && isAllSunk g.cpu then
    let g1 : Session := { g with phase := .gameover }
    let g2 := addLogLine g1 "Enemy fleet neutralized. Mission accomplished." "sinkTxt"
    let g3 := finalizeLogSummary g2 "Federation"
    let stats1 : Stats := { w.stats with fedWins := jsAddOne w.stats.fedWins }
    { world := { w with game := some g3, stats := stats1, savedStats := some stats1,
                        savedGame := .absent },
      threw := false }
  else
    let g1 : Session := { g with turn := .cpu }
    let w1 := saveGame w g1
    { world := { w1 with pendingCpuMoves := w1.pendingCpuMoves + 1 }, threw := false }

/-- Source `onFireAtEnemy(r, c)`. -/
def onFireAtEnemy (w : World) (r c : Int) : Outcome :=
  match w.game with
  | none => { world := w, threw := false }
  | some g =>
    if g.phase ≠ .battle ∨ g.turn ≠ .player then { world := w, threw := false }
    else if g.cpu.shots.has (key r c) then { world := w, threw := false }
    else
      match applyShot g.cpu r c with
      | (cpu1, none) => { world := { w with game := some { g with cpu := cpu1 } }, threw := true }
      | (cpu1, some result) =>
        let g1 := logPlayerShot { g with cpu := cpu1 } r c result
        if renderAllThrows g1 then { world := { w with game := some g1 }, threw := true }
        else finishPlayerShot (saveGame w g1) g1 result

/-- The update of `game.ai` in `cpuMove` after a shot at `(r, c)` with the
given result; `g` already holds the shot in `g.player`. -/
def updateAIAfterShot (g : Session) (r c : Int) (result : ShotResult) : Session :=
  let place := coordLabel r c
  if result.hit then
    let g1 := addLogLine g
      ("Enemy fired on " ++ place ++ ": <span class=\"hitTxt\">HIT</span>.") "muted"
    let g2 : Session :=
      { g1 with ai := { g1.ai with mode := .target, currentHits := g1.ai.currentHits ++ [(r, c)] } }
    if truthy result.sunk then
      let g3 := addLogLine g2
        ("We lost: <span class=\"sinkTxt\">" ++ sunkText result.sunk ++ "</span>.") "muted"
      resetAIToHunt g3
    else
      match g2.ai.dir with
      | some _ => g2
      | none =>
        match determineDirectionFromHits g2.ai.currentHits with
        | some dir =>
          { g2 with ai := { g2.ai with dir := some dir, targets := [],
                                       blockedPos := false, blockedNeg := false } }
        | none =>
          { g2 with ai := { g2.ai with
              targets := pushUniqueTargets g2.ai.targets (getAdjacentCells r c) g2.player } }
  else
    let g1 := addLogLine g
      ("Enemy fired on " ++ place ++ ": <span class=\"missTxt\">MISS</span>.") "muted"
    let g2 : Session :=
      match g1.ai.dir, g1.ai.lastEnd with
      | some _, some e =>
        if g1.ai.mode = .target then
          match e with
          | .pos => { g1 with ai := { g1.ai with blockedPos := true } }
          | .neg => { g1 with ai := { g1.ai with blockedNeg := true } }
        else g1
      | _, _ => g1
    if g2.ai.dir.isSome && g2.ai.blockedPos && g2.ai.blockedNeg then resetAIToHunt g2 else g2

/-- The end of `cpuMove`, from the comment `Defeat only after a HIT` on;
`w` and `g` are the world and the session after the first `saveGame()`. -/
def finishCpuShot (w : World) (g : Session) (result : ShotResult) : Outcome :=
  if result.hit && isAllSunk g.player then
    let g1 : Session := { g with phase := .gameover }
    let g2 := addLogLine g1 "Starfleet task force disabled. Mission failed." "sinkTxt"
    let g3 := finalizeLogSummary g2 "Enemy"
    let stats1 : Stats := { w.stats with enemyWins := jsAddOne w.stats.enemyWins }
    { world := { w with game := some g3, stats := stats1, savedStats := some stats1,
                        savedGame := .absent },
      threw := false }
  else
    let g1 : Session := { g with turn := .player }
    { world := saveGame w g1, threw := false }

/-- Source `cpuMove()`; `u` is the draw used if the pick falls through to
the random hunt. -/
def cpuMove (w : World) (u : Nat) : Outcome :=
  match w.game with
  | none => { world := w, threw := false }
  | some g =>
    if g.phase ≠ .battle then { world := w, threw := false }
    else
      match pickTargetForAI g u with
      | (gp, none) => { world := { w with game := some gp }, threw := true }
      | (gp, some choice) =>
        let r := choice.r
        let c := choice.c
        let g0 : Session := { gp with ai := { gp.ai with lastEnd := choice.lineEnd } }
        match applyShot g0.player r c with
        | (player1, none) =>
          { world := { w with game := some { g0 with player := player1 } }, threw := true }
        | (player1, some result) =>
          let g1 := updateAIAfterShot { g0 with player := player1 } r c result
          if renderAllThrows g1 then { world := { w with game := some g1 }, threw := true }
          else finishCpuShot (saveGame w g1) g1 result

/-- The click handler of the reveal button. -/
def toggleReveal (w : World) : Outcome :=
  match w.game with
  | none => { world := w, threw := false }
  | some g =>
    let g1 : Session := { g with revealCPU := !g.revealCPU }
    if renderAllThrows g1 then { world := { w with game := some g1 }, threw := true }
    else
      let g2 := addLogLine g1
        (if g1.revealCPU then "Scan engaged — enemy ship signatures temporarily visible."
         else "Scan offline — enemy vessels cloaked again.") "muted"
      { world := saveGame w g2, threw := false }

/-! ## Ship placement -/

/-- An entry of `SHIPS`. -/
structure ShipDef where
  name : String
  length : Nat
deriving DecidableEq

/-- The constant `SHIPS`. -/
def SHIPS : List ShipDef :=
  [ { name := "USS Enterprise (Heavy Cruiser)", length := 5 },
    { name := "USS Defiant (Escort)", length := 4 },
    { name := "USS Voyager (Intrepid)", length := 3 },
    { name := "USS Discovery (Science)", length := 3 },
    { name := "Runabout (Support Craft)", length := 2 } ]

/-- Source `createSide()`. -/
def createSide : Side :=
  { grid := List.replicate SIZE (List.replicate SIZE none),
    shots := JSSet.empty,
    ships := [] }

/-- The random draws of one pass of the placement loop: `Math.random() <
0.5` and the two `randInt(0, SIZE - 1)`. -/
structure Sample where
  horizontal : Bool
  r : Fin 10
  c : Fin 10
deriving DecidableEq

/-- The array `coords` built in a pass of the placement loop. -/
def shipCoords (horizontal : Bool) (r c : Int) (length : Nat) : List (Int × Int) :=
  (List.range length).map (fun (i : Nat) =>
    (if horizontal then r else r + (i : Int), if horizontal then c + (i : Int) else c))

/-- The test `coords.every(([rr, cc]) => side.grid[rr][cc] === null)`:
`none` when a read throws; `every` stops at the first entry that is not
`null`. -/
def noOverlap (grid : Grid) : List (Int × Int) → Option Bool
  | [] => some true
  | p :: rest =>
    match gridRead grid p.1 p.2 with
    | .typeError => none
    | .value none => noOverlap grid rest
    | .undefined => some false
    | .value (some _) => some false

/-- The assignment `grid[r][c] = v` to an entry that exists. -/
def gridWrite (grid : Grid) (r c : Int) (v : Option Nat) : Grid :=
  grid.modify (fun row => row.set c.toNat v) r.toNat

/-- The outcome of one pass of the placement loop. -/
inductive Attempt where
  /-- The pass threw a `TypeError`. -/
  | fault
  /-- The sample was rejected, `placed` stays false. -/
  | rejected
  /-- The ship was committed. -/
  | placed (side : Side)
deriving DecidableEq

/-- One pass of the loop `while (!placed)` for the ship `idx`. -/
def tryPlace (side : Side) (idx : Nat) (shipDef : ShipDef) (s : Sample) : Attempt :=
  let coords := shipCoords s.horizontal (s.r.val : Int) (s.c.val : Int) shipDef.length
  let inGrid := coords.all (fun p => inBounds p.1 p.2)
  match noOverlap side.grid coords with
  | none => .fault
  | some free =>
    if inGrid && free then
      .placed
        { side with
          grid := coords.foldl (fun g p => gridWrite g p.1 p.2 (some idx)) side.grid,
          ships := side.ships ++
            [{ id := idx, name := shipDef.name, length := shipDef.length,
               cells := coords.foldl (fun cells p => cells.add (key p.1 p.2)) JSSet.empty,
               hits := JSSet.empty }] }
    else .rejected

/-- How a loop fed with a finite list of samples ends. -/
inductive Run (α : Type) where
  /-- The loop finished with this value. -/
  | done (a : α)
  /-- The loop threw a `TypeError`. -/
  | fault
  /-- The samples ran out while the loop was still running. -/
  | starved
deriving DecidableEq

/-- The loop `while (!placed)` for one ship: the side with the ship and the
samples left. -/
def placeShip (side : Side) (idx : Nat) (shipDef : ShipDef) : List Sample → Run (Side × List Sample)
  | [] => .starved
  | s :: rest =>
    match tryPlace side idx shipDef s with
    | .fault => .fault
    | .rejected => placeShip side idx shipDef rest
    | .placed side1 => .done (side1, rest)

/-- The call `SHIPS.forEach((shipDef, idx) => ...)` from index `idx` on. -/
def placeShips (side : Side) (idx : Nat) : List ShipDef → List Sample → Run Side
  | [], _ => .done side
  | shipDef :: defs, samples =>
    match placeShip side idx shipDef samples with
    | .done (side1, rest) => placeShips side1 (idx + 1) defs rest
    | .fault => .fault
    | .starved => .starved

/-- The two loops that set `side.grid[r][c] = null` for `r, c < SIZE`: a
missing row throws (`none`), a short row grows to `SIZE` entries, entries
past `SIZE` stay. -/
def clearGrid (grid : Grid) : Option Grid :=
  if grid.length < SIZE then none
  else some
    ((grid.take SIZE).map (fun row => List.replicate SIZE none ++ row.drop SIZE) ++
      grid.drop SIZE)

/-- Source `placeAllShipsRandom(side)` on the draws `samples`. -/
def placeAllShipsRandom (side : Side) (samples : List Sample) : Run Side :=
  match clearGrid side.grid with
  | none => .fault
  | some grid => placeShips { side with ships := [], grid := grid } 0 SHIPS samples

/-! ## Well-formedness of a side -/

/-- The grid has `SIZE` rows of `SIZE` entries. -/
def GridShape (grid : Grid) : Prop :=
  grid.length = SIZE ∧ ∀ row ∈ grid, row.length = SIZE

instance (grid : Grid) : Decidable (GridShape grid) := by
  unfold GridShape; infer_instance

/-- The grid agrees with the ships' cells: every entry of the board is
`null` or the id of a ship of the side, and a ship has a coordinate among
its cells exactly when the entry there is its id. -/
def GridAgrees (side : Side) : Prop :=
  ∀ p ∈ boardCells,
    (gridRead side.grid p.1 p.2 = .value none ∨
      ∃ s ∈ side.ships, gridRead side.grid p.1 p.2 = .value (some s.id)) ∧
    ∀ s ∈ side.ships,
      key p.1 p.2 ∈ s.cells.1 ↔ gridRead side.grid p.1 p.2 = .value (some s.id)

instance (side : Side) : Decidable (GridAgrees side) := by
  unfold GridAgrees; infer_instance

/-- A side as the placement leaves it: the grid has the board's shape; an
entry holds a ship id exactly when the coordinate is among the cells of a
ship with that id; and every ship has no hits and `length` cells, all on the
board, in one horizontal or vertical line. -/
def Placed (side : Side) : Prop :=
  GridShape side.grid ∧
  (∀ (r c : Int) (id : Nat), gridRead side.grid r c = .value (some id) ↔
    ∃ s ∈ side.ships, s.id = id ∧ key r c ∈ s.cells.1) ∧
  ∀ s ∈ side.ships, s.hits = JSSet.empty ∧ s.cells.size = s.length ∧
    (∀ k ∈ s.cells.1, inBounds k.1 k.2 = true) ∧
    ∃ r c : Int,
      s.cells.1 = (List.range s.length).map (fun (i : Nat) => key r (c + (i : Int))) ∨
      s.cells.1 = (List.range s.length).map (fun (i : Nat) => key (r + (i : Int)) c)

/-- A side in play: the grid agrees with the cells, the ship ids are all
different, the cells lie on the board and every hit is a cell of its ship. -/
def InPlay (side : Side) : Prop :=
  GridAgrees side ∧ (side.ships.map (fun s => s.id)).Nodup ∧
  (∀ s ∈ side.ships, ∀ k ∈ s.cells.1, inBounds k.1 k.2 = true) ∧
  ∀ s ∈ side.ships, ∀ k ∈ s.hits.1, k ∈ s.cells.1

/-- An event of a session: a click on a cell of the enemy board, the
scheduled opponent move with its draw, a click on the reveal button. -/
inductive Action where
  | fire (r c : Int)
  | cpu (u : Nat)
  | reveal
deriving DecidableEq

/-- The world after the handler of an event has run (to its end or to a
throw). -/
def step (w : World) : Action → World
  | .fire r c => (onFireAtEnemy w r c).world
  | .cpu u => (cpuMove w u).world
  | .reveal => (toggleReveal w).world

/-- The world after a sequence of events. -/
def run (w : World) (actions : List Action) : World := actions.foldl step w

/-- What a mission keeps true of a session, as far as the opponent's shots
go: the player's side is in play, every shot at a cell of a ship is among
that ship's hits, the queue holds board coordinates only, the cpu grid
renders, and in phase battle some ship of the player is not sunk. -/
def Pursuable (g : Session) : Prop :=
  InPlay g.player ∧
  (∀ s ∈ g.player.ships, ∀ k ∈ s.cells.1, k ∈ g.player.shots.1 → k ∈ s.hits.1) ∧
  (∀ p ∈ g.ai.targets, inBounds p.1 p.2 = true) ∧
  renderBoardThrows g.cpu = false ∧
  (g.phase = .battle → ∃ s ∈ g.player.ships, s.hits.size ≠ s.cells.size)

/-! ## Sample states -/

/-- A side with two ships: the Voyager on `(0,0)..(0,2)` and the Runabout
on `(2,0)..(3,0)`; nothing shot. -/
def sampleSide : Side :=
  { grid :=
      [ [some 0, some 0, some 0, none, none, none, none, none, none, none],
        [none, none, none, none, none, none, none, none, none, none],
        [some 1, none, none, none, none, none, none, none, none, none],
        [some 1, none, none, none, none, none, none, none, none, none],
        [none, none, none, none, none, none, none, none, none, none],
        [none, none, none, none, none, none, none, none, none, none],
        [none, none, none, none, none, none, none, none, none, none],
        [none, none, none, none, none, none, none, none, none, none],
        [none, none, none, none, none, none, none, none, none, none],
        [none, none, none, none, none, none, none, none, none, none] ],
    shots := JSSet.empty,
    ships :=
      [ { id := 0, name := "USS Voyager (Intrepid)", length := 3,
          cells := ⟨[(0, 0), (0, 1), (0, 2)], by decide⟩, hits := JSSet.empty },
        { id := 1, name := "Runabout (Support Craft)", length := 2,
          cells := ⟨[(2, 0), (3, 0)], by decide⟩, hits := JSSet.empty } ] }

/-- The session `newMission` builds around the two sides (without its
first log line). -/
def sessionOf (player cpu : Side) : Session :=
  { phase := .battle, turn := .player, revealCPU := false, log := [], ai := freshAI,
    player := player, cpu := cpu }

/-- A world holding the session `g`, nothing saved, nothing scheduled. -/
def worldOf (g : Session) : World :=
  { game := some g, stats := { fedWins := .int 0, enemyWins := .int 0 },
    savedGame := .absent, savedStats := none, pendingCpuMoves := 0 }

/-- The sample side with every cell shot but `(3, 0)`. -/
def endgameSide : Side :=
  sideAfterShots sampleSide [(0, 0), (0, 1), (0, 2), (2, 0)]

/-- The sample side after a shot at `(2, 0)`: the Runabout has one cell
left. -/
def woundedSide : Side := sideAfterShots sampleSide [(2, 0)]

/-- A session on the sample sides whose AI has hit `(0, 0)` and `(0, 1)`
and locked the horizontal direction. -/
def pursuitSession : Session :=
  { sessionOf sampleSide sampleSide with
    ai := { freshAI with mode := .target, currentHits := [(0, 0), (0, 1)],
                         dir := some { dr := 0, dc := 1 } } }

/-- A saved record whose sides have a grid without rows: the text
`{"phase":"battle","turn":"player","revealCPU":false,"player":{"grid":[]},"cpu":{"grid":[]}}`. -/
def gridlessPayload : Payload :=
  { phase := .battle, turn := .player, revealCPU := false, log := none, ai := none,
    player := { grid := [], shots := none, ships := none },
    cpu := { grid := [], shots := none, ships := none } }

/-- Draws that place the five ships in the rows 0, 1, 5, 6 and 7, from
column 0 to the right. -/
def fleetSamples : List Sample :=
  [ { horizontal := true, r := 0, c := 0 }, { horizontal := true, r := 1, c := 0 },
    { horizontal := true, r := 5, c := 0 }, { horizontal := true, r := 6, c := 0 },
    { horizontal := true, r := 7, c := 0 } ]

/-- The side `placeAllShipsRandom` builds on `fleetSamples`. -/
def fleetSide : Side :=
  match placeAllShipsRandom createSide fleetSamples with
  | .done side => side
  | _ => createSide

/-- A mission on two such sides after three rounds and a fourth player
shot: the opponent hit `(0, 0)` and `(1, 0)` (two ships), locked the vertical
direction, missed `(2, 0)` and so has the positive end blocked. -/
def lockedWorld : World :=
  let w1 := (onFireAtEnemy (worldOf (sessionOf fleetSide fleetSide)) 9 9).world
  let w2 := (cpuMove w1 0).world
  let w3 := (onFireAtEnemy w2 9 8).world
  let w4 := (cpuMove w3 0).world
  let w5 := (onFireAtEnemy w4 9 7).world
  let w6 := (cpuMove w5 0).world
  (onFireAtEnemy w6 9 6).world

/-! ## Sets -/

/-- Adding a new member appends it. -/
theorem JSSet.val_add_of_not_mem {α : Type} [DecidableEq α] (s : JSSet α) (k : α) (h : k ∉ s.1) :
    (s.add k).1 = s.1 ++ [k] := by
  simp [JSSet.add, h]

/-- Adding a member already present changes nothing. -/
theorem JSSet.add_of_mem {α : Type} [DecidableEq α] (s : JSSet α) (k : α) (h : k ∈ s.1) :
    s.add k = s := by
  simp [JSSet.add, h]

/-- Membership after `add`. -/
theorem JSSet.mem_add {α : Type} [DecidableEq α] (s : JSSet α) (k a : α) :
    a ∈ (s.add k).1 ↔ a ∈ s.1 ∨ a = k := by
  by_cases h : k ∈ s.1
  · rw [JSSet.add_of_mem s k h]
    constructor
    · exact Or.inl
    · rintro (h' | rfl)
      · exact h'
      · exact h
  · rw [JSSet.val_add_of_not_mem s k h]
    simp

/-- Adding the entries of a list without repeats appends the list. -/
theorem JSSet.foldl_add_val {α : Type} [DecidableEq α] (l : List α) (s : JSSet α)
    (h : (s.1 ++ l).Nodup) : (l.foldl JSSet.add s).1 = s.1 ++ l := by
  induction l generalizing s with
  | nil => simp
  | cons a rest ih =>
    have ha : a ∉ s.1 := by
      intro hmem
      have := List.nodup_append.mp h
      exact this.2.2 hmem (List.mem_cons_self a rest)
    rw [List.foldl_cons, ih]
    · rw [JSSet.val_add_of_not_mem s a ha]; simp
    · rw [JSSet.val_add_of_not_mem s a ha]; simpa using h

/-- A set rebuilt from its own array is the same set, order included. -/
theorem JSSet.ofArray_toArray {α : Type} [DecidableEq α] (s : JSSet α) :
    JSSet.ofArray s.toArray = s := by
  apply Subtype.ext
  have := JSSet.foldl_add_val s.1 JSSet.empty (by simpa [JSSet.empty] using s.2)
  simpa [JSSet.ofArray, JSSet.toArray, JSSet.empty] using this

/-! ## The shot resolver -/

/-- Source `inBounds` as inequalities. -/
theorem inBounds_iff (r c : Int) :
    inBounds r c = true ↔ (0 ≤ r ∧ r < 10 ∧ 0 ≤ c ∧ c < 10) := by
  simp only [inBounds, SIZE, Bool.and_eq_true, decide_eq_true_eq]
  constructor
  · rintro ⟨⟨⟨h1, h2⟩, h3⟩, h4⟩
    exact ⟨h1, by simpa using h2, h3, by simpa using h4⟩
  · rintro ⟨h1, h2, h3, h4⟩
    exact ⟨⟨⟨h1, by simpa using h2⟩, h3⟩, by simpa using h4⟩

/-- The board cells are the in-bounds coordinates. -/
theorem mem_boardCells_iff (r c : Int) : (r, c) ∈ boardCells ↔ inBounds r c = true := by
  rw [inBounds_iff]
  constructor
  · intro h
    obtain ⟨a, ha, h⟩ := List.mem_flatMap.mp h
    obtain ⟨b, hb, h⟩ := List.mem_map.mp h
    rw [List.mem_range] at ha hb
    simp only [SIZE] at ha hb
    rw [Prod.mk.injEq] at h
    omega
  · rintro ⟨h1, h2, h3, h4⟩
    refine List.mem_flatMap.mpr ⟨r.toNat, List.mem_range.mpr (by simp only [SIZE]; omega), ?_⟩
    refine List.mem_map.mpr ⟨c.toNat, List.mem_range.mpr (by simp only [SIZE]; omega), ?_⟩
    rw [Prod.mk.injEq]
    omega

/-- An array read inside the array. -/
theorem jsIndex_eq_some {α : Type} (xs : List α) (i : Int) (h0 : 0 ≤ i) (h1 : i < xs.length) :
    ∃ x, jsIndex xs i = some x ∧ x ∈ xs ∧ xs[i.toNat]? = some x := by
  have hlt : i.toNat < xs.length := by omega
  refine ⟨xs[i.toNat], ?_, List.getElem_mem hlt, List.getElem?_eq_getElem hlt⟩
  simp [jsIndex, h0, List.getElem?_eq_getElem hlt]

/-- An array read outside the array is `undefined`. -/
theorem jsIndex_eq_none {α : Type} (xs : List α) (i : Int) (h : i < 0 ∨ (xs.length : Int) ≤ i) :
    jsIndex xs i = none := by
  unfold jsIndex
  split
  · rw [List.getElem?_eq_none_iff]
    omega
  · rfl

/-- On a grid of the board's shape a read off the board is no entry. -/
theorem gridRead_off_board (grid : Grid) (hshape : GridShape grid) (r c : Int)
    (hout : inBounds r c = false) :
    gridRead grid r c = .typeError ∨ gridRead grid r c = .undefined := by
  obtain ⟨hlen, hrows⟩ := hshape
  simp only [SIZE] at hlen hrows
  have hnot : ¬ (0 ≤ r ∧ r < 10 ∧ 0 ≤ c ∧ c < 10) := by
    rw [← inBounds_iff]; simp [hout]
  by_cases hr : 0 ≤ r ∧ r < 10
  · obtain ⟨row, hrow, hmem, _⟩ := jsIndex_eq_some grid r hr.1 (by omega)
    right
    have hc : c < 0 ∨ ((row.length : Int) ≤ c) := by
      rw [hrows row hmem]
      omega
    simp [gridRead, hrow, jsIndex_eq_none row c hc]
  · left
    have : jsIndex grid r = none := jsIndex_eq_none grid r (by omega)
    simp [gridRead, this]

/-- On a grid of the board's shape a read on the board is an entry. -/
theorem gridRead_on_board (grid : Grid) (hshape : GridShape grid) (r c : Int)
    (hin : inBounds r c = true) : ∃ v, gridRead grid r c = .value v := by
  obtain ⟨hlen, hrows⟩ := hshape
  simp only [SIZE] at hlen hrows
  obtain ⟨h1, h2, h3, h4⟩ := (inBounds_iff r c).mp hin
  obtain ⟨row, hrow, hmem, _⟩ := jsIndex_eq_some grid r h1 (by omega)
  obtain ⟨v, hv, _, _⟩ := jsIndex_eq_some row c h3 (by rw [hrows row hmem]; omega)
  exact ⟨v, by simp [gridRead, hrow, hv]⟩

/-- What `hitShip` does: it fails when no ship has the id, and otherwise
updates the first ship with the id and nothing else. -/
theorem hitShip_spec (shipId : Nat) (k : Key) (ships : List Ship) :
    (hitShip shipId k ships = none ∧ ∀ t ∈ ships, t.id ≠ shipId) ∨
    ∃ pre s post, ships = pre ++ s :: post ∧ s.id = shipId ∧ (∀ t ∈ pre, t.id ≠ shipId) ∧
      hitShip shipId k ships =
        some ({ s with hits := s.hits.add k }, pre ++ { s with hits := s.hits.add k } :: post) := by
  induction ships with
  | nil => left; simp [hitShip]
  | cons a rest ih =>
    by_cases ha : a.id = shipId
    · right
      exact ⟨[], a, rest, rfl, ha, by simp, by simp [hitShip, ha]⟩
    · rcases ih with ⟨hn, hall⟩ | ⟨pre, s, post, hs, hid, hpre, hh⟩
      · left
        refine ⟨by simp [hitShip, ha, hn], ?_⟩
        intro t ht
        rcases List.mem_cons.mp ht with rfl | ht
        · exact ha
        · exact hall t ht
      · right
        refine ⟨a :: pre, s, post, by simp [hs], hid, ?_, by simp [hitShip, ha, hh]⟩
        intro t ht
        rcases List.mem_cons.mp ht with rfl | ht
        · exact ha
        · exact hpre t ht

/-- C1: for a side whose grid agrees with its ships' cells and an in-bounds
coordinate, `applyShot` adds the key to `shots` and leaves the grid; on an
empty entry it returns a miss and changes no ship; on an entry holding an id
it adds the key to the hits of the ship `find` returns for that id (the first
with the id) and to no other, returns `hit: true`, and `sunk` is that ship's
name exactly when its hits now have the size of its cells, `null` otherwise. -/
theorem applyShot_contract (side : Side) (r c : Int)
    (hagree : GridAgrees side) (hb : inBounds r c = true) :
    (applyShot side r c).1.shots = side.shots.add (key r c) ∧
    (applyShot side r c).1.grid = side.grid ∧
    (gridRead side.grid r c = .value none ∨ ∃ id, gridRead side.grid r c = .value (some id)) ∧
    (gridRead side.grid r c = .value none →
      (applyShot side r c).2 = some { hit := false, sunk := none } ∧
      (applyShot side r c).1.ships = side.ships) ∧
    (∀ id, gridRead side.grid r c = .value (some id) →
      ∃ pre s post, side.ships = pre ++ s :: post ∧ s.id = id ∧ (∀ t ∈ pre, t.id ≠ id) ∧
        (applyShot side r c).1.ships = pre ++ { s with hits := s.hits.add (key r c) } :: post ∧
        (applyShot side r c).2 = some
          { hit := true,
            sunk := if (s.hits.add (key r c)).size = s.cells.size then some s.name else none }) := by
  have hcell := hagree (r, c) ((mem_boardCells_iff r c).mpr hb)
  simp only at hcell
  obtain ⟨hval, _⟩ := hcell
  refine ⟨?_, ?_, ?_, ?_, ?_⟩
  · unfold applyShot
    simp only
    split <;> try rfl
    split <;> rfl
  · unfold applyShot
    simp only
    split <;> try rfl
    split <;> rfl
  · rcases hval with h | ⟨s, _, h⟩
    · exact Or.inl h
    · exact Or.inr ⟨s.id, h⟩
  · intro h
    simp [applyShot, h]
  · intro id h
    have hex : ∃ s ∈ side.ships, s.id = id := by
      rcases hval with h' | ⟨s, hs, h'⟩
      · rw [h] at h'; cases h'
      · rw [h] at h'
        injection h' with h'
        injection h' with h'
        exact ⟨s, hs, h'.symm⟩
    rcases hitShip_spec id (key r c) side.ships with ⟨_, hall⟩ | ⟨pre, s, post, hs, hid, hpre, hh⟩
    · obtain ⟨s, hs, hid⟩ := hex
      exact absurd hid (hall s hs)
    · refine ⟨pre, s, post, hs, hid, hpre, ?_, ?_⟩ <;> simp [applyShot, h, hh]

/-- C1 at the sample side and the coordinate `(2, 0)`. -/
theorem applyShot_contract_witness :
    GridAgrees sampleSide ∧ inBounds 2 0 = true ∧
      (applyShot sampleSide 2 0).1.shots = sampleSide.shots.add (key 2 0) :=
  ⟨by decide, by decide, (applyShot_contract sampleSide 2 0 (by decide) (by decide)).1⟩

/-! ## Runs of shots -/

/-- The shots after a call, whatever its result. -/
theorem applyShot_shots (side : Side) (r c : Int) :
    (applyShot side r c).1.shots = side.shots.add (key r c) := by
  unfold applyShot
  simp only
  split <;> try rfl
  split <;> rfl

/-- The two effects a call can have on the ships: none, with no ship
reported, or a new hit on one ship, which is reported if that completes it. -/
theorem applyShot_ships (side : Side) (r c : Int) :
    ((applyShot side r c).1.ships = side.ships ∧
      ∀ res, (applyShot side r c).2 = some res → res.sunk = none) ∨
    ∃ pre s post, side.ships = pre ++ s :: post ∧
      (applyShot side r c).1.ships = pre ++ { s with hits := s.hits.add (key r c) } :: post ∧
      (applyShot side r c).2 = some
        { hit := true,
          sunk := if (s.hits.add (key r c)).size = s.cells.size then some s.name else none } := by
  unfold applyShot
  simp only
  split
  · exact Or.inl ⟨rfl, fun _ h => by cases h⟩
  · refine Or.inl ⟨rfl, fun res h => ?_⟩
    simp only [Option.some.injEq] at h
    rw [← h]
  · exact Or.inl ⟨rfl, fun _ h => by cases h⟩
  · rename_i shipId _
    rcases hitShip_spec shipId (key r c) side.ships with ⟨hn, _⟩ | ⟨pre, s, post, hs, _, _, hh⟩
    · rw [hn]
      exact Or.inl ⟨rfl, fun _ h => by cases h⟩
    · rw [hh]
      exact Or.inr ⟨pre, s, post, hs, rfl, rfl⟩

/-- A call keeps the names of the ships, in order. -/
theorem applyShot_names (side : Side) (r c : Int) :
    (applyShot side r c).1.ships.map (·.name) = side.ships.map (·.name) := by
  rcases applyShot_ships side r c with ⟨h, _⟩ | ⟨pre, s, post, hs, h, _⟩
  · rw [h]
  · rw [h, hs]; simp

/-- A call keeps every hit among the shots. -/
theorem applyShot_hits_shot (side : Side) (r c : Int)
    (hhits : ∀ s ∈ side.ships, ∀ k ∈ s.hits.1, k ∈ side.shots.1) :
    ∀ s ∈ (applyShot side r c).1.ships, ∀ k ∈ s.hits.1, k ∈ (applyShot side r c).1.shots.1 := by
  intro s hs k hk
  rw [applyShot_shots, JSSet.mem_add]
  rcases applyShot_ships side r c with ⟨h, _⟩ | ⟨pre, t, post, hst, h, _⟩
  · rw [h] at hs
    exact Or.inl (hhits s hs k hk)
  · rw [h] at hs
    rcases List.mem_append.mp hs with hp | hp
    · exact Or.inl (hhits s (by rw [hst]; exact List.mem_append_left _ hp) k hk)
    · rcases List.mem_cons.mp hp with rfl | hp
      · simp only at hk
        rcases (JSSet.mem_add _ _ _).mp hk with hk | hk
        · exact Or.inl (hhits t (by rw [hst]; simp) k hk)
        · exact Or.inr hk
      · exact Or.inl (hhits s (by rw [hst]; simp [hp]) k hk)

/-- A ship with at least as many hits as cells stays so after a call. -/
theorem applyShot_full_mono (side : Side) (r c : Int) (n : String)
    (h : ∃ s ∈ side.ships, s.name = n ∧ s.cells.size ≤ s.hits.size) :
    ∃ s ∈ (applyShot side r c).1.ships, s.name = n ∧ s.cells.size ≤ s.hits.size := by
  obtain ⟨s, hs, hn, hfull⟩ := h
  rcases applyShot_ships side r c with ⟨h, _⟩ | ⟨pre, t, post, hst, h, _⟩
  · rw [h]; exact ⟨s, hs, hn, hfull⟩
  · rw [h]
    rw [hst] at hs
    rcases List.mem_append.mp hs with hp | hp
    · exact ⟨s, List.mem_append_left _ hp, hn, hfull⟩
    · rcases List.mem_cons.mp hp with rfl | hp
      · refine ⟨{ s with hits := s.hits.add (key r c) }, by simp, hn, ?_⟩
        simp only
        by_cases hk : key r c ∈ s.hits.1
        · simpa [JSSet.add, hk] using hfull
        · simp only [JSSet.size, JSSet.val_add_of_not_mem _ _ hk, List.length_append,
            List.length_singleton]
          simp only [JSSet.size] at hfull
          omega
      · exact ⟨s, by simp [hp], hn, hfull⟩

/-- A call at a coordinate not shot before reports a name only for a ship
that was not complete before the call and is complete after it. -/
theorem applyShot_report (side : Side) (r c : Int) (res : ShotResult) (n : String)
    (hnames : (side.ships.map (·.name)).Nodup)
    (hhits : ∀ s ∈ side.ships, ∀ k ∈ s.hits.1, k ∈ side.shots.1)
    (hfresh : key r c ∉ side.shots.1)
    (hres : (applyShot side r c).2 = some res) (hsunk : res.sunk = some n) :
    (∀ s ∈ side.ships, s.name = n → s.hits.size < s.cells.size) ∧
    SunkIn (applyShot side r c).1 n := by
  rcases applyShot_ships side r c with ⟨_, h⟩ | ⟨pre, t, post, hst, h, hr⟩
  · rw [h res hres] at hsunk; cases hsunk
  · rw [hr, Option.some.injEq] at hres
    subst hres
    simp only at hsunk
    have htmem : t ∈ side.ships := by rw [hst]; simp
    have hk : key r c ∉ t.hits.1 := fun hk => hfresh (hhits t htmem _ hk)
    split at hsunk
    · rename_i hsize
      simp only [Option.some.injEq] at hsunk
      constructor
      · intro s hs hsn
        have : s = t := List.inj_on_of_nodup_map hnames hs htmem (by simp [hsn, hsunk])
        subst this
        simp only [JSSet.size, JSSet.val_add_of_not_mem _ _ hk, List.length_append,
          List.length_singleton] at hsize
        simp only [JSSet.size]
        omega
      · refine ⟨{ t with hits := t.hits.add (key r c) }, by rw [h]; simp, hsunk, hsize⟩
    · cases hsunk

/-- A call after which a ship is complete that was not before reports that
ship. -/
theorem applyShot_completes (side : Side) (r c : Int) (n : String)
    (hbefore : ¬ SunkIn side n) (hafter : SunkIn (applyShot side r c).1 n) :
    (applyShot side r c).2 = some { hit := true, sunk := some n } := by
  obtain ⟨s1, hs1, hn, hfull⟩ := hafter
  rcases applyShot_ships side r c with ⟨h, _⟩ | ⟨pre, t, post, hst, h, hr⟩
  · rw [h] at hs1
    exact absurd ⟨s1, hs1, hn, hfull⟩ hbefore
  · rw [h] at hs1
    have hold : ∀ s ∈ side.ships, ¬ (s.name = n ∧ s.hits.size = s.cells.size) :=
      fun s hs hc => hbefore ⟨s, hs, hc⟩
    rcases List.mem_append.mp hs1 with hp | hp
    · exact absurd ⟨hn, hfull⟩ (hold s1 (by rw [hst]; exact List.mem_append_left _ hp))
    · rcases List.mem_cons.mp hp with rfl | hp
      · simp only at hn hfull
        rw [hr, if_pos hfull, hn]
      · exact absurd ⟨hn, hfull⟩ (hold s1 (by rw [hst]; simp [hp]))

/-- The side after one more call of a run. -/
theorem sideAfterShots_take_succ (side : Side) (coords : List (Int × Int)) (k : Nat)
    (p : Int × Int) (hp : coords[k]? = some p) :
    sideAfterShots side (coords.take (k + 1)) =
      (applyShot (sideAfterShots side (coords.take k)) p.1 p.2).1 := by
  induction coords generalizing side k with
  | nil => simp at hp
  | cons q rest ih =>
    cases k with
    | zero =>
      simp only [List.getElem?_cons_zero, Option.some.injEq] at hp
      subst hp
      simp [sideAfterShots]
    | succ k =>
      simp only [List.getElem?_cons_succ] at hp
      have := ih (applyShot side q.1 q.2).1 k hp
      simpa [sideAfterShots] using this

/-- The result of call `k` of a run is the result of `applyShot` on the side
the calls before it left. -/
theorem shotResults_getElem (side : Side) (coords : List (Int × Int)) (k : Nat) :
    (shotResults side coords)[k]? =
      (coords[k]?).map (fun p => (applyShot (sideAfterShots side (coords.take k)) p.1 p.2).2) := by
  induction coords generalizing side k with
  | nil => simp [shotResults]
  | cons q rest ih =>
    cases k with
    | zero => simp [shotResults, sideAfterShots]
    | succ k =>
      simp only [shotResults, List.getElem?_cons_succ, List.take_succ_cons]
      rw [ih]
      rfl

/-- What a run keeps: the names, the hits among the shots, and shots that
are old or fired in the run. -/
theorem sideAfterShots_inv (side : Side) (coords : List (Int × Int))
    (hhits : ∀ s ∈ side.ships, ∀ k ∈ s.hits.1, k ∈ side.shots.1) :
    (sideAfterShots side coords).ships.map (·.name) = side.ships.map (·.name) ∧
    (∀ s ∈ (sideAfterShots side coords).ships, ∀ k ∈ s.hits.1,
      k ∈ (sideAfterShots side coords).shots.1) ∧
    (∀ k ∈ (sideAfterShots side coords).shots.1, k ∈ side.shots.1 ∨ k ∈ coords) := by
  induction coords generalizing side with
  | nil => exact ⟨rfl, hhits, fun k hk => Or.inl hk⟩
  | cons q rest ih =>
    obtain ⟨h1, h2, h3⟩ := ih (applyShot side q.1 q.2).1 (applyShot_hits_shot side q.1 q.2 hhits)
    refine ⟨?_, h2, ?_⟩
    · show (sideAfterShots (applyShot side q.1 q.2).1 rest).ships.map (·.name) = _
      rw [h1, applyShot_names]
    · intro k hk
      rcases h3 k hk with h | h
      · rw [applyShot_shots, JSSet.mem_add] at h
        rcases h with h | h
        · exact Or.inl h
        · right
          rw [h]
          exact List.mem_cons_self _ _
      · exact Or.inr (List.mem_cons_of_mem _ h)

/-- A ship with at least as many hits as cells stays so through a run. -/
theorem sideAfterShots_full_mono (side : Side) (coords : List (Int × Int)) (n : String)
    (h : ∃ s ∈ side.ships, s.name = n ∧ s.cells.size ≤ s.hits.size) :
    ∃ s ∈ (sideAfterShots side coords).ships, s.name = n ∧ s.cells.size ≤ s.hits.size := by
  induction coords generalizing side with
  | nil => exact h
  | cons q rest ih => exact ih (applyShot side q.1 q.2).1 (applyShot_full_mono side q.1 q.2 n h)

/-- A run split at call `m`. -/
theorem sideAfterShots_take_split (side : Side) (coords : List (Int × Int)) (m j : Nat)
    (hmj : m ≤ j) :
    sideAfterShots side (coords.take j) =
      sideAfterShots (sideAfterShots side (coords.take m)) ((coords.take j).drop m) := by
  have : coords.take j = coords.take m ++ (coords.take j).drop m := by
    conv_lhs => rw [← List.take_append_drop m (coords.take j)]
    rw [List.take_take, Nat.min_eq_left hmj]
  conv_lhs => rw [this]
  simp [sideAfterShots, List.foldl_append]

/-- What holds before call `k` of a run at coordinates all different and
not shot before the run. -/
theorem run_before_call (side : Side) (coords : List (Int × Int))
    (hnames : (side.ships.map (·.name)).Nodup)
    (hhits : ∀ s ∈ side.ships, ∀ k ∈ s.hits.1, k ∈ side.shots.1)
    (hnodup : coords.Nodup) (hfresh : ∀ p ∈ coords, key p.1 p.2 ∉ side.shots.1)
    (k : Nat) (p : Int × Int) (hp : coords[k]? = some p) :
    ((sideAfterShots side (coords.take k)).ships.map (·.name)).Nodup ∧
    (∀ s ∈ (sideAfterShots side (coords.take k)).ships, ∀ x ∈ s.hits.1,
      x ∈ (sideAfterShots side (coords.take k)).shots.1) ∧
    key p.1 p.2 ∉ (sideAfterShots side (coords.take k)).shots.1 := by
  obtain ⟨h1, h2, h3⟩ := sideAfterShots_inv side (coords.take k) hhits
  refine ⟨by rw [h1]; exact hnames, h2, ?_⟩
  intro hmem
  rcases h3 _ hmem with h | h
  · exact hfresh p (List.getElem?_mem hp) h
  · have hk : k < coords.length := by
      rcases Nat.lt_or_ge k coords.length with h' | h'
      · exact h'
      · rw [List.getElem?_eq_none_iff.mpr h'] at hp; cases hp
    have hpk : coords[k] = p := by
      rw [List.getElem?_eq_getElem hk] at hp
      exact Option.some.inj hp
    have hkey : key p.1 p.2 = p := rfl
    rw [hkey] at h
    obtain ⟨i, hi, hip⟩ := List.getElem_of_mem h
    rw [List.length_take] at hi
    rw [List.getElem_take] at hip
    have := (@List.Nodup.getElem_inj_iff _ _ hnodup i (by omega) k hk).mp (hip.trans hpk.symm)
    omega

/-- C10, amended: for a side whose ships have different names and whose
hits are all among its shots, and a run of `applyShot` calls at coordinates
all different and none shot before the run: a call returns the name `n` as
`sunk` only if the ship named `n` did not have as many hits as cells before
the call and has as many after it; a call that brings the ship from the one
to the other returns the name; and no later call returns the name again. -/
theorem sunk_reported_once (side : Side) (coords : List (Int × Int)) (n : String)
    (hnames : (side.ships.map (·.name)).Nodup)
    (hhits : ∀ s ∈ side.ships, ∀ k ∈ s.hits.1, k ∈ side.shots.1)
    (hnodup : coords.Nodup) (hfresh : ∀ p ∈ coords, key p.1 p.2 ∉ side.shots.1) :
    (∀ (k : Nat) (res : ShotResult), (shotResults side coords)[k]? = some (some res) →
      res.sunk = some n →
      ¬ SunkIn (sideAfterShots side (coords.take k)) n ∧
      SunkIn (sideAfterShots side (coords.take (k + 1))) n) ∧
    (∀ k : Nat, k < coords.length →
      ¬ SunkIn (sideAfterShots side (coords.take k)) n →
      SunkIn (sideAfterShots side (coords.take (k + 1))) n →
      (shotResults side coords)[k]? = some (some { hit := true, sunk := some n })) ∧
    (∀ (i j : Nat) (ri rj : ShotResult), i < j →
      (shotResults side coords)[i]? = some (some ri) →
      (shotResults side coords)[j]? = some (some rj) →
      ri.sunk = some n → rj.sunk ≠ some n) := by
  have hreport : ∀ (k : Nat) (res : ShotResult),
      (shotResults side coords)[k]? = some (some res) → res.sunk = some n →
      ∃ p, coords[k]? = some p ∧
        (∀ s ∈ (sideAfterShots side (coords.take k)).ships, s.name = n →
          s.hits.size < s.cells.size) ∧
        SunkIn (sideAfterShots side (coords.take (k + 1))) n := by
    intro k res hres hsunk
    rw [shotResults_getElem] at hres
    cases hp : coords[k]? with
    | none => rw [hp] at hres; cases hres
    | some p =>
      rw [hp] at hres
      simp only [Option.map_some', Option.some.injEq] at hres
      obtain ⟨hn, hh, hf⟩ := run_before_call side coords hnames hhits hnodup hfresh k p hp
      obtain ⟨h1, h2⟩ := applyShot_report _ p.1 p.2 res n hn hh hf hres hsunk
      refine ⟨p, rfl, h1, ?_⟩
      rw [sideAfterShots_take_succ side coords k p hp]
      exact h2
  refine ⟨?_, ?_, ?_⟩
  · intro k res hres hsunk
    obtain ⟨p, _, h1, h2⟩ := hreport k res hres hsunk
    refine ⟨?_, h2⟩
    rintro ⟨s, hs, hsn, hfull⟩
    have := h1 s hs hsn
    omega
  · intro k hk hbefore hafter
    have hp : coords[k]? = some coords[k] := List.getElem?_eq_getElem hk
    rw [sideAfterShots_take_succ side coords k _ hp] at hafter
    rw [shotResults_getElem, hp]
    simp only [Option.map_some']
    rw [applyShot_completes _ _ _ n hbefore hafter]
  · intro i j ri rj hij hri hrj hsi hsj
    obtain ⟨_, _, _, s, hs, hsn, hfull⟩ := hreport i ri hri hsi
    obtain ⟨_, _, hlt, _⟩ := hreport j rj hrj hsj
    have hmono := sideAfterShots_full_mono (sideAfterShots side (coords.take (i + 1)))
      ((coords.take j).drop (i + 1)) n ⟨s, hs, hsn, Nat.le_of_eq hfull.symm⟩
    rw [← sideAfterShots_take_split side coords (i + 1) j (by omega)] at hmono
    obtain ⟨t, ht, htn, htfull⟩ := hmono
    have := hlt t ht htn
    omega

/-- C10, refuted as stated: on the sample side (grid and cells agree) the
run `(2,0)`, `(3,0)`, `(2,0)` returns the name of the Runabout as `sunk` on
the second call and again on the third, the repeat shot. -/
theorem sunk_reported_again :
    GridAgrees sampleSide ∧
    shotResults sampleSide [(2, 0), (3, 0), (2, 0)] =
      [some { hit := true, sunk := none },
       some { hit := true, sunk := some "Runabout (Support Craft)" },
       some { hit := true, sunk := some "Runabout (Support Craft)" }] := by
  decide

/-- C10 amended, on the run `(2,0)`, `(3,0)`, `(0,0)` over the sample side:
the second call reports the Runabout, not sunk before it and sunk after. -/
theorem sunk_reported_once_witness :
    (shotResults sampleSide [(2, 0), (3, 0), (0, 0)])[1]? =
      some (some { hit := true, sunk := some "Runabout (Support Craft)" }) ∧
    ¬ SunkIn (sideAfterShots sampleSide ([((2 : Int), (0 : Int)), (3, 0), (0, 0)].take 1))
        "Runabout (Support Craft)" ∧
    SunkIn (sideAfterShots sampleSide ([((2 : Int), (0 : Int)), (3, 0), (0, 0)].take 2))
        "Runabout (Support Craft)" :=
  ⟨by decide,
   (sunk_reported_once sampleSide [(2, 0), (3, 0), (0, 0)] "Runabout (Support Craft)"
      (by decide) (by decide) (by decide) (by decide)).1 1
      { hit := true, sunk := some "Runabout (Support Craft)" } (by decide) rfl⟩

/-! ## The persistence codec -/

/-- The side codec round-trips. -/
theorem deserializeSide_serializeSide (side : Side) :
    deserializeSide (serializeSide side) = side := by
  cases side with
  | mk grid shots ships =>
    simp only [deserializeSide, serializeSide, Option.getD_some, JSSet.ofArray_toArray,
      List.map_map]
    congr
    conv_rhs => rw [← List.map_id ships]
    apply List.map_congr_left
    intro s _
    cases s
    simp [JSSet.ofArray_toArray]

/-- C2: `deserializeGame (serializeGame g)` is `g` for every session: the
queue `targets` and `currentHits` keep their order, every set keeps its
members (and their order), and all other fields are unchanged. -/
theorem deserializeGame_serializeGame (g : Session) :
    deserializeGame (serializeGame g) = g := by
  cases g
  simp [deserializeGame, serializeGame, deserializeSide_serializeSide]

/-! ## Direction inference -/

/-- The inner scan finds nothing exactly when no later entry shares a row or
a column with the entry. -/
theorem scanPairs_eq_none (h : Int × Int) (rest : List (Int × Int)) :
    scanPairs h rest = none ↔ ∀ x ∈ rest, h.1 ≠ x.1 ∧ h.2 ≠ x.2 := by
  induction rest with
  | nil => simp [scanPairs]
  | cons x xs ih =>
    unfold scanPairs
    by_cases h1 : h.1 = x.1
    · simp [h1]
    · by_cases h2 : h.2 = x.2
      · simp [h1, h2]
      · simp [h1, h2, ih]

/-- The inner scan returns the direction of the first later entry that
shares a row or a column with the entry. -/
theorem scanPairs_first (h : Int × Int) (rest : List (Int × Int)) (k : Nat) (b : Int × Int)
    (hb : rest[k]? = some b) (hshare : h.1 = b.1 ∨ h.2 = b.2)
    (hfirst : ∀ k' b', k' < k → rest[k']? = some b' → h.1 ≠ b'.1 ∧ h.2 ≠ b'.2) :
    scanPairs h rest =
      some (if h.1 = b.1 then { dr := 0, dc := 1 } else { dr := 1, dc := 0 }) := by
  induction rest generalizing k with
  | nil => simp at hb
  | cons x xs ih =>
    cases k with
    | zero =>
      simp only [List.getElem?_cons_zero, Option.some.injEq] at hb
      subst hb
      unfold scanPairs
      by_cases h1 : h.1 = x.1
      · simp [h1]
      · have h2 : h.2 = x.2 := hshare.resolve_left h1
        simp [h1, h2]
    | succ k =>
      have hx := hfirst 0 x (Nat.succ_pos k) (by simp)
      unfold scanPairs
      simp only [hx.1, hx.2, if_false]
      apply ih k (by simpa using hb)
      intro k' b' hk' hb'
      exact hfirst (k' + 1) b' (Nat.succ_lt_succ hk') (by simpa using hb')

/-- The length test of `determineDirectionFromHits` changes nothing: the
scan of fewer than two hits finds no pair. -/
theorem determineDirectionFromHits_eq_scanHits (hits : List (Int × Int)) :
    determineDirectionFromHits hits = scanHits hits := by
  unfold determineDirectionFromHits
  split
  · rename_i hlen
    match hits, hlen with
    | [], _ => rfl
    | [h], _ => rfl
    | _ :: _ :: _, hlen =>
      exfalso
      simp only [List.length_cons] at hlen
      omega
  · rfl

/-- The scan finds nothing exactly when no pair of entries shares a row or a
column. -/
theorem scanHits_eq_none (hits : List (Int × Int)) :
    scanHits hits = none ↔
      ∀ (i j : Nat) (a b : Int × Int), i < j → hits[i]? = some a → hits[j]? = some b → a.1 ≠ b.1 ∧ a.2 ≠ b.2 := by
  induction hits with
  | nil => simp [scanHits]
  | cons h rest ih =>
    unfold scanHits
    constructor
    · intro hnone
      have hp : scanPairs h rest = none := by
        cases hsp : scanPairs h rest with
        | none => rfl
        | some d => rw [hsp] at hnone; cases hnone
      rw [hp] at hnone
      simp only at hnone
      intro i j a b hij ha hb
      cases j with
      | zero => omega
      | succ j =>
        simp only [List.getElem?_cons_succ] at hb
        cases i with
        | zero =>
          simp only [List.getElem?_cons_zero, Option.some.injEq] at ha
          subst ha
          exact (scanPairs_eq_none _ rest).mp hp b (List.getElem?_mem hb)
        | succ i =>
          simp only [List.getElem?_cons_succ] at ha
          exact ih.mp hnone i j a b (by omega) ha hb
    · intro hall
      have hp : scanPairs h rest = none := by
        rw [scanPairs_eq_none]
        intro x hx
        obtain ⟨n, hn⟩ := List.getElem?_of_mem hx
        exact hall 0 (n + 1) h x (Nat.succ_pos n) (by simp) (by simpa using hn)
      rw [hp]
      simp only
      rw [ih]
      intro i j a b hij ha hb
      exact hall (i + 1) (j + 1) a b (by omega) (by simpa using ha) (by simpa using hb)

/-- The scan returns the direction of the first pair, in scan order, that
shares a row or a column. -/
theorem scanHits_first (hits : List (Int × Int)) (i j : Nat) (a b : Int × Int)
    (hij : i < j) (ha : hits[i]? = some a) (hb : hits[j]? = some b)
    (hshare : a.1 = b.1 ∨ a.2 = b.2)
    (hfirst : ∀ (i' j' : Nat) (a' b' : Int × Int), i' < j' → hits[i']? = some a' → hits[j']? = some b' →
      (i' < i ∨ (i' = i ∧ j' < j)) → a'.1 ≠ b'.1 ∧ a'.2 ≠ b'.2) :
    scanHits hits = some (if a.1 = b.1 then { dr := 0, dc := 1 } else { dr := 1, dc := 0 }) := by
  induction hits generalizing i j with
  | nil => simp at ha
  | cons h rest ih =>
    cases j with
    | zero => omega
    | succ j =>
      simp only [List.getElem?_cons_succ] at hb
      unfold scanHits
      cases i with
      | zero =>
        simp only [List.getElem?_cons_zero, Option.some.injEq] at ha
        subst ha
        rw [scanPairs_first _ rest j b hb hshare]
        intro k' b' hk' hb'
        exact hfirst 0 (k' + 1) _ b' (Nat.succ_pos k') (by simp) (by simpa using hb')
          (Or.inr ⟨rfl, by omega⟩)
      | succ i =>
        simp only [List.getElem?_cons_succ] at ha
        have hp : scanPairs h rest = none := by
          rw [scanPairs_eq_none]
          intro x hx
          obtain ⟨n, hn⟩ := List.getElem?_of_mem hx
          exact hfirst 0 (n + 1) h x (Nat.succ_pos n) (by simp) (by simpa using hn)
            (Or.inl (Nat.succ_pos i))
        rw [hp]
        simp only
        apply ih i j (by omega) ha hb
        intro i' j' a' b' hij' ha' hb' hlt
        exact hfirst (i' + 1) (j' + 1) a' b' (by omega) (by simpa using ha')
          (by simpa using hb') (by omega)

/-- C9: `determineDirectionFromHits` returns `null` exactly when no pair of
entries at positions `i < j` shares a row or a column (so for fewer than two
hits); otherwise, for the first pair in scan order (`i`, then `j`) that
shares a row or a column, it returns horizontal `{dr: 0, dc: 1}` when the
pair shares a row (also when it shares the column too) and vertical
`{dr: 1, dc: 0}` when it shares only a column. -/
theorem determineDirectionFromHits_spec (hits : List (Int × Int)) :
    (determineDirectionFromHits hits = none ↔
      ∀ (i j : Nat) (a b : Int × Int), i < j → hits[i]? = some a → hits[j]? = some b → a.1 ≠ b.1 ∧ a.2 ≠ b.2) ∧
    (hits.length < 2 → determineDirectionFromHits hits = none) ∧
    (∀ (i j : Nat) (a b : Int × Int), i < j → hits[i]? = some a → hits[j]? = some b →
      (a.1 = b.1 ∨ a.2 = b.2) →
      (∀ (i' j' : Nat) (a' b' : Int × Int), i' < j' → hits[i']? = some a' → hits[j']? = some b' →
        (i' < i ∨ (i' = i ∧ j' < j)) → a'.1 ≠ b'.1 ∧ a'.2 ≠ b'.2) →
      determineDirectionFromHits hits =
        some (if a.1 = b.1 then { dr := 0, dc := 1 } else { dr := 1, dc := 0 })) := by
  refine ⟨?_, ?_, ?_⟩
  · rw [determineDirectionFromHits_eq_scanHits]
    exact scanHits_eq_none hits
  · intro h
    simp [determineDirectionFromHits, h]
  · intro i j a b hij ha hb hshare hfirst
    rw [determineDirectionFromHits_eq_scanHits]
    exact scanHits_first hits i j a b hij ha hb hshare hfirst

/-- C9 on three hits: the pair at positions 0 and 2 is the first to share a
line, it shares the row, the direction is horizontal. -/
theorem determineDirectionFromHits_spec_witness :
    determineDirectionFromHits [(0, 0), (1, 1), (0, 1)] = some { dr := 0, dc := 1 } := by
  have h := (determineDirectionFromHits_spec [(0, 0), (1, 1), (0, 1)]).2.2 0 2 (0, 0) (0, 1)
    (by decide) rfl rfl (Or.inl rfl)
  apply h
  intro i j a b hij ha hb hlt
  have hi : i = 0 := by omega
  have hj : j = 1 := by omega
  subst hi hj
  simp only [List.getElem?_cons_zero, List.getElem?_cons_succ, Option.some.injEq] at ha hb
  subst ha hb
  decide

/-! ## The session steps -/

/-- Logging changes the log only. -/
theorem addLogLine_frame (g : Session) (text kind : String) :
    (addLogLine g text kind).phase = g.phase ∧ (addLogLine g text kind).turn = g.turn ∧
    (addLogLine g text kind).ai = g.ai ∧ (addLogLine g text kind).player = g.player ∧
    (addLogLine g text kind).cpu = g.cpu ∧ (addLogLine g text kind).revealCPU = g.revealCPU :=
  ⟨rfl, rfl, rfl, rfl, rfl, rfl⟩

/-- The mission summary changes the log only. -/
theorem finalizeLogSummary_frame (g : Session) (winner : String) :
    (finalizeLogSummary g winner).phase = g.phase ∧ (finalizeLogSummary g winner).turn = g.turn ∧
    (finalizeLogSummary g winner).ai = g.ai ∧ (finalizeLogSummary g winner).player = g.player ∧
    (finalizeLogSummary g winner).cpu = g.cpu ∧
    (finalizeLogSummary g winner).revealCPU = g.revealCPU :=
  ⟨rfl, rfl, rfl, rfl, rfl, rfl⟩

/-- The pick changes `game.ai` only. -/
theorem pickTargetForAI_frame (g : Session) (u : Nat) :
    (pickTargetForAI g u).1.phase = g.phase ∧ (pickTargetForAI g u).1.turn = g.turn ∧
    (pickTargetForAI g u).1.player = g.player ∧ (pickTargetForAI g u).1.cpu = g.cpu ∧
    (pickTargetForAI g u).1.log = g.log ∧ (pickTargetForAI g u).1.revealCPU = g.revealCPU := by
  have hq : ∀ g0 : Session,
      (queueOrHunt g0 u).1.phase = g0.phase ∧ (queueOrHunt g0 u).1.turn = g0.turn ∧
      (queueOrHunt g0 u).1.player = g0.player ∧ (queueOrHunt g0 u).1.cpu = g0.cpu ∧
      (queueOrHunt g0 u).1.log = g0.log ∧ (queueOrHunt g0 u).1.revealCPU = g0.revealCPU := by
    intro g0
    unfold queueOrHunt
    simp only
    split
    · exact ⟨rfl, rfl, rfl, rfl, rfl, rfl⟩
    · split <;> exact ⟨rfl, rfl, rfl, rfl, rfl, rfl⟩
  unfold pickTargetForAI
  split
  · exact ⟨rfl, rfl, rfl, rfl, rfl, rfl⟩
  · exact ⟨rfl, rfl, rfl, rfl, rfl, rfl⟩
  · exact hq _

/-- The AI update changes `game.ai` and the log only. -/
theorem updateAIAfterShot_frame (g : Session) (r c : Int) (res : ShotResult) :
    (updateAIAfterShot g r c res).phase = g.phase ∧ (updateAIAfterShot g r c res).turn = g.turn ∧
    (updateAIAfterShot g r c res).player = g.player ∧ (updateAIAfterShot g r c res).cpu = g.cpu ∧
    (updateAIAfterShot g r c res).revealCPU = g.revealCPU := by
  unfold updateAIAfterShot
  simp only
  split
  · split
    · exact ⟨rfl, rfl, rfl, rfl, rfl⟩
    · split
      · exact ⟨rfl, rfl, rfl, rfl, rfl⟩
      · split <;> exact ⟨rfl, rfl, rfl, rfl, rfl⟩
  · have h2 : ∀ g2 : Session, g2.phase = g.phase ∧ g2.turn = g.turn ∧ g2.player = g.player ∧
        g2.cpu = g.cpu ∧ g2.revealCPU = g.revealCPU →
        (if g2.ai.dir.isSome && g2.ai.blockedPos && g2.ai.blockedNeg then resetAIToHunt g2 else g2).phase = g.phase ∧
        (if g2.ai.dir.isSome && g2.ai.blockedPos && g2.ai.blockedNeg then resetAIToHunt g2 else g2).turn = g.turn ∧
        (if g2.ai.dir.isSome && g2.ai.blockedPos && g2.ai.blockedNeg then resetAIToHunt g2 else g2).player = g.player ∧
        (if g2.ai.dir.isSome && g2.ai.blockedPos && g2.ai.blockedNeg then resetAIToHunt g2 else g2).cpu = g.cpu ∧
        (if g2.ai.dir.isSome && g2.ai.blockedPos && g2.ai.blockedNeg then resetAIToHunt g2 else g2).revealCPU = g.revealCPU := by
      intro g2 h
      split
      · exact h
      · exact h
    apply h2
    split
    · split
      · split <;> exact ⟨rfl, rfl, rfl, rfl, rfl⟩
      · exact ⟨rfl, rfl, rfl, rfl, rfl⟩
    · exact ⟨rfl, rfl, rfl, rfl, rfl⟩

/-- Source `isAllSunk` as a statement on the ships. -/
theorem isAllSunk_iff (side : Side) :
    isAllSunk side = true ↔ ∀ ship ∈ side.ships, ship.hits.size = ship.cells.size := by
  simp [isAllSunk, List.all_eq_true]

/-- The shot log lines change the log only. -/
theorem logPlayerShot_frame (g : Session) (r c : Int) (res : ShotResult) :
    (logPlayerShot g r c res).phase = g.phase ∧ (logPlayerShot g r c res).turn = g.turn ∧
    (logPlayerShot g r c res).player = g.player ∧ (logPlayerShot g r c res).cpu = g.cpu ∧
    (logPlayerShot g r c res).ai = g.ai ∧ (logPlayerShot g r c res).revealCPU = g.revealCPU := by
  unfold logPlayerShot
  simp only
  split
  · split <;> exact ⟨rfl, rfl, rfl, rfl, rfl, rfl⟩
  · exact ⟨rfl, rfl, rfl, rfl, rfl, rfl⟩

/-- The session the end of `onFireAtEnemy` leaves. -/
theorem finishPlayerShot_game (w : World) (g : Session) (res : ShotResult) :
    ∃ g1, (finishPlayerShot w g res).world.game = some g1 ∧ g1.cpu = g.cpu ∧
      g1.player = g.player ∧ g1.ai = g.ai ∧
      g1.phase = if res.hit && isAllSunk g.cpu then Phase.gameover else g.phase := by
  unfold finishPlayerShot
  split
  · exact ⟨_, rfl, rfl, rfl, rfl, rfl⟩
  · exact ⟨_, rfl, rfl, rfl, rfl, rfl⟩

/-- The session the end of `cpuMove` leaves. -/
theorem finishCpuShot_game (w : World) (g : Session) (res : ShotResult) :
    ∃ g1, (finishCpuShot w g res).world.game = some g1 ∧ g1.cpu = g.cpu ∧
      g1.player = g.player ∧ g1.ai = g.ai ∧
      g1.phase = if res.hit && isAllSunk g.player then Phase.gameover else g.phase := by
  unfold finishCpuShot
  split
  · exact ⟨_, rfl, rfl, rfl, rfl, rfl⟩
  · exact ⟨_, rfl, rfl, rfl, rfl, rfl⟩

/-- The ways `onFireAtEnemy` ends with a session present: rejected; a throw
in `applyShot`; a throw in `renderAll`; or through to the end. -/
theorem onFireAtEnemy_cases (w : World) (g : Session) (hg : w.game = some g) (r c : Int) :
    onFireAtEnemy w r c = { world := w, threw := false } ∨
    (∃ cpu1, applyShot g.cpu r c = (cpu1, none) ∧
      onFireAtEnemy w r c =
        { world := { w with game := some { g with cpu := cpu1 } }, threw := true }) ∨
    (∃ cpu1 res, applyShot g.cpu r c = (cpu1, some res) ∧
      onFireAtEnemy w r c =
        { world := { w with game := some (logPlayerShot { g with cpu := cpu1 } r c res) },
          threw := true }) ∨
    (∃ cpu1 res g1, applyShot g.cpu r c = (cpu1, some res) ∧
      onFireAtEnemy w r c =
        finishPlayerShot (saveGame w (logPlayerShot { g with cpu := cpu1 } r c res))
          (logPlayerShot { g with cpu := cpu1 } r c res) res ∧
      (onFireAtEnemy w r c).world.game = some g1 ∧ g1.cpu = cpu1 ∧
      g1.phase = if res.hit && isAllSunk cpu1 then Phase.gameover else g.phase) := by
  unfold onFireAtEnemy
  simp only [hg]
  split
  · exact Or.inl rfl
  · split
    · exact Or.inl rfl
    · split
      · rename_i cpu1 happ
        exact Or.inr (Or.inl ⟨cpu1, happ, rfl⟩)
      · rename_i cpu1 res happ
        split
        · exact Or.inr (Or.inr (Or.inl ⟨cpu1, res, happ, rfl⟩))
        · refine Or.inr (Or.inr (Or.inr ⟨cpu1, res, ?_⟩))
          obtain ⟨g1, h1, h2, _, _, h3⟩ := finishPlayerShot_game
            (saveGame w (logPlayerShot { g with cpu := cpu1 } r c res))
            (logPlayerShot { g with cpu := cpu1 } r c res) res
          obtain ⟨hp, _, _, hc, _, _⟩ := logPlayerShot_frame { g with cpu := cpu1 } r c res
          rw [hc] at h2 h3
          rw [hp] at h3
          exact ⟨g1, happ, rfl, h1, h2, h3⟩

/-- The ways `cpuMove` ends with a session present: phase not battle; a
throw in the pick; a throw in `applyShot` or in `renderAll`; or through to
the end. -/
theorem cpuMove_cases (w : World) (g : Session) (hg : w.game = some g) (u : Nat) :
    cpuMove w u = { world := w, threw := false } ∨
    ((pickTargetForAI g u).2 = none ∧
      cpuMove w u = { world := { w with game := some (pickTargetForAI g u).1 }, threw := true }) ∨
    (∃ ch, (pickTargetForAI g u).2 = some ch ∧
      ((∃ g1, (cpuMove w u).threw = true ∧ (cpuMove w u).world.game = some g1 ∧
          (cpuMove w u).world.stats = w.stats ∧ g1.phase = g.phase) ∨
       (∃ res g1, (applyShot g.player ch.r ch.c).2 = some res ∧
          (cpuMove w u).world.game = some g1 ∧ g1.player = (applyShot g.player ch.r ch.c).1 ∧
          g1.phase = if res.hit && isAllSunk (applyShot g.player ch.r ch.c).1
            then Phase.gameover else g.phase))) := by
  unfold cpuMove
  simp only [hg]
  obtain ⟨fp, _, fpl, _, _, _⟩ := pickTargetForAI_frame g u
  split
  · exact Or.inl rfl
  · split
    · rename_i gp hpick
      refine Or.inr (Or.inl ?_)
      rw [hpick]
      exact ⟨rfl, rfl⟩
    · rename_i gp ch hpick
      refine Or.inr (Or.inr ⟨ch, by rw [hpick], ?_⟩)
      rw [hpick] at fp fpl
      simp only at fp fpl
      simp only [fpl]
      split
      · rename_i player1 happ
        exact Or.inl ⟨_, rfl, rfl, rfl, fp⟩
      · rename_i player1 res happ
        obtain ⟨hp, _, hpl, _, _⟩ := updateAIAfterShot_frame
          { gp with ai := { gp.ai with lastEnd := ch.lineEnd }, player := player1 } ch.r ch.c res
        split
        · exact Or.inl ⟨_, rfl, rfl, rfl, by rw [hp]; exact fp⟩
        · refine Or.inr ⟨res, ?_⟩
          obtain ⟨g1, h1, _, h2, _, h3⟩ := finishCpuShot_game
            (saveGame w (updateAIAfterShot
              { gp with ai := { gp.ai with lastEnd := ch.lineEnd }, player := player1 }
              ch.r ch.c res))
            (updateAIAfterShot
              { gp with ai := { gp.ai with lastEnd := ch.lineEnd }, player := player1 }
              ch.r ch.c res) res
          rw [hpl] at h2 h3
          rw [hp] at h3
          simp only at h2 h3
          rw [happ]
          exact ⟨g1, rfl, h1, h2, by rw [h3, fp]⟩

/-- C3: with a session present, a step `onFireAtEnemy(r, c)` or `cpuMove()`
that starts in phase battle and ends in phase gameover resolved a shot that
was a hit, and every ship of the side shot at has `hits.size == cells.size`
afterwards; a step whose shot is a miss leaves the phase as it was, whatever
`isAllSunk` says of the target side. -/
theorem gameover_only_after_sinking_hit (w : World) (g : Session) (hg : w.game = some g) :
    (∀ r c g1, (onFireAtEnemy w r c).world.game = some g1 →
      (g.phase = .battle → g1.phase = .gameover →
        ∃ res, (applyShot g.cpu r c).2 = some res ∧ res.hit = true ∧
          g1.cpu = (applyShot g.cpu r c).1 ∧
          ∀ ship ∈ g1.cpu.ships, ship.hits.size = ship.cells.size) ∧
      (∀ res, (applyShot g.cpu r c).2 = some res → res.hit = false → g1.phase = g.phase)) ∧
    (∀ u g1, (cpuMove w u).world.game = some g1 →
      (g.phase = .battle → g1.phase = .gameover →
        ∃ ch res, (pickTargetForAI g u).2 = some ch ∧
          (applyShot g.player ch.r ch.c).2 = some res ∧ res.hit = true ∧
          g1.player = (applyShot g.player ch.r ch.c).1 ∧
          ∀ ship ∈ g1.player.ships, ship.hits.size = ship.cells.size) ∧
      (∀ ch res, (pickTargetForAI g u).2 = some ch →
        (applyShot g.player ch.r ch.c).2 = some res → res.hit = false → g1.phase = g.phase)) := by
  constructor
  · intro r c g1 hg1
    rcases onFireAtEnemy_cases w g hg r c with
      h | ⟨cpu1, happ, h⟩ | ⟨cpu1, res, happ, h⟩ | ⟨cpu1, res, g2, happ, _, h, hcpu, hph⟩
    · rw [h] at hg1
      simp only [hg, Option.some.injEq] at hg1
      subst hg1
      refine ⟨fun hb hgo => ?_, fun _ _ _ => rfl⟩
      rw [hb] at hgo; cases hgo
    · rw [h] at hg1
      simp only [Option.some.injEq] at hg1
      subst hg1
      refine ⟨fun hb hgo => ?_, fun _ _ _ => rfl⟩
      simp only at hgo
      rw [hb] at hgo; cases hgo
    · rw [h] at hg1
      simp only [Option.some.injEq] at hg1
      subst hg1
      have hp := (logPlayerShot_frame { g with cpu := cpu1 } r c res).1
      refine ⟨fun hb hgo => ?_, fun _ _ _ => hp⟩
      rw [hp] at hgo
      simp only at hgo
      rw [hb] at hgo; cases hgo
    · rw [h, Option.some.injEq] at hg1
      subst hg1
      rw [happ]
      constructor
      · intro hb hgo
        rw [hph] at hgo
        split at hgo
        · rename_i hcond
          rw [Bool.and_eq_true] at hcond
          refine ⟨res, rfl, hcond.1, hcpu, ?_⟩
          rw [hcpu]
          exact (isAllSunk_iff cpu1).mp hcond.2
        · rw [hb] at hgo; cases hgo
      · intro res' hres hmiss
        simp only [Option.some.injEq] at hres
        subst hres
        rw [hph, hmiss]
        simp
  · intro u g1 hg1
    rcases cpuMove_cases w g hg u with h | ⟨hpick, h⟩ | ⟨ch, hpick, h⟩
    · rw [h] at hg1
      simp only [hg, Option.some.injEq] at hg1
      subst hg1
      refine ⟨fun hb hgo => ?_, fun _ _ _ _ _ => rfl⟩
      rw [hb] at hgo; cases hgo
    · rw [h] at hg1
      simp only [Option.some.injEq] at hg1
      subst hg1
      have hp := (pickTargetForAI_frame g u).1
      refine ⟨fun hb hgo => ?_, fun _ _ _ _ _ => hp⟩
      rw [hp, hb] at hgo; cases hgo
    · rcases h with ⟨g2, _, h, _, hph⟩ | ⟨res, g2, happ, h, hpl, hph⟩
      · rw [h, Option.some.injEq] at hg1
        subst hg1
        refine ⟨fun hb hgo => ?_, fun _ _ _ _ _ => hph⟩
        rw [hph, hb] at hgo; cases hgo
      · rw [h, Option.some.injEq] at hg1
        subst hg1
        constructor
        · intro hb hgo
          rw [hph] at hgo
          split at hgo
          · rename_i hcond
            rw [Bool.and_eq_true] at hcond
            refine ⟨ch, res, hpick, happ, hcond.1, hpl, ?_⟩
            rw [hpl]
            exact (isAllSunk_iff _).mp hcond.2
          · rw [hb] at hgo; cases hgo
        · intro ch' res' hpick' hres hmiss
          rw [hpick, Option.some.injEq] at hpick'
          subst hpick'
          rw [happ, Option.some.injEq] at hres
          subst hres
          rw [hph, hmiss]
          simp

/-- C3 at the end of a game: the shot at `(3, 0)` sinks the last ship, the
phase becomes gameover and the shot was a hit. -/
theorem gameover_only_after_sinking_hit_witness :
    (worldOf (sessionOf sampleSide endgameSide)).game = some (sessionOf sampleSide endgameSide) ∧
    (onFireAtEnemy (worldOf (sessionOf sampleSide endgameSide)) 3 0).world.game.map (·.phase)
      = some Phase.gameover ∧
    ∃ res, (applyShot endgameSide 3 0).2 = some res ∧ res.hit = true := by
  refine ⟨rfl, by decide, ?_⟩
  obtain ⟨g1, hg1⟩ : ∃ g1,
      (onFireAtEnemy (worldOf (sessionOf sampleSide endgameSide)) 3 0).world.game = some g1 :=
    Option.isSome_iff_exists.mp (by decide)
  have hph : g1.phase = .gameover := by
    have h : (onFireAtEnemy (worldOf (sessionOf sampleSide endgameSide)) 3 0).world.game.map
        (·.phase) = some Phase.gameover := by decide
    rw [hg1] at h
    simpa using h
  obtain ⟨res, h1, h2, _⟩ :=
    ((gameover_only_after_sinking_hit (worldOf (sessionOf sampleSide endgameSide))
      (sessionOf sampleSide endgameSide) rfl).1 3 0 g1 hg1).1 rfl hph
  exact ⟨res, h1, h2⟩

/-- C4, evaluated: in `lockedWorld` the vertical direction is locked and the
positive end blocked; `cpuMove` with the draw 0 finds the negative candidate
`(-1, 0)` off the board and blocks that end too, falls through to the random
hunt, hits `(0, 1)` without sinking, and ends with the direction still locked
and both ends blocked: the AI state is not reset. -/
theorem cpuMove_keeps_blocked_lock :
    lockedWorld.game.map (fun g => (g.phase, g.ai.dir, g.ai.blockedPos, g.ai.blockedNeg)) =
      some (Phase.battle, some { dr := 1, dc := 0 }, true, false) ∧
    lockedWorld.game.map (fun g =>
        ((pickTargetForAI g 0).1.ai.blockedPos, (pickTargetForAI g 0).1.ai.blockedNeg,
          (pickTargetForAI g 0).2)) =
      some (true, true, some { r := 0, c := 1, lineEnd := none }) ∧
    (cpuMove lockedWorld 0).threw = false ∧
    (cpuMove lockedWorld 0).world.game.map (·.ai) = some
      { mode := .target, targets := [], currentHits := [(0, 0), (1, 0), (0, 1)],
        dir := some { dr := 1, dc := 0 }, blockedPos := true, blockedNeg := true,
        lastEnd := none } := by
  set_option maxRecDepth 100000 in decide

/-- C7, refuted as stated: in phase battle on the player's turn, firing at
the off-board coordinate `(10, 0)` is not a silent no-op. -/
theorem onFireAtEnemy_off_board_not_noop :
    (sessionOf sampleSide sampleSide).phase = .battle ∧
    (sessionOf sampleSide sampleSide).turn = .player ∧
    inBounds 10 0 = false ∧
    ¬ ((onFireAtEnemy (worldOf (sessionOf sampleSide sampleSide)) 10 0).threw = false ∧
       (onFireAtEnemy (worldOf (sessionOf sampleSide sampleSide)) 10 0).world =
         worldOf (sessionOf sampleSide sampleSide)) := by
  decide

/-- C7, amended: in phase battle on the player's turn, with a cpu grid of
the board's shape, firing at an off-board coordinate is a silent no-op when
its key is already in `cpu.shots`; otherwise the key is added to `cpu.shots`
and the call throws, with everything else (ships, turn, phase, log, AI state,
career counters, save slot, scheduled moves) unchanged. -/
theorem onFireAtEnemy_off_board (w : World) (g : Session) (r c : Int)
    (hg : w.game = some g) (hphase : g.phase = .battle) (hturn : g.turn = .player)
    (hshape : GridShape g.cpu.grid) (hout : inBounds r c = false) :
    (g.cpu.shots.has (key r c) = true → onFireAtEnemy w r c = { world := w, threw := false }) ∧
    (g.cpu.shots.has (key r c) = false →
      onFireAtEnemy w r c =
        { world := { w with game := some { g with cpu := { g.cpu with
                        shots := g.cpu.shots.add (key r c) } } },
          threw := true }) := by
  constructor
  · intro h
    simp [onFireAtEnemy, hg, hphase, hturn, h]
  · intro h
    have happ : applyShot g.cpu r c =
        ({ g.cpu with shots := g.cpu.shots.add (key r c) }, none) := by
      rcases gridRead_off_board g.cpu.grid hshape r c hout with h' | h' <;>
        simp [applyShot, h']
    simp [onFireAtEnemy, hg, hphase, hturn, h, happ]

/-- C7 amended, at the sample session and `(10, 0)`. -/
theorem onFireAtEnemy_off_board_witness :
    (worldOf (sessionOf sampleSide sampleSide)).game = some (sessionOf sampleSide sampleSide) ∧
    GridShape sampleSide.grid ∧ inBounds 10 0 = false ∧
    sampleSide.shots.has (key 10 0) = false ∧
    onFireAtEnemy (worldOf (sessionOf sampleSide sampleSide)) 10 0 =
      { world := { worldOf (sessionOf sampleSide sampleSide) with
          game := some { sessionOf sampleSide sampleSide with
            cpu := { sampleSide with shots := sampleSide.shots.add (key 10 0) } } },
        threw := true } :=
  ⟨rfl, by decide, by decide, by decide,
    (onFireAtEnemy_off_board (worldOf (sessionOf sampleSide sampleSide))
      (sessionOf sampleSide sampleSide) 10 0 rfl rfl rfl (by decide) (by decide)).2 (by decide)⟩

/-- C8: when the key is already in `cpu.shots`, or the phase is not battle,
or the turn is not the player's (or no session exists), `onFireAtEnemy`
returns without a throw and leaves the world as it was: both sides, turn,
phase, `revealCPU`, log, AI state, career counters, save slot, and no
opponent move is scheduled. -/
theorem onFireAtEnemy_rejected (w : World) (r c : Int)
    (h : ∀ g, w.game = some g →
      g.cpu.shots.has (key r c) = true ∨ g.phase ≠ .battle ∨ g.turn ≠ .player) :
    onFireAtEnemy w r c = { world := w, threw := false } := by
  unfold onFireAtEnemy
  split
  · rfl
  · rename_i g hg
    rcases h g hg with h1 | h2 | h3
    · split
      · rfl
      · simp [h1]
    · simp [h2]
    · simp [h3]

/-- C8 at a coordinate already shot. -/
theorem onFireAtEnemy_rejected_witness :
    endgameSide.shots.has (key 2 0) = true ∧
    onFireAtEnemy (worldOf (sessionOf sampleSide endgameSide)) 2 0 =
      { world := worldOf (sessionOf sampleSide endgameSide), threw := false } :=
  ⟨by decide, onFireAtEnemy_rejected (worldOf (sessionOf sampleSide endgameSide)) 2 0
    (fun g hg => Or.inl (by
      have : g = sessionOf sampleSide endgameSide := (Option.some.inj hg).symm
      subst this
      decide))⟩

/-! ## Ship placement -/

/-- C5, evaluated: on a fresh side the draw (vertical, row 6, column 0) for
the first ship (length 5) runs over row 9; the overlap test reads
`side.grid[10][0]` and throws, so the pass is not a rejection and
`placeAllShipsRandom` ends by the throw. -/
theorem tryPlace_vertical_overflow_faults :
    noOverlap createSide.grid (shipCoords false 6 0 5) = none ∧
    tryPlace createSide 0 { name := "USS Enterprise (Heavy Cruiser)", length := 5 }
      { horizontal := false, r := 6, c := 0 } = .fault ∧
    ∀ rest, placeAllShipsRandom createSide ({ horizontal := false, r := 6, c := 0 } :: rest)
      = .fault :=
  ⟨by decide, by decide, fun _ => rfl⟩

/-- Writing an entry keeps the shape of the grid. -/
theorem gridWrite_shape (grid : Grid) (r c : Int) (v : Option Nat) (h : GridShape grid) :
    GridShape (gridWrite grid r c v) := by
  obtain ⟨hlen, hrows⟩ := h
  refine ⟨by simp [gridWrite, hlen], ?_⟩
  intro row hrow
  obtain ⟨n, hn⟩ := List.getElem?_of_mem hrow
  rw [gridWrite, List.getElem?_modify] at hn
  cases hg : grid[n]? with
  | none => rw [hg] at hn; cases hn
  | some old =>
    rw [hg] at hn
    simp only [Option.map_eq_map, Option.map_some', Option.some.injEq] at hn
    have hold := hrows old (List.getElem?_mem hg)
    split at hn
    · rw [← hn, List.length_set]; exact hold
    · rw [← hn]; exact hold

/-- Reading after a write to an entry of the board: the entry written holds
the value, every other read is as before. -/
theorem gridRead_gridWrite (grid : Grid) (h : GridShape grid) (r c : Int) (v : Option Nat)
    (hin : inBounds r c = true) (r1 c1 : Int) :
    gridRead (gridWrite grid r c v) r1 c1 =
      if r1 = r ∧ c1 = c then .value v else gridRead grid r1 c1 := by
  obtain ⟨hlen, hrows⟩ := h
  simp only [SIZE] at hlen hrows
  obtain ⟨hr0, hr9, hc0, hc9⟩ := (inBounds_iff r c).mp hin
  unfold gridRead jsIndex gridWrite
  by_cases hr1 : 0 ≤ r1
  · simp only [hr1, if_true]
    rw [List.getElem?_modify]
    cases hg : grid[r1.toNat]? with
    | none =>
      have : ¬ (r1 = r ∧ c1 = c) := by
        rintro ⟨rfl, _⟩
        rw [List.getElem?_eq_none_iff] at hg
        omega
      simp [this]
    | some row =>
      have hrowlen := hrows row (List.getElem?_mem hg)
      simp only [Option.map_eq_map, Option.map_some']
      by_cases hrr : r1 = r
      · subst hrr
        simp only [if_true, true_and]
        by_cases hc1 : 0 ≤ c1
        · simp only [hc1, if_true]
          rw [List.getElem?_set]
          by_cases hcc : c1 = c
          · subst hcc
            have : c1.toNat < row.length := by omega
            simp [this]
          · have : c.toNat ≠ c1.toNat := by omega
            simp [this, hcc]
        · have : c1 ≠ c := by omega
          simp [hc1, this]
      · have : r.toNat ≠ r1.toNat := by omega
        simp [this, hrr]
  · have : ¬ (r1 = r ∧ c1 = c) := by
      rintro ⟨rfl, _⟩
      exact hr1 hr0
    simp [hr1, this]

/-- Reading after the writes of a commit: the coordinates written hold the
id, every other read is as before, and the shape is kept. -/
theorem gridRead_commit (coords : List (Int × Int)) (idx : Nat) (grid : Grid)
    (h : GridShape grid) (hin : ∀ p ∈ coords, inBounds p.1 p.2 = true) :
    GridShape (coords.foldl (fun g p => gridWrite g p.1 p.2 (some idx)) grid) ∧
    ∀ r1 c1 : Int,
      gridRead (coords.foldl (fun g p => gridWrite g p.1 p.2 (some idx)) grid) r1 c1 =
        if (r1, c1) ∈ coords then .value (some idx) else gridRead grid r1 c1 := by
  induction coords generalizing grid with
  | nil => exact ⟨h, fun _ _ => by simp⟩
  | cons p rest ih =>
    have hp := hin p (List.mem_cons_self _ _)
    obtain ⟨h1, h2⟩ := ih (gridWrite grid p.1 p.2 (some idx)) (gridWrite_shape _ _ _ _ h)
      (fun q hq => hin q (List.mem_cons_of_mem _ hq))
    refine ⟨h1, ?_⟩
    intro r1 c1
    rw [List.foldl_cons, h2, gridRead_gridWrite grid h p.1 p.2 _ hp]
    by_cases hrest : (r1, c1) ∈ rest
    · rw [if_pos hrest, if_pos (List.mem_cons_of_mem _ hrest)]
    · rw [if_neg hrest]
      by_cases hpe : r1 = p.1 ∧ c1 = p.2
      · have hmem : (r1, c1) ∈ p :: rest := by
          rw [hpe.1, hpe.2]
          exact List.mem_cons_self _ _
        rw [if_pos hpe, if_pos hmem]
      · have hmem : (r1, c1) ∉ p :: rest := by
          intro hmem
          rcases List.mem_cons.mp hmem with he | he
          · apply hpe
            rw [← he]
            exact ⟨rfl, rfl⟩
          · exact hrest he
        rw [if_neg hpe, if_neg hmem]

/-- A passed overlap test: every coordinate reads `null`. -/
theorem noOverlap_eq_true (grid : Grid) (coords : List (Int × Int))
    (h : noOverlap grid coords = some true) :
    ∀ p ∈ coords, gridRead grid p.1 p.2 = .value none := by
  induction coords with
  | nil => intro p hp; cases hp
  | cons q rest ih =>
    unfold noOverlap at h
    split at h
    · cases h
    · rename_i hq
      intro p hp
      rcases List.mem_cons.mp hp with rfl | hp
      · exact hq
      · exact ih h p hp
    · cases h
    · cases h

/-- The coordinates of a sample are all different. -/
theorem shipCoords_nodup (horizontal : Bool) (r c : Int) (length : Nat) :
    (shipCoords horizontal r c length).Nodup := by
  unfold shipCoords
  apply List.Nodup.map _ (List.nodup_range length)
  intro i j hij
  simp only [Prod.mk.injEq] at hij
  cases horizontal
  · simp only [Bool.false_eq_true, if_false] at hij
    omega
  · simp only [if_true] at hij
    omega

/-- The cells set built by a commit holds the coordinates, in order. -/
theorem cells_commit (coords : List (Int × Int)) (h : coords.Nodup) :
    (coords.foldl (fun cells p => cells.add (key p.1 p.2)) JSSet.empty).1 = coords := by
  have := JSSet.foldl_add_val coords JSSet.empty (by simpa [JSSet.empty] using h)
  simpa [JSSet.empty] using this

/-- A committed pass: the ship is appended with the id, name and length of
the pass, the shots are kept, and the side stays as the placement leaves it. -/
theorem tryPlace_placed (side side1 : Side) (idx : Nat) (shipDef : ShipDef) (s : Sample)
    (hinv : Placed side) (h : tryPlace side idx shipDef s = .placed side1) :
    Placed side1 ∧ side1.shots = side.shots ∧
    ∃ ship, side1.ships = side.ships ++ [ship] ∧ ship.id = idx ∧ ship.name = shipDef.name ∧
      ship.length = shipDef.length := by
  obtain ⟨hshape, hagree, hships⟩ := hinv
  unfold tryPlace at h
  simp only at h
  split at h
  · cases h
  · rename_i free hfree
    split at h
    · rename_i hcond
      rw [Bool.and_eq_true] at hcond
      obtain ⟨hin, hfree1⟩ := hcond
      subst hfree1
      rw [List.all_eq_true] at hin
      have hnull := noOverlap_eq_true _ _ hfree
      have hnd := shipCoords_nodup s.horizontal (s.r.val : Int) (s.c.val : Int) shipDef.length
      have hcells := cells_commit _ hnd
      obtain ⟨hshape1, hread⟩ := gridRead_commit _ idx side.grid hshape hin
      injection h with h
      subst h
      refine ⟨⟨hshape1, ?_, ?_⟩, rfl, _, rfl, rfl, rfl, rfl⟩
      · intro r c id
        simp only
        rw [hread]
        constructor
        · intro hv
          split at hv
          · rename_i hmem
            injection hv with hv
            injection hv with hv
            refine ⟨_, List.mem_append_right _ (List.mem_singleton_self _), hv, ?_⟩
            simp only
            rw [hcells]
            exact hmem
          · obtain ⟨t, ht, hid, hk⟩ := (hagree r c id).mp hv
            exact ⟨t, List.mem_append_left _ ht, hid, hk⟩
        · rintro ⟨t, ht, hid, hk⟩
          rcases List.mem_append.mp ht with ht | ht
          · have hold := (hagree r c id).mpr ⟨t, ht, hid, hk⟩
            have hnot : (r, c) ∉ shipCoords s.horizontal (s.r.val : Int) (s.c.val : Int)
                shipDef.length := by
              intro hmem
              have := hnull (r, c) hmem
              simp only at this
              rw [this] at hold
              cases hold
            rw [if_neg hnot]
            exact hold
          · rw [List.mem_singleton] at ht
            subst ht
            simp only at hid hk
            rw [hcells] at hk
            rw [if_pos (show (r, c) ∈ _ from hk), hid]
      · intro t ht
        simp only at ht
        rcases List.mem_append.mp ht with ht | ht
        · exact hships t ht
        · rw [List.mem_singleton] at ht
          subst ht
          refine ⟨rfl, ?_, ?_, ?_⟩
          · simp only [JSSet.size]
            rw [hcells]
            simp [shipCoords]
          · rw [hcells]
            intro k hk
            exact hin k hk
          · rw [hcells]
            refine ⟨(s.r.val : Int), (s.c.val : Int), ?_⟩
            unfold shipCoords
            cases s.horizontal
            · right; simp [key]
            · left; simp [key]
    · cases h

/-- A finished placement loop committed one of its samples. -/
theorem placeShip_done (side side1 : Side) (idx : Nat) (shipDef : ShipDef)
    (samples rest : List Sample) (h : placeShip side idx shipDef samples = .done (side1, rest)) :
    ∃ s, tryPlace side idx shipDef s = .placed side1 := by
  induction samples with
  | nil => simp [placeShip] at h
  | cons s more ih =>
    unfold placeShip at h
    split at h
    · cases h
    · exact ih h
    · rename_i side2 hplaced
      injection h with h
      injection h with h1 h2
      subst h1
      exact ⟨s, hplaced⟩

/-- The ships of a finished `forEach`: those before it, then one ship per
definition with the ids counting up. -/
theorem placeShips_done (defs : List ShipDef) (side side1 : Side) (idx : Nat)
    (samples : List Sample) (hinv : Placed side)
    (h : placeShips side idx defs samples = .done side1) :
    Placed side1 ∧ side1.shots = side.shots ∧
    side1.ships.map (fun s => (s.id, s.name, s.length)) =
      side.ships.map (fun s => (s.id, s.name, s.length)) ++
        (defs.enumFrom idx).map (fun d => (d.1, d.2.name, d.2.length)) := by
  induction defs generalizing side idx samples with
  | nil =>
    simp only [placeShips] at h
    injection h with h
    subst h
    exact ⟨hinv, rfl, by simp⟩
  | cons d defs ih =>
    unfold placeShips at h
    split at h
    · rename_i side2 rest hship
      obtain ⟨s, hs⟩ := placeShip_done side side2 idx d samples rest hship
      obtain ⟨hinv2, hshots2, ship, hships2, hid, hname, hlen⟩ :=
        tryPlace_placed side side2 idx d s hinv hs
      obtain ⟨h1, h2, h3⟩ := ih side2 (idx + 1) rest hinv2 h
      refine ⟨h1, h2.trans hshots2, ?_⟩
      rw [h3, hships2]
      simp [List.enumFrom_cons, hid, hname, hlen]
    · cases h
    · cases h

/-- An entry read from a grid is an entry of one of its rows. -/
theorem gridRead_value_mem (grid : Grid) (r c : Int) (v : Option Nat)
    (h : gridRead grid r c = .value v) : ∃ row ∈ grid, v ∈ row := by
  unfold gridRead at h
  split at h
  · cases h
  · rename_i row hrow
    split at h
    · cases h
    · rename_i w hw
      injection h with h
      subst h
      unfold jsIndex at hrow hw
      split at hrow
      · split at hw
        · exact ⟨row, List.getElem?_mem hrow, List.getElem?_mem hw⟩
        · cases hw
      · cases hrow

/-- Clearing a grid of the board's shape gives the empty board. -/
theorem clearGrid_of_shape (grid : Grid) (h : GridShape grid) :
    clearGrid grid = some (List.replicate SIZE (List.replicate SIZE none)) := by
  obtain ⟨hlen, hrows⟩ := h
  unfold clearGrid
  rw [if_neg (by omega)]
  have htake : grid.take SIZE = grid := List.take_of_length_le (by omega)
  have hdrop : grid.drop SIZE = [] := List.drop_of_length_le (by omega)
  rw [htake, hdrop, List.append_nil]
  congr 1
  apply List.ext_getElem
  · simp [hlen]
  · intro n h1 h2
    have hn : n < grid.length := by simpa using h1
    simp only [List.getElem_map, List.getElem_replicate]
    have := hrows (grid.get ⟨n, hn⟩) (List.get_mem _ _ _)
    simp only [List.get_eq_getElem] at this
    rw [List.drop_of_length_le (by omega), List.append_nil]

/-- The empty board with no ships is as the placement leaves a side. -/
theorem placed_empty (shots : JSSet Key) :
    Placed { grid := List.replicate SIZE (List.replicate SIZE none), shots := shots, ships := [] } := by
  refine ⟨⟨by simp, ?_⟩, ?_, ?_⟩
  · intro row hrow
    rw [List.eq_of_mem_replicate hrow]
    simp
  · intro r c id
    constructor
    · intro h
      obtain ⟨row, hrow, hv⟩ := gridRead_value_mem _ r c _ h
      rw [List.eq_of_mem_replicate hrow] at hv
      have := List.eq_of_mem_replicate hv
      cases this
    · rintro ⟨s, hs, _⟩
      cases hs
  · intro s hs
    cases hs

/-- C6: when `placeAllShipsRandom` runs to completion on a side with a
10x10 grid, the side has exactly the five ships of `SHIPS`, with the ids 0
to 4 in definition order and the lengths 5, 4, 3, 3, 2; every ship has no
hits and exactly `length` cells, all in bounds, forming one horizontal or
vertical line; different ships share no cell; the grid keeps its shape; an
entry holds an id exactly when the coordinate is among the cells of the ship
with that id; and every other entry of the board is `null`. -/
theorem placeAllShipsRandom_spec (side side1 : Side) (samples : List Sample)
    (hshape : GridShape side.grid)
    (hdone : placeAllShipsRandom side samples = .done side1) :
    side1.ships.map (fun s => (s.id, s.name, s.length)) =
      [(0, "USS Enterprise (Heavy Cruiser)", 5), (1, "USS Defiant (Escort)", 4),
       (2, "USS Voyager (Intrepid)", 3), (3, "USS Discovery (Science)", 3),
       (4, "Runabout (Support Craft)", 2)] ∧
    (∀ s ∈ side1.ships, s.hits = JSSet.empty ∧ s.cells.size = s.length ∧
      (∀ k ∈ s.cells.1, inBounds k.1 k.2 = true) ∧
      ∃ r c : Int,
        s.cells.1 = (List.range s.length).map (fun (i : Nat) => key r (c + (i : Int))) ∨
        s.cells.1 = (List.range s.length).map (fun (i : Nat) => key (r + (i : Int)) c)) ∧
    (∀ s ∈ side1.ships, ∀ t ∈ side1.ships, s ≠ t → ∀ k : Key, ¬ (k ∈ s.cells.1 ∧ k ∈ t.cells.1)) ∧
    GridShape side1.grid ∧
    (∀ (r c : Int) (id : Nat), gridRead side1.grid r c = .value (some id) ↔
      ∃ s ∈ side1.ships, s.id = id ∧ key r c ∈ s.cells.1) ∧
    (∀ r c : Int, inBounds r c = true → (∀ s ∈ side1.ships, key r c ∉ s.cells.1) →
      gridRead side1.grid r c = .value none) := by
  unfold placeAllShipsRandom at hdone
  rw [clearGrid_of_shape side.grid hshape] at hdone
  simp only at hdone
  obtain ⟨⟨hshape1, hagree, hships⟩, _, hlist⟩ :=
    placeShips_done SHIPS _ side1 0 samples (placed_empty side.shots) hdone
  have hlist1 : side1.ships.map (fun s => (s.id, s.name, s.length)) =
      [(0, "USS Enterprise (Heavy Cruiser)", 5), (1, "USS Defiant (Escort)", 4),
       (2, "USS Voyager (Intrepid)", 3), (3, "USS Discovery (Science)", 3),
       (4, "Runabout (Support Craft)", 2)] := by
    rw [hlist]
    rfl
  refine ⟨hlist1, hships, ?_, hshape1, hagree, ?_⟩
  · intro s hs t ht hne k hk
    have h1 := (hagree k.1 k.2 s.id).mpr ⟨s, hs, rfl, hk.1⟩
    have h2 := (hagree k.1 k.2 t.id).mpr ⟨t, ht, rfl, hk.2⟩
    rw [h1] at h2
    injection h2 with h2
    injection h2 with h2
    have hids : (side1.ships.map (fun s => s.id)).Nodup := by
      have : side1.ships.map (fun s => s.id) =
          (side1.ships.map (fun s => (s.id, s.name, s.length))).map (fun x => x.1) := by
        rw [List.map_map]; rfl
      rw [this, hlist1]
      decide
    exact hne (List.inj_on_of_nodup_map hids hs ht h2)
  · intro r c hin hnone
    obtain ⟨v, hv⟩ := gridRead_on_board side1.grid hshape1 r c hin
    cases v with
    | none => exact hv
    | some id =>
      obtain ⟨s, hs, _, hk⟩ := (hagree r c id).mp hv
      exact absurd hk (hnone s hs)

/-- C6 on the draws `fleetSamples`: the placement completes and the fleet
is the configured one. -/
theorem placeAllShipsRandom_spec_witness :
    GridShape createSide.grid ∧ placeAllShipsRandom createSide fleetSamples = .done fleetSide ∧
    fleetSide.ships.map (fun s => (s.id, s.name, s.length)) =
      [(0, "USS Enterprise (Heavy Cruiser)", 5), (1, "USS Defiant (Escort)", 4),
       (2, "USS Voyager (Intrepid)", 3), (3, "USS Discovery (Science)", 3),
       (4, "Runabout (Support Craft)", 2)] :=
  ⟨by decide, by decide,
    (placeAllShipsRandom_spec createSide fleetSide fleetSamples (by decide) (by decide)).1⟩

/-! ## Invariants of a side in play -/

/-- The two effects of a call on the ships, with the grid entry behind
them: no change, or a hit on the first ship whose id is the entry read. -/
theorem applyShot_ships_entry (side : Side) (r c : Int) :
    ((applyShot side r c).1.ships = side.ships ∧
      ∀ res, (applyShot side r c).2 = some res → res = { hit := false, sunk := none }) ∨
    ∃ pre s post, side.ships = pre ++ s :: post ∧
      gridRead side.grid r c = .value (some s.id) ∧ (∀ t ∈ pre, t.id ≠ s.id) ∧
      (applyShot side r c).1.ships = pre ++ { s with hits := s.hits.add (key r c) } :: post ∧
      (applyShot side r c).2 = some
        { hit := true,
          sunk := if (s.hits.add (key r c)).size = s.cells.size then some s.name else none } := by
  unfold applyShot
  simp only
  split
  · exact Or.inl ⟨rfl, fun _ h => by cases h⟩
  · refine Or.inl ⟨rfl, fun res h => ?_⟩
    simp only [Option.some.injEq] at h
    rw [← h]
  · exact Or.inl ⟨rfl, fun _ h => by cases h⟩
  · rename_i shipId hread
    rcases hitShip_spec shipId (key r c) side.ships with ⟨hn, _⟩ | ⟨pre, s, post, hs, hid, hpre, hh⟩
    · rw [hn]
      exact Or.inl ⟨rfl, fun _ h => by cases h⟩
    · rw [hh]
      subst hid
      exact Or.inr ⟨pre, s, post, hs, hread, hpre, rfl, rfl⟩

/-- A call leaves the grid. -/
theorem applyShot_grid (side : Side) (r c : Int) :
    (applyShot side r c).1.grid = side.grid := by
  unfold applyShot
  simp only
  split <;> try rfl
  split <;> rfl

/-- A call keeps id, name, length and cells of every ship, in order. -/
theorem applyShot_static (side : Side) (r c : Int) :
    (applyShot side r c).1.ships.map (fun s => (s.id, s.name, s.length, s.cells)) =
      side.ships.map (fun s => (s.id, s.name, s.length, s.cells)) := by
  rcases applyShot_ships side r c with ⟨h, _⟩ | ⟨pre, s, post, hs, h, _⟩
  · rw [h]
  · rw [h, hs]; simp

/-- Two ship lists with the same ids and cells in order: a ship of the one
has a partner of the other with its id and cells. -/
theorem static_partner (ships1 ships2 : List Ship)
    (h : ships1.map (fun s => (s.id, s.name, s.length, s.cells)) =
      ships2.map (fun s => (s.id, s.name, s.length, s.cells)))
    (s : Ship) (hs : s ∈ ships1) : ∃ t ∈ ships2, t.id = s.id ∧ t.cells = s.cells := by
  have hmem : (s.id, s.name, s.length, s.cells) ∈
      ships2.map (fun s => (s.id, s.name, s.length, s.cells)) := by
    rw [← h]
    exact List.mem_map.mpr ⟨s, hs, rfl⟩
  obtain ⟨t, ht, he⟩ := List.mem_map.mp hmem
  simp only [Prod.mk.injEq] at he
  exact ⟨t, ht, he.1, he.2.2.2⟩

/-- Agreement of grid and cells depends on the grid and on the ids and
cells of the ships only. -/
theorem GridAgrees_of_static (side side1 : Side) (hgrid : side1.grid = side.grid)
    (h : side1.ships.map (fun s => (s.id, s.name, s.length, s.cells)) =
      side.ships.map (fun s => (s.id, s.name, s.length, s.cells)))
    (hagree : GridAgrees side) : GridAgrees side1 := by
  intro p hp
  obtain ⟨h1, h2⟩ := hagree p hp
  rw [hgrid]
  constructor
  · rcases h1 with h1 | ⟨s, hs, h1⟩
    · exact Or.inl h1
    · obtain ⟨t, ht, hid, _⟩ := static_partner _ _ h.symm s hs
      exact Or.inr ⟨t, ht, by rw [hid]; exact h1⟩
  · intro s hs
    obtain ⟨t, ht, hid, hcells⟩ := static_partner _ _ h s hs
    rw [← hid, ← hcells]
    exact h2 t ht

/-- A call at a board coordinate keeps every hit among the cells of its
ship. -/
theorem applyShot_hits_cells (side : Side) (r c : Int) (hagree : GridAgrees side)
    (hsub : ∀ s ∈ side.ships, ∀ k ∈ s.hits.1, k ∈ s.cells.1) (hin : inBounds r c = true) :
    ∀ s ∈ (applyShot side r c).1.ships, ∀ k ∈ s.hits.1, k ∈ s.cells.1 := by
  intro s hs k hk
  rcases applyShot_ships_entry side r c with ⟨h, _⟩ | ⟨pre, t, post, hst, hread, _, h, _⟩
  · rw [h] at hs
    exact hsub s hs k hk
  · rw [h] at hs
    have htmem : t ∈ side.ships := by rw [hst]; simp
    rcases List.mem_append.mp hs with hp | hp
    · exact hsub s (by rw [hst]; exact List.mem_append_left _ hp) k hk
    · rcases List.mem_cons.mp hp with rfl | hp
      · simp only at hk ⊢
        rcases (JSSet.mem_add _ _ _).mp hk with hk | hk
        · exact hsub t htmem k hk
        · rw [hk]
          exact ((hagree (r, c) ((mem_boardCells_iff r c).mpr hin)).2 t htmem).mpr hread
      · exact hsub s (by rw [hst]; simp [hp]) k hk

/-- For a set of hits among the cells, having as many hits as cells is
having the same members. -/
theorem size_eq_iff_same_members (hits cells : JSSet Key) (hsub : ∀ k ∈ hits.1, k ∈ cells.1) :
    hits.size = cells.size ↔ ∀ k, k ∈ hits.1 ↔ k ∈ cells.1 := by
  constructor
  · intro hsize k
    refine ⟨hsub k, fun hk => ?_⟩
    have hsp : List.Subperm hits.1 cells.1 := List.subperm_of_subset hits.2 hsub
    have hperm : List.Perm hits.1 cells.1 :=
      hsp.perm_of_length_le (by simp only [JSSet.size] at hsize; omega)
    exact hperm.mem_iff.mpr hk
  · intro hmem
    have hperm : List.Perm hits.1 cells.1 := (List.perm_ext_iff_of_nodup hits.2 cells.2).mpr hmem
    exact hperm.length_eq

/-- C16: on a side whose grid agrees with the ships' cells and whose ships
all have their hits among their cells, `applyShot` at an in-bounds
coordinate leaves every ship with its hits among its cells and leaves grid
and cells unchanged (so the agreement holds again); hence, after the call,
the test `hits.size == cells.size` of a ship holds exactly when hits and
cells have the same members, and `isAllSunk` exactly when that is so for
every ship. -/
theorem applyShot_keeps_hits_within_cells (side : Side) (r c : Int)
    (hagree : GridAgrees side)
    (hsub : ∀ s ∈ side.ships, ∀ k ∈ s.hits.1, k ∈ s.cells.1)
    (hin : inBounds r c = true) :
    (∀ s ∈ (applyShot side r c).1.ships, ∀ k ∈ s.hits.1, k ∈ s.cells.1) ∧
    (applyShot side r c).1.grid = side.grid ∧
    (applyShot side r c).1.ships.map (fun s => s.cells) = side.ships.map (fun s => s.cells) ∧
    GridAgrees (applyShot side r c).1 ∧
    (∀ s ∈ (applyShot side r c).1.ships,
      s.hits.size = s.cells.size ↔ ∀ k, k ∈ s.hits.1 ↔ k ∈ s.cells.1) ∧
    (isAllSunk (applyShot side r c).1 = true ↔
      ∀ s ∈ (applyShot side r c).1.ships, ∀ k, k ∈ s.hits.1 ↔ k ∈ s.cells.1) := by
  have h1 := applyShot_hits_cells side r c hagree hsub hin
  have hstatic := applyShot_static side r c
  have hsize : ∀ s ∈ (applyShot side r c).1.ships,
      s.hits.size = s.cells.size ↔ ∀ k, k ∈ s.hits.1 ↔ k ∈ s.cells.1 :=
    fun s hs => size_eq_iff_same_members s.hits s.cells (h1 s hs)
  refine ⟨h1, applyShot_grid side r c, ?_, ?_, hsize, ?_⟩
  · have := congrArg (List.map (fun x : Nat × String × Nat × JSSet Key => x.2.2.2)) hstatic
    simpa [List.map_map, Function.comp_def] using this
  · exact GridAgrees_of_static side _ (applyShot_grid side r c) hstatic hagree
  · rw [isAllSunk_iff]
    constructor
    · intro h s hs
      exact (hsize s hs).mp (h s hs)
    · intro h s hs
      exact (hsize s hs).mpr (h s hs)

/-- C16 at the sample side and the coordinate `(2, 0)`. -/
theorem applyShot_keeps_hits_within_cells_witness :
    GridAgrees sampleSide ∧ inBounds 2 0 = true ∧
    ∀ s ∈ (applyShot sampleSide 2 0).1.ships, ∀ k ∈ s.hits.1, k ∈ s.cells.1 :=
  ⟨by decide, by decide,
    (applyShot_keeps_hits_within_cells sampleSide 2 0 (by decide) (by decide) (by decide)).1⟩

/-- A completed placement on a side with a 10x10 grid: the side is as the
placement leaves it, the shots are kept, and the ships are the configured
ones. -/
theorem placeAllShipsRandom_placed (side side1 : Side) (samples : List Sample)
    (hshape : GridShape side.grid)
    (hdone : placeAllShipsRandom side samples = .done side1) :
    Placed side1 ∧ side1.shots = side.shots ∧
    side1.ships.map (fun s => (s.id, s.name, s.length)) =
      [(0, "USS Enterprise (Heavy Cruiser)", 5), (1, "USS Defiant (Escort)", 4),
       (2, "USS Voyager (Intrepid)", 3), (3, "USS Discovery (Science)", 3),
       (4, "Runabout (Support Craft)", 2)] := by
  unfold placeAllShipsRandom at hdone
  rw [clearGrid_of_shape side.grid hshape] at hdone
  simp only at hdone
  obtain ⟨h1, h2, h3⟩ := placeShips_done SHIPS _ side1 0 samples (placed_empty side.shots) hdone
  refine ⟨h1, h2, ?_⟩
  rw [h3]
  rfl

/-- A placed side with different ids is in play. -/
theorem Placed.inPlay (side : Side) (h : Placed side)
    (hids : (side.ships.map (fun s => s.id)).Nodup) : InPlay side := by
  obtain ⟨hshape, hagree, hships⟩ := h
  refine ⟨?_, hids, fun s hs => (hships s hs).2.2.1, ?_⟩
  · intro p hp
    have hin : inBounds p.1 p.2 = true := (mem_boardCells_iff p.1 p.2).mp hp
    obtain ⟨v, hv⟩ := gridRead_on_board side.grid hshape p.1 p.2 hin
    constructor
    · cases v with
      | none => exact Or.inl hv
      | some id =>
        obtain ⟨s, hs, hid, _⟩ := (hagree p.1 p.2 id).mp hv
        exact Or.inr ⟨s, hs, by rw [hid]; exact hv⟩
    · intro s hs
      constructor
      · intro hk
        exact (hagree p.1 p.2 s.id).mpr ⟨s, hs, rfl, hk⟩
      · intro hread
        obtain ⟨t, ht, hid, hk⟩ := (hagree p.1 p.2 s.id).mp hread
        have : t = s := List.inj_on_of_nodup_map hids ht hs hid
        rw [← this]
        exact hk
  · intro s hs k hk
    rw [(hships s hs).1] at hk
    cases hk

/-- A call at a board coordinate keeps a side in play. -/
theorem applyShot_inPlay (side : Side) (r c : Int) (h : InPlay side)
    (hin : inBounds r c = true) : InPlay (applyShot side r c).1 := by
  obtain ⟨hagree, hids, hcells, hsub⟩ := h
  have hstatic := applyShot_static side r c
  refine ⟨GridAgrees_of_static side _ (applyShot_grid side r c) hstatic hagree, ?_, ?_,
    applyShot_hits_cells side r c hagree hsub hin⟩
  · have := congrArg (List.map (fun x : Nat × String × Nat × JSSet Key => x.1)) hstatic
    simp only [List.map_map, Function.comp_def] at this
    rw [this]
    exact hids
  · intro s hs k hk
    obtain ⟨t, ht, _, hc⟩ := static_partner _ _ hstatic s hs
    rw [← hc] at hk
    exact hcells t ht k hk

/-- A run at board coordinates keeps a side in play. -/
theorem sideAfterShots_inPlay (coords : List (Int × Int)) (side : Side) (h : InPlay side)
    (hin : ∀ p ∈ coords, inBounds p.1 p.2 = true) : InPlay (sideAfterShots side coords) := by
  induction coords generalizing side with
  | nil => exact h
  | cons p rest ih =>
    exact ih (applyShot side p.1 p.2).1
      (applyShot_inPlay side p.1 p.2 h (hin p (List.mem_cons_self _ _)))
      (fun q hq => hin q (List.mem_cons_of_mem _ hq))

/-- On a side in play two ships at different positions share no hit. -/
theorem InPlay.hits_disjoint (side : Side) (h : InPlay side) (i j : Nat) (s t : Ship)
    (hij : i ≠ j) (hs : side.ships[i]? = some s) (ht : side.ships[j]? = some t) (k : Key) :
    ¬ (k ∈ s.hits.1 ∧ k ∈ t.hits.1) := by
  obtain ⟨hagree, hids, hcells, hsub⟩ := h
  rintro ⟨hks, hkt⟩
  have hsm := List.getElem?_mem hs
  have htm := List.getElem?_mem ht
  have hkc := hsub s hsm k hks
  have hp : (k.1, k.2) ∈ boardCells := (mem_boardCells_iff k.1 k.2).mpr (hcells s hsm k hkc)
  have h1 := ((hagree (k.1, k.2) hp).2 s hsm).mp hkc
  have h2 := ((hagree (k.1, k.2) hp).2 t htm).mp (hsub t htm k hkt)
  rw [h1] at h2
  injection h2 with h2
  injection h2 with h2
  have hi : i < side.ships.length := by
    rcases Nat.lt_or_ge i side.ships.length with h' | h'
    · exact h'
    · rw [List.getElem?_eq_none_iff.mpr h'] at hs; cases hs
  have hj : j < side.ships.length := by
    rcases Nat.lt_or_ge j side.ships.length with h' | h'
    · exact h'
    · rw [List.getElem?_eq_none_iff.mpr h'] at ht; cases ht
  have hi1 : (side.ships.map (fun s => s.id))[i]? = some s.id := by simp [hs]
  have hj1 : (side.ships.map (fun s => s.id))[j]? = some t.id := by simp [ht]
  rw [h2] at hi1
  have hlen : (side.ships.map (fun s => s.id)).length = side.ships.length := by simp
  rw [List.getElem?_eq_getElem (by omega)] at hi1 hj1
  have := (@List.Nodup.getElem_inj_iff _ _ hids i (by omega) j (by omega)).mp
    (Option.some.inj (hi1.trans hj1.symm))
  exact hij this

/-- C11: for a side produced by a completed placement and then any run of
`applyShot` calls at in-bounds coordinates: whatever call comes next, every
member of `shots` before it is a member after it; and at that point no
coordinate is among the hits of two ships at different positions of the
fleet. -/
theorem shots_grow_and_hits_disjoint (side0 side : Side) (samples : List Sample)
    (coords : List (Int × Int)) (hshape : GridShape side0.grid)
    (hdone : placeAllShipsRandom side0 samples = .done side)
    (hin : ∀ p ∈ coords, inBounds p.1 p.2 = true) :
    (∀ (r c : Int) (k : Key), k ∈ (sideAfterShots side coords).shots.1 →
      k ∈ (applyShot (sideAfterShots side coords) r c).1.shots.1) ∧
    (∀ (i j : Nat) (s t : Ship) (k : Key), i ≠ j →
      (sideAfterShots side coords).ships[i]? = some s →
      (sideAfterShots side coords).ships[j]? = some t →
      ¬ (k ∈ s.hits.1 ∧ k ∈ t.hits.1)) := by
  obtain ⟨hplaced, _, hlist⟩ := placeAllShipsRandom_placed side0 side samples hshape hdone
  have hids : (side.ships.map (fun s => s.id)).Nodup := by
    have : side.ships.map (fun s => s.id) =
        (side.ships.map (fun s => (s.id, s.name, s.length))).map (fun x => x.1) := by
      rw [List.map_map]; rfl
    rw [this, hlist]
    decide
  have hplay := sideAfterShots_inPlay coords side (Placed.inPlay side hplaced hids) hin
  constructor
  · intro r c k hk
    rw [applyShot_shots, JSSet.mem_add]
    exact Or.inl hk
  · intro i j s t k hij hs ht
    exact InPlay.hits_disjoint _ hplay i j s t hij hs ht k

/-- C11 on the sample fleet after the run `(0,0)`, `(1,0)`, `(0,0)`. -/
theorem shots_grow_and_hits_disjoint_witness :
    GridShape createSide.grid ∧ placeAllShipsRandom createSide fleetSamples = .done fleetSide ∧
    ∀ (i j : Nat) (s t : Ship) (k : Key), i ≠ j →
      (sideAfterShots fleetSide [(0, 0), (1, 0), (0, 0)]).ships[i]? = some s →
      (sideAfterShots fleetSide [(0, 0), (1, 0), (0, 0)]).ships[j]? = some t →
      ¬ (k ∈ s.hits.1 ∧ k ∈ t.hits.1) :=
  ⟨by decide, by decide,
    (shots_grow_and_hits_disjoint createSide fleetSide fleetSamples [(0, 0), (1, 0), (0, 0)]
      (by decide) (by decide) (by decide)).2⟩

/-! ## Career counters -/

/-- On an integer from `-2 ^ 53` to `2 ^ 53 - 1` the addition of double
arithmetic is the exact one. -/
theorem jsAddOne_safe (n : Int) (hlo : -(2 ^ 53) ≤ n) (hhi : n < 2 ^ 53) :
    jsAddOne (.int n) = .int (n + 1) := by
  have h : (n + 1).natAbs ≤ 2 ^ 53 := by omega
  show JSNumber.int (nearestDouble (n + 1)) = .int (n + 1)
  unfold nearestDouble
  rw [if_pos h]

/-- At `2 ^ 53` the addition of double arithmetic gives `2 ^ 53` again, and
`NaN` stays `NaN`. -/
theorem jsAddOne_sticks :
    jsAddOne (.int (2 ^ 53)) = .int (2 ^ 53) ∧ jsAddOne .nan = .nan := by
  decide

/-- The end of `onFireAtEnemy` either keeps phase and counters or ends the
game and adds one Federation win. -/
theorem finishPlayerShot_stats (w : World) (g : Session) (res : ShotResult) :
    ((finishPlayerShot w g res).world.stats = w.stats ∧
      (finishPlayerShot w g res).world.game.map (fun x => x.phase) = some g.phase) ∨
    ((finishPlayerShot w g res).world.game.map (fun x => x.phase) = some Phase.gameover ∧
      (finishPlayerShot w g res).world.stats =
        { fedWins := jsAddOne w.stats.fedWins, enemyWins := w.stats.enemyWins }) := by
  unfold finishPlayerShot
  split
  · exact Or.inr ⟨rfl, rfl⟩
  · exact Or.inl ⟨rfl, rfl⟩

/-- The end of `cpuMove` either keeps phase and counters or ends the game
and adds one enemy win. -/
theorem finishCpuShot_stats (w : World) (g : Session) (res : ShotResult) :
    ((finishCpuShot w g res).world.stats = w.stats ∧
      (finishCpuShot w g res).world.game.map (fun x => x.phase) = some g.phase) ∨
    ((finishCpuShot w g res).world.game.map (fun x => x.phase) = some Phase.gameover ∧
      (finishCpuShot w g res).world.stats =
        { fedWins := w.stats.fedWins, enemyWins := jsAddOne w.stats.enemyWins }) := by
  unfold finishCpuShot
  split
  · exact Or.inr ⟨rfl, rfl⟩
  · exact Or.inl ⟨rfl, rfl⟩

/-- A player step either keeps phase and counters, or goes from battle to
gameover and adds one Federation win. -/
theorem onFireAtEnemy_stats (w : World) (r c : Int) :
    ((onFireAtEnemy w r c).world.stats = w.stats ∧
      (onFireAtEnemy w r c).world.game.map (fun x => x.phase) =
        w.game.map (fun x => x.phase)) ∨
    (w.game.map (fun x => x.phase) = some Phase.battle ∧
      (onFireAtEnemy w r c).world.game.map (fun x => x.phase) = some Phase.gameover ∧
      (onFireAtEnemy w r c).world.stats =
        { fedWins := jsAddOne w.stats.fedWins, enemyWins := w.stats.enemyWins }) := by
  cases hg : w.game with
  | none => exact Or.inl (by simp [onFireAtEnemy, hg])
  | some g =>
    unfold onFireAtEnemy
    simp only [hg]
    split
    · exact Or.inl ⟨rfl, by rw [hg]⟩
    · rename_i hguard
      have hphase : g.phase = .battle := by
        by_contra h
        exact hguard (Or.inl h)
      split
      · exact Or.inl ⟨rfl, by rw [hg]⟩
      · split
        · exact Or.inl ⟨rfl, rfl⟩
        · rename_i cpu1 res happ
          have hp := (logPlayerShot_frame { g with cpu := cpu1 } r c res).1
          simp only at hp
          split
          · exact Or.inl ⟨rfl, by simp only [Option.map_some']; exact congrArg some hp⟩
          · rcases finishPlayerShot_stats
              (saveGame w (logPlayerShot { g with cpu := cpu1 } r c res))
              (logPlayerShot { g with cpu := cpu1 } r c res) res with ⟨h1, h2⟩ | ⟨h1, h2⟩
            · exact Or.inl ⟨h1, by rw [h2, hp]; rfl⟩
            · exact Or.inr ⟨by simp [hphase], h1, h2⟩

/-- An opponent step either keeps phase and counters, or goes from battle
to gameover and adds one enemy win. -/
theorem cpuMove_stats (w : World) (u : Nat) :
    ((cpuMove w u).world.stats = w.stats ∧
      (cpuMove w u).world.game.map (fun x => x.phase) = w.game.map (fun x => x.phase)) ∨
    (w.game.map (fun x => x.phase) = some Phase.battle ∧
      (cpuMove w u).world.game.map (fun x => x.phase) = some Phase.gameover ∧
      (cpuMove w u).world.stats =
        { fedWins := w.stats.fedWins, enemyWins := jsAddOne w.stats.enemyWins }) := by
  cases hg : w.game with
  | none => exact Or.inl (by simp [cpuMove, hg])
  | some g =>
    unfold cpuMove
    simp only [hg]
    split
    · exact Or.inl ⟨rfl, by rw [hg]⟩
    · rename_i hguard
      have hphase : g.phase = .battle := by
        by_contra h
        exact hguard h
      have fp := (pickTargetForAI_frame g u).1
      split
      · rename_i gp hpick
        rw [hpick] at fp
        exact Or.inl ⟨rfl, by simp only [Option.map_some']; exact congrArg some fp⟩
      · rename_i gp ch hpick
        rw [hpick] at fp
        simp only at fp
        split
        · exact Or.inl ⟨rfl, by simp only [Option.map_some']; exact congrArg some fp⟩
        · rename_i player1 res happ
          have hp := (updateAIAfterShot_frame
            { gp with ai := { gp.ai with lastEnd := ch.lineEnd }, player := player1 }
            ch.r ch.c res).1
          simp only at hp
          split
          · exact Or.inl ⟨rfl, by
              simp only [Option.map_some']; exact congrArg some (hp.trans fp)⟩
          · rcases finishCpuShot_stats
              (saveGame w (updateAIAfterShot
                { gp with ai := { gp.ai with lastEnd := ch.lineEnd }, player := player1 }
                ch.r ch.c res))
              (updateAIAfterShot
                { gp with ai := { gp.ai with lastEnd := ch.lineEnd }, player := player1 }
                ch.r ch.c res) res with ⟨h1, h2⟩ | ⟨h1, h2⟩
            · exact Or.inl ⟨h1, by rw [h2, hp, fp]; rfl⟩
            · exact Or.inr ⟨by simp [hphase], h1, h2⟩

/-- The reveal toggle keeps phase and counters. -/
theorem toggleReveal_stats (w : World) :
    (toggleReveal w).world.stats = w.stats ∧
    (toggleReveal w).world.game.map (fun x => x.phase) = w.game.map (fun x => x.phase) := by
  cases hg : w.game with
  | none => simp [toggleReveal, hg]
  | some g =>
    unfold toggleReveal
    simp only [hg]
    split
    · exact ⟨rfl, rfl⟩
    · exact ⟨rfl, rfl⟩

/-- C15: of the steps `onFireAtEnemy`, `cpuMove` and the reveal toggle, a
step that takes the phase from battle to gameover applies `+= 1` to one
career counter (`fedWins` for `onFireAtEnemy`, `enemyWins` for `cpuMove`)
and leaves the other, which for a counter that is an integer from `0` to
`2 ^ 53 - 1` (or a negative one down to `-2 ^ 53`) adds exactly 1; every
other step leaves both counters; the reveal toggle never changes phase or
counters; and in phase gameover no `onFireAtEnemy` or `cpuMove` step
changes a counter. -/
theorem career_counters_step (w : World) :
    (∀ r c : Int,
      ((w.game.map (fun x => x.phase) = some Phase.battle ∧
          (onFireAtEnemy w r c).world.game.map (fun x => x.phase) = some Phase.gameover) →
        (onFireAtEnemy w r c).world.stats =
          { fedWins := jsAddOne w.stats.fedWins, enemyWins := w.stats.enemyWins } ∧
        ∀ n : Int, w.stats.fedWins = .int n → -(2 ^ 53) ≤ n → n < 2 ^ 53 →
          (onFireAtEnemy w r c).world.stats =
            { fedWins := .int (n + 1), enemyWins := w.stats.enemyWins }) ∧
      (¬ (w.game.map (fun x => x.phase) = some Phase.battle ∧
          (onFireAtEnemy w r c).world.game.map (fun x => x.phase) = some Phase.gameover) →
        (onFireAtEnemy w r c).world.stats = w.stats)) ∧
    (∀ u : Nat,
      ((w.game.map (fun x => x.phase) = some Phase.battle ∧
          (cpuMove w u).world.game.map (fun x => x.phase) = some Phase.gameover) →
        (cpuMove w u).world.stats =
          { fedWins := w.stats.fedWins, enemyWins := jsAddOne w.stats.enemyWins } ∧
        ∀ n : Int, w.stats.enemyWins = .int n → -(2 ^ 53) ≤ n → n < 2 ^ 53 →
          (cpuMove w u).world.stats =
            { fedWins := w.stats.fedWins, enemyWins := .int (n + 1) }) ∧
      (¬ (w.game.map (fun x => x.phase) = some Phase.battle ∧
          (cpuMove w u).world.game.map (fun x => x.phase) = some Phase.gameover) →
        (cpuMove w u).world.stats = w.stats)) ∧
    ((toggleReveal w).world.stats = w.stats ∧
      (toggleReveal w).world.game.map (fun x => x.phase) = w.game.map (fun x => x.phase)) ∧
    (w.game.map (fun x => x.phase) = some Phase.gameover →
      (∀ r c : Int, (onFireAtEnemy w r c).world.stats = w.stats) ∧
      (∀ u : Nat, (cpuMove w u).world.stats = w.stats)) := by
  refine ⟨?_, ?_, toggleReveal_stats w, ?_⟩
  · intro r c
    rcases onFireAtEnemy_stats w r c with ⟨h1, h2⟩ | ⟨h1, h2, h3⟩
    · refine ⟨?_, fun _ => h1⟩
      rintro ⟨hb, hg⟩
      rw [h2, hb] at hg
      cases hg
    · refine ⟨fun _ => ⟨h3, ?_⟩, fun hn => absurd ⟨h1, h2⟩ hn⟩
      intro n hn hlo hhi
      rw [h3, hn, jsAddOne_safe n hlo hhi]
  · intro u
    rcases cpuMove_stats w u with ⟨h1, h2⟩ | ⟨h1, h2, h3⟩
    · refine ⟨?_, fun _ => h1⟩
      rintro ⟨hb, hg⟩
      rw [h2, hb] at hg
      cases hg
    · refine ⟨fun _ => ⟨h3, ?_⟩, fun hn => absurd ⟨h1, h2⟩ hn⟩
      intro n hn hlo hhi
      rw [h3, hn, jsAddOne_safe n hlo hhi]
  · intro hover
    constructor
    · intro r c
      rcases onFireAtEnemy_stats w r c with ⟨h1, _⟩ | ⟨h1, _, _⟩
      · exact h1
      · rw [hover] at h1; cases h1
    · intro u
      rcases cpuMove_stats w u with ⟨h1, _⟩ | ⟨h1, _, _⟩
      · exact h1
      · rw [hover] at h1; cases h1

/-- C15 at the end of a game: the shot at `(3, 0)` sinks the last ship and
the Federation counter goes from 0 to 1. -/
theorem career_counters_step_witness :
    (onFireAtEnemy (worldOf (sessionOf sampleSide endgameSide)) 3 0).world.stats =
      { fedWins := .int 1, enemyWins := .int 0 } :=
  (((career_counters_step (worldOf (sessionOf sampleSide endgameSide))).1 3 0).1
    ⟨by decide, by decide⟩).2 0 rfl (by decide) (by decide)

/-! ## The AI update after a shot -/

/-- The AI state a `cpuMove` leaves when the pick and the shot return: the
one the update after the shot computes. -/
theorem cpuMove_ai (w : World) (g gp : Session) (u : Nat) (ch : Choice) (player1 : Side)
    (res : ShotResult) (hg : w.game = some g) (hphase : g.phase = .battle)
    (hpick : pickTargetForAI g u = (gp, some ch))
    (happ : applyShot g.player ch.r ch.c = (player1, some res)) :
    ∃ g1, (cpuMove w u).world.game = some g1 ∧
      g1.ai = (updateAIAfterShot
        { gp with ai := { gp.ai with lastEnd := ch.lineEnd }, player := player1 }
        ch.r ch.c res).ai := by
  have fpl : gp.player = g.player := by
    have := (pickTargetForAI_frame g u).2.2.1
    rw [hpick] at this
    exact this
  unfold cpuMove
  simp only [hg, hphase, hpick, fpl, happ]
  simp only [ne_eq, not_true_eq_false, if_false]
  split
  · exact ⟨_, rfl, rfl⟩
  · obtain ⟨g1, h1, _, _, h2, _⟩ := finishCpuShot_game
      (saveGame w (updateAIAfterShot
        { gp with ai := { gp.ai with lastEnd := ch.lineEnd }, player := player1 } ch.r ch.c res))
      (updateAIAfterShot
        { gp with ai := { gp.ai with lastEnd := ch.lineEnd }, player := player1 } ch.r ch.c res)
      res
    exact ⟨g1, h1, h2⟩

/-- After a hit reported with a name that is not empty the AI state is the
fresh one. -/
theorem updateAIAfterShot_sunk (g : Session) (r c : Int) (res : ShotResult) (n : String)
    (hhit : res.hit = true) (hsunk : res.sunk = some n) (hn : n ≠ "") :
    (updateAIAfterShot g r c res).ai = freshAI := by
  have ht : truthy res.sunk = true := by simp [truthy, hsunk, hn]
  simp [updateAIAfterShot, hhit, ht, resetAIToHunt]

/-- The name a call reports as sunk is the name of a ship of the side. -/
theorem applyShot_sunk_name (side : Side) (r c : Int) (res : ShotResult) (n : String)
    (h : (applyShot side r c).2 = some res) (hsunk : res.sunk = some n) :
    ∃ s ∈ side.ships, s.name = n := by
  rcases applyShot_ships side r c with ⟨_, h1⟩ | ⟨pre, s, post, hs, _, h1⟩
  · rw [h1 res h] at hsunk
    cases hsunk
  · rw [h1, Option.some.injEq] at h
    rw [← h] at hsunk
    simp only at hsunk
    split at hsunk
    · rw [Option.some.injEq] at hsunk
      exact ⟨s, by rw [hs]; simp, hsunk⟩
    · cases hsunk

/-- An opponent move keeps the names of the player's ships. -/
theorem cpuMove_player_names (w : World) (g : Session) (u : Nat) (hg : w.game = some g) :
    ∀ g1, (cpuMove w u).world.game = some g1 →
      g1.player.ships.map (·.name) = g.player.ships.map (·.name) := by
  intro g1 hg1
  obtain ⟨_, _, fpl, _, _, _⟩ := pickTargetForAI_frame g u
  unfold cpuMove at hg1
  simp only [hg] at hg1
  split at hg1
  · simp only [hg, Option.some.injEq] at hg1
    rw [← hg1]
  · split at hg1
    · rename_i gp hpick
      rw [hpick] at fpl
      simp only [Option.some.injEq] at hg1
      rw [← hg1, fpl]
    · rename_i gp ch hpick
      rw [hpick] at fpl
      simp only at fpl
      simp only [fpl] at hg1
      have hn := applyShot_names g.player ch.r ch.c
      split at hg1
      · rename_i player1 happ
        rw [happ] at hn
        simp only [Option.some.injEq] at hg1
        rw [← hg1]
        exact hn
      · rename_i player1 res happ
        rw [happ] at hn
        obtain ⟨_, _, hpl, _, _⟩ := updateAIAfterShot_frame
          { gp with ai := { gp.ai with lastEnd := ch.lineEnd }, player := player1 } ch.r ch.c res
        split at hg1
        · simp only [Option.some.injEq] at hg1
          rw [← hg1, hpl]
          exact hn
        · obtain ⟨g2, h1, _, h2, _, _⟩ := finishCpuShot_game
            (saveGame w (updateAIAfterShot
              { gp with ai := { gp.ai with lastEnd := ch.lineEnd }, player := player1 }
              ch.r ch.c res))
            (updateAIAfterShot
              { gp with ai := { gp.ai with lastEnd := ch.lineEnd }, player := player1 }
              ch.r ch.c res) res
          rw [h1, Option.some.injEq] at hg1
          rw [← hg1, h2, hpl]
          exact hn

/-- A player shot keeps the player's side. -/
theorem onFireAtEnemy_player (w : World) (g : Session) (r c : Int) (hg : w.game = some g) :
    ∀ g1, (onFireAtEnemy w r c).world.game = some g1 → g1.player = g.player := by
  intro g1 hg1
  rcases onFireAtEnemy_cases w g hg r c with
    hc | ⟨cpu1, _, hc⟩ | ⟨cpu1, res, _, hc⟩ | ⟨cpu1, res, g2, _, hc, _, _, _⟩
  · rw [hc] at hg1
    simp only [hg, Option.some.injEq] at hg1
    rw [← hg1]
  · rw [hc] at hg1
    simp only [Option.some.injEq] at hg1
    rw [← hg1]
  · rw [hc] at hg1
    simp only [Option.some.injEq] at hg1
    rw [← hg1]
    exact (logPlayerShot_frame { g with cpu := cpu1 } r c res).2.2.1
  · rw [hc] at hg1
    obtain ⟨g3, e1, _, e3, _, _⟩ := finishPlayerShot_game
      (saveGame w (logPlayerShot { g with cpu := cpu1 } r c res))
      (logPlayerShot { g with cpu := cpu1 } r c res) res
    rw [e1, Option.some.injEq] at hg1
    rw [← hg1, e3]
    exact (logPlayerShot_frame { g with cpu := cpu1 } r c res).2.2.1

/-- The reveal toggle keeps the player's side. -/
theorem toggleReveal_player (w : World) (g : Session) (hg : w.game = some g) :
    ∀ g1, (toggleReveal w).world.game = some g1 → g1.player = g.player := by
  intro g1 hg1
  unfold toggleReveal at hg1
  simp only [hg] at hg1
  split at hg1
  · simp only [Option.some.injEq] at hg1
    rw [← hg1]
  · simp only [saveGame, Option.some.injEq] at hg1
    rw [← hg1]
    rfl

/-- Every sequence of events keeps the names of the player's ships. -/
theorem run_player_names (actions : List Action) (w : World) (g : Session)
    (hg : w.game = some g) :
    ∀ g1, (run w actions).game = some g1 →
      g1.player.ships.map (·.name) = g.player.ships.map (·.name) := by
  induction actions generalizing w g with
  | nil =>
    intro g1 hg1
    simp only [run, List.foldl_nil, hg, Option.some.injEq] at hg1
    rw [← hg1]
  | cons a rest ih =>
    intro g1 hg1
    have hrun : run w (a :: rest) = run (step w a) rest := rfl
    rw [hrun] at hg1
    cases hs : (step w a).game with
    | none =>
      exfalso
      cases a with
      | fire r c =>
        rcases onFireAtEnemy_cases w g hg r c with
          hc | ⟨_, _, hc⟩ | ⟨_, _, _, hc⟩ | ⟨_, _, g2, _, _, hc, _, _⟩
        · simp [step, hc, hg] at hs
        · simp [step, hc] at hs
        · simp [step, hc] at hs
        · simp [step, hc] at hs
      | cpu u =>
        rcases cpuMove_cases w g hg u with hc | ⟨_, hc⟩ | ⟨_, _, h | h⟩
        · simp [step, hc, hg] at hs
        · simp [step, hc] at hs
        · obtain ⟨g2, _, hc, _⟩ := h
          simp [step, hc] at hs
        · obtain ⟨_, g2, _, hc, _⟩ := h
          simp [step, hc] at hs
      | reveal =>
        simp only [step, toggleReveal, hg] at hs
        split at hs <;> simp [saveGame] at hs
    | some g2 =>
      rw [ih (step w a) g2 hs g1 hg1]
      cases a with
      | fire r c => rw [onFireAtEnemy_player w g r c hg g2 hs]
      | cpu u => exact cpuMove_player_names w g u hg g2 hs
      | reveal => rw [toggleReveal_player w g hg g2 hs]

/-- C19: in phase battle, when the shot resolved by `cpuMove` is a hit that
sinks a ship, the AI state after the step is the fresh one, whatever it held
before: on every session whose player ships have names that are not the
empty string (the names of `SHIPS` are such), and so on every session
reached from a mission whose player side comes from a completed placement
on a new side, by any sequence of player shots, opponent moves and reveal
toggles. -/
theorem cpuMove_sunk_resets :
    (∀ (w : World) (g gp : Session) (u : Nat) (ch : Choice) (player1 : Side)
        (res : ShotResult) (n : String),
      w.game = some g → g.phase = .battle →
      (∀ s ∈ g.player.ships, s.name ≠ "") →
      pickTargetForAI g u = (gp, some ch) →
      applyShot g.player ch.r ch.c = (player1, some res) →
      res.hit = true → res.sunk = some n →
      ∃ g1, (cpuMove w u).world.game = some g1 ∧ g1.ai = freshAI) ∧
    (∀ (w : World) (g : Session) (samples : List Sample) (actions : List Action)
        (g1 gp : Session) (u : Nat) (ch : Choice) (player1 : Side) (res : ShotResult)
        (n : String),
      w.game = some g →
      placeAllShipsRandom createSide samples = .done g.player →
      (run w actions).game = some g1 → g1.phase = .battle →
      pickTargetForAI g1 u = (gp, some ch) →
      applyShot g1.player ch.r ch.c = (player1, some res) →
      res.hit = true → res.sunk = some n →
      ∃ g2, (cpuMove (run w actions) u).world.game = some g2 ∧ g2.ai = freshAI) := by
  have key : ∀ (w : World) (g gp : Session) (u : Nat) (ch : Choice) (player1 : Side)
      (res : ShotResult) (n : String),
      w.game = some g → g.phase = .battle →
      (∀ s ∈ g.player.ships, s.name ≠ "") →
      pickTargetForAI g u = (gp, some ch) →
      applyShot g.player ch.r ch.c = (player1, some res) →
      res.hit = true → res.sunk = some n →
      ∃ g1, (cpuMove w u).world.game = some g1 ∧ g1.ai = freshAI := by
    intro w g gp u ch player1 res n hg hphase hnames hpick happ hhit hsunk
    obtain ⟨s, hs, hsn⟩ := applyShot_sunk_name g.player ch.r ch.c res n (by rw [happ]) hsunk
    have hn : n ≠ "" := by
      rw [← hsn]
      exact hnames s hs
    obtain ⟨g1, h1, h2⟩ := cpuMove_ai w g gp u ch player1 res hg hphase hpick happ
    exact ⟨g1, h1, by rw [h2, updateAIAfterShot_sunk _ _ _ res n hhit hsunk hn]⟩
  refine ⟨key, ?_⟩
  intro w g samples actions g1 gp u ch player1 res n hg hplaced hg1 hphase hpick happ hhit hsunk
  refine key (run w actions) g1 gp u ch player1 res n hg1 hphase ?_ hpick happ hhit hsunk
  obtain ⟨_, _, hlist⟩ := placeAllShipsRandom_placed createSide g.player samples (by decide) hplaced
  have hnames0 : g.player.ships.map (·.name) =
      ["USS Enterprise (Heavy Cruiser)", "USS Defiant (Escort)", "USS Voyager (Intrepid)",
       "USS Discovery (Science)", "Runabout (Support Craft)"] := by
    have : g.player.ships.map (·.name) =
        (g.player.ships.map (fun s => (s.id, s.name, s.length))).map (fun x => x.2.1) := by
      rw [List.map_map]; rfl
    rw [this, hlist]
    rfl
  intro s hs
  have hmem : s.name ∈ g1.player.ships.map (·.name) := List.mem_map_of_mem _ hs
  rw [run_player_names actions w g hg g1 hg1, hnames0] at hmem
  intro he
  rw [he] at hmem
  revert hmem
  decide

/-- C19 on the wounded sample side: the shot at `(3, 0)` sinks the Runabout
and the AI state is fresh. -/
theorem cpuMove_sunk_resets_witness :
    (applyShot woundedSide 3 0).2 =
      some { hit := true, sunk := some "Runabout (Support Craft)" } ∧
    ∃ g1, (cpuMove (worldOf (sessionOf woundedSide sampleSide)) 29).world.game = some g1 ∧
      g1.ai = freshAI :=
  ⟨by decide,
    cpuMove_sunk_resets.1 (worldOf (sessionOf woundedSide sampleSide))
      (sessionOf woundedSide sampleSide) (sessionOf woundedSide sampleSide) 29
      { r := 3, c := 0, lineEnd := none } (applyShot woundedSide 3 0).1
      { hit := true, sunk := some "Runabout (Support Craft)" } "Runabout (Support Craft)"
      rfl rfl (by decide) (Prod.ext rfl (by decide)) rfl rfl rfl⟩

/-- For coordinates all different, `pushUniqueTargets` appends those not
shot and not in the list before, in order. -/
theorem pushUniqueTargets_eq_filter (side : Side) (coords list : List (Int × Int))
    (hnd : coords.Nodup) :
    pushUniqueTargets list coords side =
      list ++ coords.filter (fun p => !side.shots.has (key p.1 p.2) && !decide (p ∈ list)) := by
  unfold pushUniqueTargets
  induction coords generalizing list with
  | nil => simp
  | cons p rest ih =>
    have hp : p ∉ rest := (List.nodup_cons.mp hnd).1
    have hrest : rest.Nodup := (List.nodup_cons.mp hnd).2
    have hmap : ∀ l : List (Int × Int), l.map (fun q => key q.1 q.2) = l := by
      intro l
      have : (fun q : Int × Int => key q.1 q.2) = id := by
        funext q
        rfl
      rw [this, List.map_id]
    have hkey : key p.1 p.2 = p := rfl
    rw [List.foldl_cons, hmap, List.filter_cons]
    simp only [hkey]
    by_cases hc : (!side.shots.has p && !decide (p ∈ list)) = true
    · rw [if_pos hc, if_pos hc, ih _ hrest, List.append_assoc]
      congr 1
      simp only [List.singleton_append]
      congr 1
      apply List.filter_congr
      intro q hq
      have hqp : q ≠ p := fun h => hp (h ▸ hq)
      simp [hqp]
    · rw [if_neg hc, if_neg hc, ih _ hrest]

/-- The four neighbours are all different. -/
theorem neighbours_nodup (r c : Int) :
    [(r - 1, c), (r + 1, c), (r, c - 1), (r, c + 1)].Nodup := by
  have h1 : (r - 1, c) ≠ (r + 1, c) := fun h => by injection h with h _; omega
  have h2 : (r - 1, c) ≠ (r, c - 1) := fun h => by injection h with h _; omega
  have h3 : (r - 1, c) ≠ (r, c + 1) := fun h => by injection h with h _; omega
  have h4 : (r + 1, c) ≠ (r, c - 1) := fun h => by injection h with h _; omega
  have h5 : (r + 1, c) ≠ (r, c + 1) := fun h => by injection h with h _; omega
  have h6 : (r, c - 1) ≠ (r, c + 1) := fun h => by injection h with _ h; omega
  simp [h1, h2, h3, h4, h5, h6]

/-- The queue after the neighbours of a hit are pushed. -/
theorem pushUniqueTargets_neighbours (side : Side) (r c : Int) (list : List (Int × Int)) :
    pushUniqueTargets list (getAdjacentCells r c) side =
      list ++ [(r - 1, c), (r + 1, c), (r, c - 1), (r, c + 1)].filter (fun p =>
        inBounds p.1 p.2 && !side.shots.has (key p.1 p.2) && !decide (p ∈ list)) := by
  unfold getAdjacentCells
  rw [pushUniqueTargets_eq_filter side _ list ((neighbours_nodup r c).filter _)]
  rw [List.filter_filter]
  congr 1
  apply List.filter_congr
  intro p _
  cases inBounds p.1 p.2 <;> simp

/-- Pushing the neighbours keeps a queue free of repeats. -/
theorem pushUniqueTargets_nodup (side : Side) (r c : Int) (list : List (Int × Int))
    (h : list.Nodup) : (pushUniqueTargets list (getAdjacentCells r c) side).Nodup := by
  rw [pushUniqueTargets_neighbours]
  refine List.Nodup.append h ((neighbours_nodup r c).filter _) ?_
  intro p hp hq
  have := (List.mem_filter.mp hq).2
  simp [hp] at this

/-- The update of the AI after a hit that reports no ship sunk. -/
theorem updateAIAfterShot_hit (g : Session) (r c : Int) (res : ShotResult)
    (hhit : res.hit = true) (hsunk : res.sunk = none) :
    (updateAIAfterShot g r c res).ai =
      match g.ai.dir with
      | some _ =>
        { g.ai with mode := .target, currentHits := g.ai.currentHits ++ [(r, c)] }
      | none =>
        match determineDirectionFromHits (g.ai.currentHits ++ [(r, c)]) with
        | some d =>
          { g.ai with mode := .target, currentHits := g.ai.currentHits ++ [(r, c)],
                      dir := some d, targets := [], blockedPos := false, blockedNeg := false }
        | none =>
          { g.ai with mode := .target, currentHits := g.ai.currentHits ++ [(r, c)],
                      targets := pushUniqueTargets g.ai.targets (getAdjacentCells r c) g.player } := by
  have ht : truthy res.sunk = false := by simp [truthy, hsunk]
  unfold updateAIAfterShot
  simp only [hhit, ht, if_true, Bool.false_eq_true, if_false, addLogLine]
  cases hd : g.ai.dir with
  | some d => simp [hd]
  | none =>
    simp only [hd]
    cases hdet : determineDirectionFromHits (g.ai.currentHits ++ [(r, c)]) with
    | some d => simp [hdet]
    | none => simp [hdet]

/-- C18: after an opponent hit that sinks no ship, with `gp` the session
as the pick left it: the mode is target and the coordinate is appended to
`currentHits`; if `dir` was unset and `determineDirectionFromHits` of the
new `currentHits` gives a direction, `dir` is that direction, the queue is
empty and both blocked flags are false; if it gives none, `dir` stays unset,
the flags stay, and the queue is the previous queue followed by those of the
neighbours up, down, left, right (in that order) that are in bounds, not in
`player.shots` and not in the previous queue, so a queue without repeats
stays without repeats; if `dir` was set, `dir`, queue and flags stay. -/
theorem cpuMove_hit_update (w : World) (g gp : Session) (u : Nat) (ch : Choice)
    (player1 : Side) (res : ShotResult)
    (hg : w.game = some g) (hphase : g.phase = .battle)
    (hpick : pickTargetForAI g u = (gp, some ch))
    (happ : applyShot g.player ch.r ch.c = (player1, some res))
    (hhit : res.hit = true) (hsunk : res.sunk = none) :
    ∃ g1, (cpuMove w u).world.game = some g1 ∧
      g1.ai.mode = .target ∧
      g1.ai.currentHits = gp.ai.currentHits ++ [(ch.r, ch.c)] ∧
      (gp.ai.dir = none →
        (∀ d, determineDirectionFromHits (gp.ai.currentHits ++ [(ch.r, ch.c)]) = some d →
          g1.ai.dir = some d ∧ g1.ai.targets = [] ∧
          g1.ai.blockedPos = false ∧ g1.ai.blockedNeg = false) ∧
        (determineDirectionFromHits (gp.ai.currentHits ++ [(ch.r, ch.c)]) = none →
          g1.ai.dir = none ∧
          g1.ai.targets = gp.ai.targets ++
            [(ch.r - 1, ch.c), (ch.r + 1, ch.c), (ch.r, ch.c - 1), (ch.r, ch.c + 1)].filter
              (fun p => inBounds p.1 p.2 && !player1.shots.has (key p.1 p.2) &&
                !decide (p ∈ gp.ai.targets)) ∧
          (gp.ai.targets.Nodup → g1.ai.targets.Nodup) ∧
          g1.ai.blockedPos = gp.ai.blockedPos ∧ g1.ai.blockedNeg = gp.ai.blockedNeg)) ∧
      (∀ d, gp.ai.dir = some d →
        g1.ai.dir = some d ∧ g1.ai.targets = gp.ai.targets ∧
        g1.ai.blockedPos = gp.ai.blockedPos ∧ g1.ai.blockedNeg = gp.ai.blockedNeg) := by
  obtain ⟨g1, h1, h2⟩ := cpuMove_ai w g gp u ch player1 res hg hphase hpick happ
  rw [updateAIAfterShot_hit _ _ _ res hhit hsunk] at h2
  simp only at h2
  refine ⟨g1, h1, ?_⟩
  cases hd : gp.ai.dir with
  | some d0 =>
    rw [hd] at h2
    simp only at h2
    rw [h2]
    refine ⟨rfl, rfl, ?_, ?_⟩
    · intro h
      cases h
    · intro d hd'
      cases hd'
      exact ⟨rfl, rfl, rfl, rfl⟩
  | none =>
    rw [hd] at h2
    simp only at h2
    cases hdet : determineDirectionFromHits (gp.ai.currentHits ++ [(ch.r, ch.c)]) with
    | some d =>
      rw [hdet] at h2
      simp only at h2
      rw [h2]
      refine ⟨rfl, rfl, ?_, ?_⟩
      · intro _
        constructor
        · intro d' hd'
          cases hd'
          exact ⟨rfl, rfl, rfl, rfl⟩
        · intro h
          cases h
      · intro d' h
        cases h
    | none =>
      rw [hdet] at h2
      simp only at h2
      rw [h2]
      refine ⟨rfl, rfl, ?_, ?_⟩
      · intro _
        constructor
        · intro d' h
          cases h
        · intro _
          exact ⟨rfl, pushUniqueTargets_neighbours _ _ _ _,
            pushUniqueTargets_nodup _ _ _ _, rfl, rfl⟩
      · intro d' h
        cases h

/-- C18 on the sample side: the first hit at `(2, 0)` queues the
neighbours `(1, 0)`, `(3, 0)` and `(2, 1)`. -/
theorem cpuMove_hit_update_witness :
    ∃ g1, (cpuMove (worldOf (sessionOf sampleSide sampleSide)) 20).world.game = some g1 ∧
      g1.ai.mode = .target ∧ g1.ai.currentHits = [(2, 0)] ∧
      g1.ai.targets = [(1, 0), (3, 0), (2, 1)] := by
  obtain ⟨g1, h1, h2, h3, h4, _⟩ :=
    cpuMove_hit_update (worldOf (sessionOf sampleSide sampleSide))
      (sessionOf sampleSide sampleSide) (sessionOf sampleSide sampleSide) 20
      { r := 2, c := 0, lineEnd := none } (applyShot sampleSide 2 0).1
      { hit := true, sunk := none }
      rfl rfl (by decide) (Prod.ext rfl (by decide)) rfl rfl
  refine ⟨g1, h1, h2, h3, ?_⟩
  have := ((h4 rfl).2 (by decide)).2.1
  rw [this]
  decide

/-! ## The direction-locked pick -/

/-- The loop of `getLineEnds` over hits `seen`: nothing seen and the
variables as initialised, or the ends are hits seen with the least and the
greatest coordinate along the axis. -/
theorem lineScan_spec (dir : Dir) (seen : List (Int × Int)) :
    (seen = [] ∧ seen.foldl (lineScanStep dir)
        { minT := none, maxT := none, negEnd := none, posEnd := none } =
        { minT := none, maxT := none, negEnd := none, posEnd := none }) ∨
    ∃ neg pos : Int × Int, neg ∈ seen ∧ pos ∈ seen ∧
      seen.foldl (lineScanStep dir)
        { minT := none, maxT := none, negEnd := none, posEnd := none } =
        { minT := some (if dir.dr = 0 then neg.2 else neg.1),
          maxT := some (if dir.dr = 0 then pos.2 else pos.1),
          negEnd := some neg, posEnd := some pos } ∧
      ∀ q ∈ seen,
        (if dir.dr = 0 then neg.2 else neg.1) ≤ (if dir.dr = 0 then q.2 else q.1) ∧
        (if dir.dr = 0 then q.2 else q.1) ≤ (if dir.dr = 0 then pos.2 else pos.1) := by
  induction seen using List.reverseRecOn with
  | nil => exact Or.inl ⟨rfl, rfl⟩
  | append_singleton init p ih =>
    right
    rw [List.foldl_append, List.foldl_cons, List.foldl_nil]
    rcases ih with ⟨hnil, hst⟩ | ⟨neg, pos, hneg, hpos, hst, hall⟩
    · subst hnil
      rw [hst]
      refine ⟨p, p, by simp, by simp, by simp [lineScanStep], ?_⟩
      intro q hq
      simp only [List.nil_append, List.mem_singleton] at hq
      subst hq
      exact ⟨le_refl _, le_refl _⟩
    · rw [hst]
      by_cases h1 : (if dir.dr = 0 then p.2 else p.1) < (if dir.dr = 0 then neg.2 else neg.1)
      · have h2 : ¬ (if dir.dr = 0 then p.2 else p.1) > (if dir.dr = 0 then pos.2 else pos.1) := by
          have := hall neg hneg
          omega
        refine ⟨p, pos, by simp, by simp [hpos], by simp [lineScanStep, h1, h2], ?_⟩
        intro q hq
        rcases List.mem_append.mp hq with hq | hq
        · have := hall q hq
          omega
        · rw [List.mem_singleton] at hq
          subst hq
          have := hall neg hneg
          omega
      · by_cases h2 : (if dir.dr = 0 then p.2 else p.1) > (if dir.dr = 0 then pos.2 else pos.1)
        · refine ⟨neg, p, by simp [hneg], by simp, by simp [lineScanStep, h1, h2], ?_⟩
          intro q hq
          rcases List.mem_append.mp hq with hq | hq
          · have := hall q hq
            omega
          · rw [List.mem_singleton] at hq
            subst hq
            omega
        · refine ⟨neg, pos, by simp [hneg], by simp [hpos], by simp [lineScanStep, h1, h2], ?_⟩
          intro q hq
          rcases List.mem_append.mp hq with hq | hq
          · exact hall q hq
          · rw [List.mem_singleton] at hq
            subst hq
            omega

/-- For at least one hit `getLineEnds` returns two hits, the one with the
greatest and the one with the least coordinate along the axis. -/
theorem getLineEnds_spec (dir : Dir) (hits : List (Int × Int)) (hne : hits ≠ []) :
    ∃ pos neg : Int × Int, getLineEnds hits dir = (some pos, some neg) ∧
      pos ∈ hits ∧ neg ∈ hits ∧
      ∀ q ∈ hits,
        (if dir.dr = 0 then neg.2 else neg.1) ≤ (if dir.dr = 0 then q.2 else q.1) ∧
        (if dir.dr = 0 then q.2 else q.1) ≤ (if dir.dr = 0 then pos.2 else pos.1) := by
  rcases lineScan_spec dir hits with ⟨h, _⟩ | ⟨neg, pos, hneg, hpos, hst, hall⟩
  · exact absurd h hne
  · refine ⟨pos, neg, ?_, hpos, hneg, hall⟩
    unfold getLineEnds
    simp only [hst]


/-- The queue and the hunt return no line end. -/
theorem queueOrHunt_lineEnd (g : Session) (u : Nat) (ch : Choice)
    (h : (queueOrHunt g u).2 = some ch) : ch.lineEnd = none := by
  unfold queueOrHunt at h
  simp only at h
  split at h
  · simp only [Option.some.injEq] at h
    rw [← h]
  · split at h
    · cases h
    · simp only [Option.some.injEq] at h
      rw [← h]

/-- Step 1 of the pick with a locked direction and the two ends known: the
candidates are the cells beyond the ends not yet blocked, positive first. -/
theorem lockedExtension_eq (g : Session) (dir : Dir) (pos neg : Int × Int)
    (hmode : g.ai.mode = .target) (hdir : g.ai.dir = some dir) (hne : g.ai.currentHits ≠ [])
    (hends : getLineEnds g.ai.currentHits dir = (some pos, some neg)) :
    lockedExtension g = some (tryCandidates g.player.shots
      ((if g.ai.blockedPos = true then [] else [(nextCellFromEnd pos dir 1, LineEnd.pos)]) ++
       (if g.ai.blockedNeg = true then [] else [(nextCellFromEnd neg dir (-1), LineEnd.neg)]))
      g.ai) := by
  have hlen : g.ai.currentHits.length > 0 := List.length_pos.mpr hne
  unfold lockedExtension
  simp only [hdir, hmode, hlen, hends, and_self, if_true, Option.map_some']
  cases g.ai.blockedPos <;> cases g.ai.blockedNeg <;> simp

/-- The cell `nextCellFromEnd` gives for sign `1`: one step of `dir` on
from the end. -/
theorem nextCellFromEnd_pos (e : Int × Int) (dir : Dir) :
    nextCellFromEnd e dir 1 = (e.1 + dir.dr, e.2 + dir.dc) := by
  simp [nextCellFromEnd]

/-- The cell `nextCellFromEnd` gives for sign `-1`: one step of `dir` back
from the end. -/
theorem nextCellFromEnd_neg (e : Int × Int) (dir : Dir) :
    nextCellFromEnd e dir (-1) = (e.1 - dir.dr, e.2 - dir.dc) := by
  simp only [nextCellFromEnd, Prod.mk.injEq]
  constructor <;> ring

/-- The pick with a locked direction, in terms of the candidates
`nextCellFromEnd pos dir 1` and `nextCellFromEnd neg dir (-1)`: the first
that is not blocked, in bounds and not shot is returned, and each one passed
over has its flag set. -/
theorem lockedPick_cases (g : Session) (u : Nat) (dir : Dir)
    (hmode : g.ai.mode = .target) (hdir : g.ai.dir = some dir) (hne : g.ai.currentHits ≠ []) :
    ∃ pos neg : Int × Int, getLineEnds g.ai.currentHits dir = (some pos, some neg) ∧
      pos ∈ g.ai.currentHits ∧ neg ∈ g.ai.currentHits ∧
      (∀ q ∈ g.ai.currentHits,
        (if dir.dr = 0 then neg.2 else neg.1) ≤ (if dir.dr = 0 then q.2 else q.1) ∧
        (if dir.dr = 0 then q.2 else q.1) ≤ (if dir.dr = 0 then pos.2 else pos.1)) ∧
      ((g.ai.blockedPos = false ∧
          inBounds (nextCellFromEnd pos dir 1).1 (nextCellFromEnd pos dir 1).2 = true ∧
          g.player.shots.has (key (nextCellFromEnd pos dir 1).1 (nextCellFromEnd pos dir 1).2)
            = false) →
        pickTargetForAI g u =
          (g, some { r := (nextCellFromEnd pos dir 1).1, c := (nextCellFromEnd pos dir 1).2,
                     lineEnd := some .pos })) ∧
      (¬ (g.ai.blockedPos = false ∧
          inBounds (nextCellFromEnd pos dir 1).1 (nextCellFromEnd pos dir 1).2 = true ∧
          g.player.shots.has (key (nextCellFromEnd pos dir 1).1 (nextCellFromEnd pos dir 1).2)
            = false) →
        ((g.ai.blockedNeg = false ∧
            inBounds (nextCellFromEnd neg dir (-1)).1 (nextCellFromEnd neg dir (-1)).2 = true ∧
            g.player.shots.has
              (key (nextCellFromEnd neg dir (-1)).1 (nextCellFromEnd neg dir (-1)).2) = false) →
          pickTargetForAI g u =
            ({ g with ai := { g.ai with blockedPos := true } },
              some { r := (nextCellFromEnd neg dir (-1)).1, c := (nextCellFromEnd neg dir (-1)).2,
                     lineEnd := some .neg })) ∧
        (¬ (g.ai.blockedNeg = false ∧
            inBounds (nextCellFromEnd neg dir (-1)).1 (nextCellFromEnd neg dir (-1)).2 = true ∧
            g.player.shots.has
              (key (nextCellFromEnd neg dir (-1)).1 (nextCellFromEnd neg dir (-1)).2) = false) →
          pickTargetForAI g u =
            queueOrHunt { g with ai := { g.ai with blockedPos := true, blockedNeg := true } } u ∧
          ∀ ch, (pickTargetForAI g u).2 = some ch → ch.lineEnd = none)) := by
  obtain ⟨pos, neg, hends, hpos, hneg, hall⟩ := getLineEnds_spec dir g.ai.currentHits hne
  refine ⟨pos, neg, hends, hpos, hneg, hall, ?_, ?_⟩
  · rintro ⟨hbp, hin, hshot⟩
    unfold pickTargetForAI
    rw [lockedExtension_eq g dir pos neg hmode hdir hne hends]
    simp [hbp, tryCandidates, hin, hshot]
  · intro hnot1
    have hfail : g.ai.blockedPos = false →
        (inBounds (nextCellFromEnd pos dir 1).1 (nextCellFromEnd pos dir 1).2 &&
          !g.player.shots.has
            (key (nextCellFromEnd pos dir 1).1 (nextCellFromEnd pos dir 1).2)) = false := by
      intro hbp
      by_contra hc
      simp only [Bool.not_eq_false, Bool.and_eq_true, Bool.not_eq_true'] at hc
      exact hnot1 ⟨hbp, hc.1, hc.2⟩
    constructor
    · rintro ⟨hbn, hin, hshot⟩
      unfold pickTargetForAI
      rw [lockedExtension_eq g dir pos neg hmode hdir hne hends]
      clear hnot1 hpos hneg hall hends hne
      rcases g with ⟨phase, turn, rev, log, ⟨mode, targets, hits, d, bp, bn, le⟩, player, cpu⟩
      simp only at hbn hin hshot hfail
      subst hbn
      cases bp with
      | false => simp [tryCandidates, hfail rfl, hin, hshot]
      | true => simp [tryCandidates, hin, hshot]
    · intro hnot2
      have hfail2 : g.ai.blockedNeg = false →
          (inBounds (nextCellFromEnd neg dir (-1)).1 (nextCellFromEnd neg dir (-1)).2 &&
            !g.player.shots.has
              (key (nextCellFromEnd neg dir (-1)).1 (nextCellFromEnd neg dir (-1)).2)) = false := by
        intro hbn
        by_contra hc
        simp only [Bool.not_eq_false, Bool.and_eq_true, Bool.not_eq_true'] at hc
        exact hnot2 ⟨hbn, hc.1, hc.2⟩
      have heq : pickTargetForAI g u =
          queueOrHunt { g with ai := { g.ai with blockedPos := true, blockedNeg := true } } u := by
        unfold pickTargetForAI
        rw [lockedExtension_eq g dir pos neg hmode hdir hne hends]
        clear hnot1 hnot2 hpos hneg hall hends hne
        rcases g with ⟨phase, turn, rev, log, ⟨mode, targets, hits, d, bp, bn, le⟩, player, cpu⟩
        simp only at hfail hfail2
        cases bp with
        | false =>
          cases bn with
          | false => simp [tryCandidates, hfail rfl, hfail2 rfl]
          | true => simp [tryCandidates, hfail rfl]
        | true =>
          cases bn with
          | false => simp [tryCandidates, hfail2 rfl]
          | true => simp [tryCandidates]
      refine ⟨heq, ?_⟩
      intro ch hch
      rw [heq] at hch
      exact queueOrHunt_lineEnd _ u ch hch

/-- C17: with mode target, a locked direction `dir` and at least one hit,
`getLineEnds` gives hits `pos` and `neg` with the greatest and the least
coordinate along the axis, and `pickTargetForAI` does this: (1) if
`blockedPos` is false and the cell `(pos.1 + dir.dr, pos.2 + dir.dc)`, one
step beyond `pos`, is in bounds and not shot, it returns that cell with end
pos and changes nothing; (2) otherwise `blockedPos` is true afterwards, and
if `blockedNeg` is false and the cell `(neg.1 - dir.dr, neg.2 - dir.dc)`,
one step beyond `neg` the other way, is in bounds and not shot, it returns
that cell with end neg; (3) otherwise both flags are true and the pick is
what the queue and then the random hunt give, with no end. -/
theorem pickTargetForAI_locked (g : Session) (u : Nat) (dir : Dir)
    (hmode : g.ai.mode = .target) (hdir : g.ai.dir = some dir) (hne : g.ai.currentHits ≠ []) :
    ∃ pos neg : Int × Int, getLineEnds g.ai.currentHits dir = (some pos, some neg) ∧
      pos ∈ g.ai.currentHits ∧ neg ∈ g.ai.currentHits ∧
      (∀ q ∈ g.ai.currentHits,
        (if dir.dr = 0 then neg.2 else neg.1) ≤ (if dir.dr = 0 then q.2 else q.1) ∧
        (if dir.dr = 0 then q.2 else q.1) ≤ (if dir.dr = 0 then pos.2 else pos.1)) ∧
      ((g.ai.blockedPos = false ∧
          inBounds (pos.1 + dir.dr) (pos.2 + dir.dc) = true ∧
          g.player.shots.has (key (pos.1 + dir.dr) (pos.2 + dir.dc))
            = false) →
        pickTargetForAI g u =
          (g, some { r := (pos.1 + dir.dr), c := (pos.2 + dir.dc),
                     lineEnd := some .pos })) ∧
      (¬ (g.ai.blockedPos = false ∧
          inBounds (pos.1 + dir.dr) (pos.2 + dir.dc) = true ∧
          g.player.shots.has (key (pos.1 + dir.dr) (pos.2 + dir.dc))
            = false) →
        ((g.ai.blockedNeg = false ∧
            inBounds (neg.1 - dir.dr) (neg.2 - dir.dc) = true ∧
            g.player.shots.has
              (key (neg.1 - dir.dr) (neg.2 - dir.dc)) = false) →
          pickTargetForAI g u =
            ({ g with ai := { g.ai with blockedPos := true } },
              some { r := (neg.1 - dir.dr), c := (neg.2 - dir.dc),
                     lineEnd := some .neg })) ∧
        (¬ (g.ai.blockedNeg = false ∧
            inBounds (neg.1 - dir.dr) (neg.2 - dir.dc) = true ∧
            g.player.shots.has
              (key (neg.1 - dir.dr) (neg.2 - dir.dc)) = false) →
          pickTargetForAI g u =
            queueOrHunt { g with ai := { g.ai with blockedPos := true, blockedNeg := true } } u ∧
          ∀ ch, (pickTargetForAI g u).2 = some ch → ch.lineEnd = none)) := by
  obtain ⟨pos, neg, hends, hpos, hneg, hall, h1, h2⟩ := lockedPick_cases g u dir hmode hdir hne
  rw [nextCellFromEnd_pos] at h1 h2
  rw [nextCellFromEnd_neg] at h2
  exact ⟨pos, neg, hends, hpos, hneg, hall, h1, h2⟩

/-- C17 on the pursuit session: the ends are `(0, 1)` and `(0, 0)`, the
cell `(0, 2)` beyond the positive end is free and is returned with end pos. -/
theorem pickTargetForAI_locked_witness :
    pursuitSession.ai.mode = .target ∧ pursuitSession.ai.dir = some { dr := 0, dc := 1 } ∧
    pickTargetForAI pursuitSession 0 =
      (pursuitSession, some { r := 0, c := 2, lineEnd := some .pos }) := by
  refine ⟨rfl, rfl, ?_⟩
  obtain ⟨pos, neg, hends, _, _, _, h1, _⟩ :=
    pickTargetForAI_locked pursuitSession 0 { dr := 0, dc := 1 } rfl rfl (by decide)
  have he : getLineEnds pursuitSession.ai.currentHits { dr := 0, dc := 1 } =
      (some (0, 1), some (0, 0)) := by decide
  rw [he] at hends
  injection hends with hp _
  injection hp with hp
  subst hp
  exact h1 ⟨rfl, by decide, by decide⟩

/-! ## Loading from storage -/

/-- C12, evaluated: whatever the built-in conversion does, a stats record
whose `fedWins` is `true` and whose `enemyWins` is `-5` loads as the
counters 1 and -5 (neither defaulted to 0, the second negative), and a
`fedWins` holding the string abc loads as what `Number` makes of that
string (`NaN` in JavaScript), not as 0.  An absent or unparsable slot, or
the value `null`, does give the zero record. -/
theorem loadStats_keeps_non_numeric (conv : Json → Option JSNumber) :
    loadStats conv (.parsed (.obj [("fedWins", .bool true), ("enemyWins", .num (-5))])) =
      { fedWins := .int 1, enemyWins := .int (-5) } ∧
    (loadStats conv (.parsed (.obj [("fedWins", .str "abc")]))).fedWins =
      (conv (.str "abc")).getD (.int 0) ∧
    loadStats conv .absent = { fedWins := .int 0, enemyWins := .int 0 } ∧
    loadStats conv .unparsable = { fedWins := .int 0, enemyWins := .int 0 } ∧
    loadStats conv (.parsed .null) = { fedWins := .int 0, enemyWins := .int 0 } ∧
    loadStats conv (.parsed (.obj [("fedWins", .num 3)])) =
      { fedWins := .int 3, enemyWins := .int 0 } := by
  refine ⟨rfl, ?_, rfl, rfl, rfl, rfl⟩
  cases h : conv (.str "abc") with
  | none => simp [loadStats, Json.field, numberOrZero, Json.truthy, h]
  | some v => simp [loadStats, Json.field, numberOrZero, Json.truthy, h]

/-- C13, evaluated: with a session present and a saved record whose grids
have no rows, `loadGame` returns false and removes the entry, but the
variable `game` now holds the session read from the record, not the one
from before.  For text that does not parse, or parses to a value without
sides, the session is left as it was. -/
theorem loadGame_replaces_session :
    loadGame { worldOf (sessionOf sampleSide sampleSide) with savedGame := .record gridlessPayload }
      = ({ worldOf (sessionOf sampleSide sampleSide) with
            game := some (deserializeGame gridlessPayload), savedGame := .absent }, false) ∧
    some (deserializeGame gridlessPayload) ≠ some (sessionOf sampleSide sampleSide) ∧
    (∀ w : World, w.savedGame = .unparsable ∨ w.savedGame = .noSides →
      loadGame w = ({ w with savedGame := .absent }, false)) := by
  refine ⟨by decide, by decide, ?_⟩
  intro w h
  rcases h with h | h <;> simp [loadGame, h]

/-! ## The opponent never repeats a shot -/

/-- The candidate loop changes the blocked flags only, and a candidate it
returns is in bounds and not shot. -/
theorem tryCandidates_spec (shots : JSSet Key) (cands : List ((Int × Int) × LineEnd))
    (ai : AIState) :
    (tryCandidates shots cands ai).1.targets = ai.targets ∧
    (tryCandidates shots cands ai).1.mode = ai.mode ∧
    ∀ ch, (tryCandidates shots cands ai).2 = some ch →
      inBounds ch.r ch.c = true ∧ shots.has (key ch.r ch.c) = false := by
  induction cands generalizing ai with
  | nil => exact ⟨rfl, rfl, fun ch h => by cases h⟩
  | cons cand rest ih =>
    obtain ⟨cell, e⟩ := cand
    unfold tryCandidates
    split
    · rename_i hfree
      rw [Bool.and_eq_true] at hfree
      refine ⟨rfl, rfl, ?_⟩
      intro ch hch
      simp only [Option.some.injEq] at hch
      rw [← hch]
      exact ⟨hfree.1, by simpa using hfree.2⟩
    · cases e
      · obtain ⟨h1, h2, h3⟩ := ih { ai with blockedPos := true }
        exact ⟨h1, h2, h3⟩
      · obtain ⟨h1, h2, h3⟩ := ih { ai with blockedNeg := true }
        exact ⟨h1, h2, h3⟩

/-- Step 1 of the pick never throws; it keeps queue and mode, and a
candidate it returns is in bounds and not shot. -/
theorem lockedExtension_spec (g : Session) :
    ∃ ai1 res, lockedExtension g = some (ai1, res) ∧ ai1.targets = g.ai.targets ∧
      ai1.mode = g.ai.mode ∧
      ∀ ch, res = some ch →
        inBounds ch.r ch.c = true ∧ g.player.shots.has (key ch.r ch.c) = false := by
  cases hdir : g.ai.dir with
  | none =>
    refine ⟨g.ai, none, ?_, rfl, rfl, fun ch h => by cases h⟩
    simp [lockedExtension, hdir]
  | some dir =>
    by_cases hcond : g.ai.mode = .target ∧ g.ai.currentHits.length > 0
    · have hne : g.ai.currentHits ≠ [] := List.length_pos.mp hcond.2
      obtain ⟨pos, neg, hends, _⟩ := getLineEnds_spec dir g.ai.currentHits hne
      rw [lockedExtension_eq g dir pos neg hcond.1 hdir hne hends]
      obtain ⟨h1, h2, h3⟩ := tryCandidates_spec g.player.shots
        ((if g.ai.blockedPos = true then [] else [(nextCellFromEnd pos dir 1, LineEnd.pos)]) ++
         (if g.ai.blockedNeg = true then [] else [(nextCellFromEnd neg dir (-1), LineEnd.neg)]))
        g.ai
      exact ⟨_, _, rfl, h1, h2, h3⟩
    · refine ⟨g.ai, none, ?_, rfl, rfl, fun ch h => by cases h⟩
      simp [lockedExtension, hdir, hcond]

/-- The queue loop leaves a part of the queue and returns an entry of the
queue that is not shot. -/
theorem shiftTargets_spec (shots : JSSet Key) (targets : List (Int × Int)) :
    (∀ p ∈ (shiftTargets shots targets).1, p ∈ targets) ∧
    ∀ p, (shiftTargets shots targets).2 = some p →
      p ∈ targets ∧ shots.has (key p.1 p.2) = false := by
  induction targets with
  | nil => exact ⟨fun p h => h, fun p h => by cases h⟩
  | cons q rest ih =>
    unfold shiftTargets
    split
    · rename_i hq
      refine ⟨fun p h => List.mem_cons_of_mem _ h, ?_⟩
      intro p hp
      simp only [Option.some.injEq] at hp
      subst hp
      exact ⟨List.mem_cons_self _ _, by simpa using hq⟩
    · exact ⟨fun p h => List.mem_cons_of_mem _ (ih.1 p h),
        fun p h => ⟨List.mem_cons_of_mem _ (ih.2 p h).1, (ih.2 p h).2⟩⟩

/-- With a cell of the board not shot the random hunt returns a cell of the
board that is not shot. -/
theorem getRandomUntargetedCell_spec (side : Side) (u : Nat)
    (hfree : ∃ p ∈ boardCells, side.shots.has (key p.1 p.2) = false) :
    ∃ p, getRandomUntargetedCell side u = some p ∧ inBounds p.1 p.2 = true ∧
      side.shots.has (key p.1 p.2) = false := by
  obtain ⟨q, hq, hqs⟩ := hfree
  have hmem : q ∈ untargetedCells side := by
    unfold untargetedCells
    exact List.mem_filter.mpr ⟨hq, by simp [hqs]⟩
  have hpos : 0 < (untargetedCells side).length := List.length_pos_of_mem hmem
  have hlt : u % (untargetedCells side).length < (untargetedCells side).length :=
    Nat.mod_lt _ hpos
  refine ⟨(untargetedCells side)[u % (untargetedCells side).length], ?_, ?_⟩
  · unfold getRandomUntargetedCell
    simp only
    exact List.getElem?_eq_getElem hlt
  · have hin := List.getElem_mem hlt
    unfold untargetedCells at hin
    obtain ⟨h1, h2⟩ := List.mem_filter.mp hin
    exact ⟨(mem_boardCells_iff _ _).mp h1, by simpa using h2⟩

/-- The pick leaves a part of the queue. -/
theorem pickTargetForAI_targets (g : Session) (u : Nat) :
    ∀ p ∈ (pickTargetForAI g u).1.ai.targets, p ∈ g.ai.targets := by
  obtain ⟨ai1, res, hl, ht, _, _⟩ := lockedExtension_spec g
  unfold pickTargetForAI
  rw [hl]
  cases res with
  | some ch =>
    intro p hp
    simp only at hp
    rw [ht] at hp
    exact hp
  | none =>
    simp only
    unfold queueOrHunt
    simp only
    have hsub : ∀ p ∈ (if ai1.mode = .target then shiftTargets g.player.shots ai1.targets
        else (ai1.targets, none)).1, p ∈ g.ai.targets := by
      intro p hp
      split at hp
      · rw [← ht]
        exact (shiftTargets_spec _ _).1 p hp
      · rw [← ht]
        exact hp
    split
    · exact hsub
    · split
      · exact hsub
      · exact hsub

/-- The pick on a session whose queue is in bounds and whose player board has
a cell not shot: it returns a cell in bounds and not shot. -/
theorem pickTargetForAI_free (g : Session) (u : Nat)
    (htargets : ∀ p ∈ g.ai.targets, inBounds p.1 p.2 = true)
    (hfree : ∃ p ∈ boardCells, g.player.shots.has (key p.1 p.2) = false) :
    ∃ ch, (pickTargetForAI g u).2 = some ch ∧ inBounds ch.r ch.c = true ∧
      g.player.shots.has (key ch.r ch.c) = false := by
  obtain ⟨ai1, res, hl, ht, _, hres⟩ := lockedExtension_spec g
  unfold pickTargetForAI
  rw [hl]
  cases res with
  | some ch => exact ⟨ch, rfl, hres ch rfl⟩
  | none =>
    simp only
    unfold queueOrHunt
    simp only
    split
    · rename_i p hp
      refine ⟨_, rfl, ?_⟩
      simp only
      split at hp
      · obtain ⟨h1, h2⟩ := (shiftTargets_spec _ _).2 p hp
        rw [ht] at h1
        exact ⟨htargets p h1, h2⟩
      · cases hp
    · obtain ⟨p, hp, h1, h2⟩ := getRandomUntargetedCell_spec g.player u hfree
      simp only [hp]
      exact ⟨_, rfl, h1, h2⟩

/-- On a side in play a shot at a cell of a ship goes into that ship's
hits and changes no other ship. -/
theorem applyShot_hit_of_cell (side : Side) (r c : Int) (s : Ship) (h : InPlay side)
    (hin : inBounds r c = true) (hs : s ∈ side.ships) (hk : key r c ∈ s.cells.1) :
    ∃ pre post, side.ships = pre ++ s :: post ∧
      (applyShot side r c).1.ships = pre ++ { s with hits := s.hits.add (key r c) } :: post ∧
      (applyShot side r c).2 = some
        { hit := true,
          sunk := if (s.hits.add (key r c)).size = s.cells.size then some s.name else none } := by
  obtain ⟨hagree, hids, _, _⟩ := h
  have hread : gridRead side.grid r c = .value (some s.id) :=
    ((hagree (r, c) ((mem_boardCells_iff r c).mpr hin)).2 s hs).mp hk
  rcases applyShot_ships_entry side r c with ⟨_, hres⟩ | ⟨pre, t, post, hst, hread2, _, h1, h2⟩
  · exfalso
    unfold applyShot at hres
    simp only [hread] at hres
    rcases hitShip_spec s.id (key r c) side.ships with ⟨_, hall⟩ | ⟨pre, t, post, _, _, _, hh⟩
    · exact hall s hs rfl
    · rw [hh] at hres
      have := hres _ rfl
      simp at this
  · rw [hread] at hread2
    injection hread2 with hread2
    injection hread2 with hid
    have htm : t ∈ side.ships := by rw [hst]; simp
    have : t = s := List.inj_on_of_nodup_map hids htm hs hid.symm
    subst this
    exact ⟨pre, post, hst, h1, h2⟩

/-- Every ship after a call is a ship from before with the same id and
cells and at least the same hits. -/
theorem applyShot_ship_grows (side : Side) (r c : Int) (s1 : Ship)
    (hs1 : s1 ∈ (applyShot side r c).1.ships) :
    ∃ s0 ∈ side.ships, s0.id = s1.id ∧ s0.cells = s1.cells ∧
      (∀ k ∈ s0.hits.1, k ∈ s1.hits.1) := by
  rcases applyShot_ships side r c with ⟨h, _⟩ | ⟨pre, t, post, hst, h, _⟩
  · rw [h] at hs1
    exact ⟨s1, hs1, rfl, rfl, fun k hk => hk⟩
  · rw [h] at hs1
    rcases List.mem_append.mp hs1 with hp | hp
    · exact ⟨s1, by rw [hst]; exact List.mem_append_left _ hp, rfl, rfl, fun k hk => hk⟩
    · rcases List.mem_cons.mp hp with rfl | hp
      · refine ⟨t, by rw [hst]; simp, rfl, rfl, ?_⟩
        intro k hk
        exact (JSSet.mem_add _ _ _).mpr (Or.inl hk)
      · exact ⟨s1, by rw [hst]; simp [hp], rfl, rfl, fun k hk => hk⟩

/-- On a side in play where every shot at a cell of a ship is among its
hits, that stays so after a call at a board coordinate. -/
theorem applyShot_shots_are_hits (side : Side) (r c : Int) (h : InPlay side)
    (hin : inBounds r c = true)
    (hb : ∀ s ∈ side.ships, ∀ k ∈ s.cells.1, k ∈ side.shots.1 → k ∈ s.hits.1) :
    ∀ s ∈ (applyShot side r c).1.ships, ∀ k ∈ s.cells.1,
      k ∈ (applyShot side r c).1.shots.1 → k ∈ s.hits.1 := by
  intro s1 hs1 k hk hshot
  rw [applyShot_shots, JSSet.mem_add] at hshot
  obtain ⟨s0, hs0, hid, hcells, hgrow⟩ := applyShot_ship_grows side r c s1 hs1
  rcases hshot with hshot | hshot
  · exact hgrow k (hb s0 hs0 k (by rw [hcells]; exact hk) hshot)
  · subst hshot
    obtain ⟨pre, post, hst, hnew, _⟩ :=
      applyShot_hit_of_cell side r c s0 h hin hs0 (by rw [hcells]; exact hk)
    have hids1 := (applyShot_inPlay side r c h hin).2.1
    have hmem : { s0 with hits := s0.hits.add (key r c) } ∈ (applyShot side r c).1.ships := by
      rw [hnew]; simp
    have : s1 = { s0 with hits := s0.hits.add (key r c) } :=
      List.inj_on_of_nodup_map hids1 hs1 hmem (by simp [hid])
    rw [this]
    exact (JSSet.mem_add _ _ _).mpr (Or.inr rfl)

/-- A board whose cells all read as entries renders. -/
theorem renderBoardThrows_of_agrees (side : Side) (h : GridAgrees side) :
    renderBoardThrows side = false := by
  unfold renderBoardThrows
  rw [List.any_eq_false]
  intro p hp
  have := (h p hp).1
  rcases this with h1 | ⟨s, _, h1⟩ <;> simp [h1]

/-- Rendering depends on the grid only. -/
theorem renderBoardThrows_congr (side side1 : Side) (h : side1.grid = side.grid) :
    renderBoardThrows side1 = renderBoardThrows side := by
  unfold renderBoardThrows
  rw [h]

/-- On a side in play with every shot at a cell among the hits, a ship
that is not sunk leaves a cell of the board not shot. -/
theorem free_cell_of_afloat (side : Side) (h : InPlay side)
    (hb : ∀ s ∈ side.ships, ∀ k ∈ s.cells.1, k ∈ side.shots.1 → k ∈ s.hits.1)
    (hd : ∃ s ∈ side.ships, s.hits.size ≠ s.cells.size) :
    ∃ p ∈ boardCells, side.shots.has (key p.1 p.2) = false := by
  obtain ⟨_, _, hcells, hsub⟩ := h
  obtain ⟨s, hs, hne⟩ := hd
  have hex : ∃ k ∈ s.cells.1, k ∉ s.hits.1 := by
    by_contra hall
    push_neg at hall
    exact hne ((size_eq_iff_same_members s.hits s.cells (hsub s hs)).mpr
      (fun k => ⟨hsub s hs k, hall k⟩))
  obtain ⟨k, hk, hnk⟩ := hex
  refine ⟨k, (mem_boardCells_iff k.1 k.2).mpr (hcells s hs k hk), ?_⟩
  have : k ∉ side.shots.1 := fun hshot => hnk (hb s hs k hk hshot)
  simpa [JSSet.has, key] using this

/-- The update after a shot keeps the queue on the board. -/
theorem updateAIAfterShot_targets (g : Session) (r c : Int) (res : ShotResult)
    (h : ∀ p ∈ g.ai.targets, inBounds p.1 p.2 = true) :
    ∀ p ∈ (updateAIAfterShot g r c res).ai.targets, inBounds p.1 p.2 = true := by
  unfold updateAIAfterShot
  simp only
  split
  · split
    · intro p hp
      cases hp
    · split
      · exact h
      · split
        · intro p hp
          cases hp
        · intro p hp
          simp only [addLogLine] at hp
          rw [pushUniqueTargets_neighbours] at hp
          rcases List.mem_append.mp hp with hp | hp
          · exact h p hp
          · have := (List.mem_filter.mp hp).2
            simp only [Bool.and_eq_true] at this
            exact this.1.1
  · have hkeep : ∀ g2 : Session, (∀ p ∈ g2.ai.targets, inBounds p.1 p.2 = true) →
        ∀ p ∈ (if g2.ai.dir.isSome && g2.ai.blockedPos && g2.ai.blockedNeg
          then resetAIToHunt g2 else g2).ai.targets, inBounds p.1 p.2 = true := by
      intro g2 h2
      split
      · intro p hp
        cases hp
      · exact h2
    apply hkeep
    split
    · split
      · split <;> exact h
      · exact h
    · exact h

/-- What `cpuMove` leaves when the pick and the shot return and the boards
render. -/
theorem cpuMove_result (w : World) (g gp : Session) (u : Nat) (ch : Choice) (player1 : Side)
    (res : ShotResult) (hg : w.game = some g) (hphase : g.phase = .battle)
    (hpick : pickTargetForAI g u = (gp, some ch))
    (happ : applyShot g.player ch.r ch.c = (player1, some res))
    (hrender : renderBoardThrows player1 = false) (hrender2 : renderBoardThrows g.cpu = false) :
    ∃ g1, (cpuMove w u).world.game = some g1 ∧ g1.player = player1 ∧ g1.cpu = g.cpu ∧
      g1.ai = (updateAIAfterShot
        { gp with ai := { gp.ai with lastEnd := ch.lineEnd }, player := player1 }
        ch.r ch.c res).ai ∧
      g1.phase = if res.hit && isAllSunk player1 then Phase.gameover else Phase.battle := by
  obtain ⟨fp, _, fpl, fc, _, _⟩ := pickTargetForAI_frame g u
  rw [hpick] at fp fpl fc
  simp only at fp fpl fc
  obtain ⟨hp, _, hpl, hc, _⟩ := updateAIAfterShot_frame
    { gp with ai := { gp.ai with lastEnd := ch.lineEnd }, player := player1 } ch.r ch.c res
  simp only at hp hpl hc
  have hr : renderAllThrows (updateAIAfterShot
      { gp with ai := { gp.ai with lastEnd := ch.lineEnd }, player := player1 }
      ch.r ch.c res) = false := by
    unfold renderAllThrows
    rw [hpl, hc, fc, hrender, hrender2]
    rfl
  unfold cpuMove
  simp only [hg, hphase, hpick, fpl, happ, hr]
  simp only [ne_eq, not_true_eq_false, if_false, Bool.false_eq_true]
  obtain ⟨g1, h1, h2, h3, h4, h5⟩ := finishCpuShot_game
    (saveGame w (updateAIAfterShot
      { gp with ai := { gp.ai with lastEnd := ch.lineEnd }, player := player1 } ch.r ch.c res))
    (updateAIAfterShot
      { gp with ai := { gp.ai with lastEnd := ch.lineEnd }, player := player1 } ch.r ch.c res)
    res
  refine ⟨g1, h1, by rw [h3, hpl], by rw [h2, hc, fc], h4, ?_⟩
  rw [h5, hpl, hp, fp, hphase]

/-- An opponent move keeps a session pursuable. -/
theorem cpuMove_pursuable (w : World) (g : Session) (u : Nat) (hg : w.game = some g)
    (h : Pursuable g) : ∀ g1, (cpuMove w u).world.game = some g1 → Pursuable g1 := by
  intro g1 hg1
  by_cases hphase : g.phase = .battle
  · obtain ⟨hplay, hb, htargets, hcpu, hd⟩ := h
    have hfree := free_cell_of_afloat g.player hplay hb (hd hphase)
    obtain ⟨ch, hch, hin, hunshot⟩ := pickTargetForAI_free g u htargets hfree
    have hpick : pickTargetForAI g u = ((pickTargetForAI g u).1, some ch) :=
      Prod.ext rfl hch
    have hplay1 := applyShot_inPlay g.player ch.r ch.c hplay hin
    have hb1 := applyShot_shots_are_hits g.player ch.r ch.c hplay hin hb
    have hres : ∃ res, (applyShot g.player ch.r ch.c).2 = some res ∧
        (res.hit = false → (applyShot g.player ch.r ch.c).1.ships = g.player.ships) := by
      obtain ⟨hval, _⟩ := hplay.1 (ch.r, ch.c) ((mem_boardCells_iff _ _).mpr hin)
      simp only at hval
      rcases hval with hv | ⟨s, hs, hv⟩
      · exact ⟨{ hit := false, sunk := none }, by simp [applyShot, hv],
          fun _ => by simp [applyShot, hv]⟩
      · have hk := ((hplay.1 (ch.r, ch.c) ((mem_boardCells_iff _ _).mpr hin)).2 s hs).mpr hv
        obtain ⟨pre, post, _, _, h3⟩ := applyShot_hit_of_cell g.player ch.r ch.c s hplay hin hs hk
        exact ⟨_, h3, fun hf => by simp at hf⟩
    obtain ⟨res, hres, hmiss⟩ := hres
    have happ : applyShot g.player ch.r ch.c = ((applyShot g.player ch.r ch.c).1, some res) :=
      Prod.ext rfl hres
    obtain ⟨g2, h1, h2, h3, h4, h5⟩ := cpuMove_result w g _ u ch _ res hg hphase hpick happ
      (renderBoardThrows_of_agrees _ hplay1.1) hcpu
    rw [h1, Option.some.injEq] at hg1
    subst hg1
    refine ⟨by rw [h2]; exact hplay1, by rw [h2]; exact hb1, ?_, by rw [h3]; exact hcpu, ?_⟩
    · rw [h4]
      apply updateAIAfterShot_targets
      intro p hp
      exact htargets p (pickTargetForAI_targets g u p hp)
    · intro hbattle
      rw [h5] at hbattle
      rw [h2]
      by_cases hhit : res.hit = true
      · have hns : isAllSunk (applyShot g.player ch.r ch.c).1 = false := by
          by_contra hc
          rw [Bool.not_eq_false] at hc
          simp [hhit, hc] at hbattle
        by_contra hall
        push_neg at hall
        rw [(isAllSunk_iff _).mpr hall] at hns
        cases hns
      · rw [hmiss (by simpa using hhit)]
        exact hd hphase
  · have hsame : cpuMove w u = { world := w, threw := false } := by
      unfold cpuMove
      simp [hg, hphase]
    rw [hsame] at hg1
    simp only [hg, Option.some.injEq] at hg1
    subst hg1
    exact h

/-- Being pursuable depends on player side, queue, cpu grid and phase. -/
theorem Pursuable_congr (g g1 : Session) (h : Pursuable g) (hpl : g1.player = g.player)
    (hai : g1.ai.targets = g.ai.targets) (hcpu : g1.cpu.grid = g.cpu.grid)
    (hph : g1.phase = .battle → g.phase = .battle) : Pursuable g1 := by
  obtain ⟨h1, h2, h3, h4, h5⟩ := h
  refine ⟨by rw [hpl]; exact h1, by rw [hpl]; exact h2, by rw [hai]; exact h3, ?_, ?_⟩
  · rw [renderBoardThrows_congr g.cpu g1.cpu hcpu]
    exact h4
  · intro hb
    rw [hpl]
    exact h5 (hph hb)

/-- A player shot keeps a session pursuable. -/
theorem onFireAtEnemy_pursuable (w : World) (g : Session) (r c : Int) (hg : w.game = some g)
    (h : Pursuable g) : ∀ g1, (onFireAtEnemy w r c).world.game = some g1 → Pursuable g1 := by
  intro g1 hg1
  rcases onFireAtEnemy_cases w g hg r c with
    hc | ⟨cpu1, happ, hc⟩ | ⟨cpu1, res, happ, hc⟩ | ⟨cpu1, res, g2, happ, hc, _, _, _⟩
  · rw [hc] at hg1
    simp only [hg, Option.some.injEq] at hg1
    subst hg1
    exact h
  · rw [hc] at hg1
    simp only [Option.some.injEq] at hg1
    subst hg1
    have hgrid := applyShot_grid g.cpu r c
    rw [happ] at hgrid
    exact Pursuable_congr g _ h rfl rfl hgrid (fun hb => hb)
  · rw [hc] at hg1
    simp only [Option.some.injEq] at hg1
    subst hg1
    have hgrid := applyShot_grid g.cpu r c
    rw [happ] at hgrid
    obtain ⟨f1, _, f3, f4, f5, _⟩ := logPlayerShot_frame { g with cpu := cpu1 } r c res
    exact Pursuable_congr g _ h f3 (by rw [f5]) (by rw [f4]; exact hgrid)
      (fun hb => by rw [f1] at hb; exact hb)
  · rw [hc] at hg1
    have hgrid := applyShot_grid g.cpu r c
    rw [happ] at hgrid
    obtain ⟨f1, _, f3, f4, f5, _⟩ := logPlayerShot_frame { g with cpu := cpu1 } r c res
    obtain ⟨g3, e1, e2, e3, e4, e5⟩ := finishPlayerShot_game
      (saveGame w (logPlayerShot { g with cpu := cpu1 } r c res))
      (logPlayerShot { g with cpu := cpu1 } r c res) res
    rw [e1, Option.some.injEq] at hg1
    subst hg1
    refine Pursuable_congr g _ h (by rw [e3, f3]) (by rw [e4, f5]) (by rw [e2, f4]; exact hgrid) ?_
    intro hb
    rw [e5] at hb
    split at hb
    · cases hb
    · rw [f1] at hb
      exact hb

/-- The reveal toggle keeps a session pursuable. -/
theorem toggleReveal_pursuable (w : World) (g : Session) (hg : w.game = some g)
    (h : Pursuable g) : ∀ g1, (toggleReveal w).world.game = some g1 → Pursuable g1 := by
  intro g1 hg1
  unfold toggleReveal at hg1
  simp only [hg] at hg1
  split at hg1
  · simp only [Option.some.injEq] at hg1
    subst hg1
    exact Pursuable_congr g _ h rfl rfl rfl (fun hb => hb)
  · simp only [saveGame, Option.some.injEq] at hg1
    subst hg1
    exact Pursuable_congr g _ h rfl rfl rfl (fun hb => hb)

/-- A handler leaves a session where there was one. -/
theorem step_game (w : World) (a : Action) (g1 : Session) (h : (step w a).game = some g1) :
    ∃ g, w.game = some g := by
  cases hg : w.game with
  | some g => exact ⟨g, rfl⟩
  | none =>
    exfalso
    cases a with
    | fire r c => simp [step, onFireAtEnemy, hg] at h
    | cpu u => simp [step, cpuMove, hg] at h
    | reveal => simp [step, toggleReveal, hg] at h

/-- Every sequence of events keeps a session pursuable. -/
theorem run_pursuable (actions : List Action) (w : World)
    (h : ∀ g, w.game = some g → Pursuable g) :
    ∀ g1, (run w actions).game = some g1 → Pursuable g1 := by
  induction actions generalizing w with
  | nil => exact h
  | cons a rest ih =>
    apply ih (step w a)
    intro g1 hg1
    obtain ⟨g, hg⟩ := step_game w a g1 hg1
    cases a with
    | fire r c => exact onFireAtEnemy_pursuable w g r c hg (h g hg) g1 hg1
    | cpu u => exact cpuMove_pursuable w g u hg (h g hg) g1 hg1
    | reveal => exact toggleReveal_pursuable w g hg (h g hg) g1 hg1

/-- A grid of the board's shape renders. -/
theorem renderBoardThrows_of_shape (side : Side) (h : GridShape side.grid) :
    renderBoardThrows side = false := by
  unfold renderBoardThrows
  rw [List.any_eq_false]
  intro p hp
  obtain ⟨v, hv⟩ := gridRead_on_board side.grid h p.1 p.2 ((mem_boardCells_iff _ _).mp hp)
  simp [hv]

/-- A fresh mission is pursuable: the player's side comes from a completed
placement on a new side, the AI is fresh, the cpu grid has the board's
shape. -/
theorem fresh_mission_pursuable (g : Session) (samples : List Sample)
    (hai : g.ai = freshAI)
    (hplayer : placeAllShipsRandom createSide samples = .done g.player)
    (hcpu : GridShape g.cpu.grid) : Pursuable g := by
  obtain ⟨hplaced, hshots, hlist⟩ :=
    placeAllShipsRandom_placed createSide g.player samples (by decide) hplayer
  have hids : (g.player.ships.map (fun s => s.id)).Nodup := by
    have : g.player.ships.map (fun s => s.id) =
        (g.player.ships.map (fun s => (s.id, s.name, s.length))).map (fun x => x.1) := by
      rw [List.map_map]; rfl
    rw [this, hlist]
    decide
  refine ⟨Placed.inPlay g.player hplaced hids, ?_, ?_, renderBoardThrows_of_shape g.cpu hcpu, ?_⟩
  · intro s _ k _ hk
    rw [hshots] at hk
    cases hk
  · intro p hp
    rw [hai] at hp
    cases hp
  · intro _
    cases hships : g.player.ships with
    | nil => rw [hships] at hlist; cases hlist
    | cons s rest =>
      rw [hships] at hlist
      simp only [List.map_cons, List.cons.injEq, Prod.mk.injEq] at hlist
      obtain ⟨⟨_, _, hlen⟩, _⟩ := hlist
      have hs : s ∈ g.player.ships := by rw [hships]; simp
      obtain ⟨hh, hsize, _⟩ := hplaced.2.2 s hs
      refine ⟨s, List.mem_cons_self _ _, ?_⟩
      rw [hh, hsize, hlen]
      decide

/-- C20: on every session whose queue holds board coordinates only and
whose player board has a coordinate not in `player.shots`, and for every
draw, `pickTargetForAI` returns a coordinate in bounds and not in
`player.shots`; and in every session reached from a fresh mission (player
side from a completed placement on a new side, fresh AI, cpu grid 10x10) by
any sequence of player shots, opponent moves and reveal toggles, in phase
battle, the pick of the next opponent move is such a coordinate: the
opponent never fires at a coordinate already shot, nor off the board. -/
theorem opponent_shots_are_fresh :
    (∀ (g : Session) (u : Nat),
      (∀ p ∈ g.ai.targets, inBounds p.1 p.2 = true) →
      (∃ r c : Int, inBounds r c = true ∧ g.player.shots.has (key r c) = false) →
      ∃ ch, (pickTargetForAI g u).2 = some ch ∧ inBounds ch.r ch.c = true ∧
        g.player.shots.has (key ch.r ch.c) = false) ∧
    (∀ (w : World) (g : Session) (samples : List Sample) (actions : List Action) (u : Nat)
        (g1 : Session),
      w.game = some g → g.ai = freshAI →
      placeAllShipsRandom createSide samples = .done g.player →
      GridShape g.cpu.grid →
      (run w actions).game = some g1 → g1.phase = .battle →
      ∃ ch, (pickTargetForAI g1 u).2 = some ch ∧ inBounds ch.r ch.c = true ∧
        g1.player.shots.has (key ch.r ch.c) = false) := by
  constructor
  · intro g u htargets hfree
    obtain ⟨r, c, hin, hs⟩ := hfree
    exact pickTargetForAI_free g u htargets ⟨(r, c), (mem_boardCells_iff r c).mpr hin, hs⟩
  · intro w g samples actions u g1 hg hai hplayer hcpu hg1 hphase
    have hinit : ∀ g0, w.game = some g0 → Pursuable g0 := by
      intro g0 hg0
      rw [hg] at hg0
      injection hg0 with hg0
      subst hg0
      exact fresh_mission_pursuable g samples hai hplayer hcpu
    obtain ⟨hplay, hb, htargets, _, hd⟩ := run_pursuable actions w hinit g1 hg1
    exact pickTargetForAI_free g1 u htargets (free_cell_of_afloat g1.player hplay hb (hd hphase))

/-- C20 on the pursuit session: the pick is a board cell not shot. -/
theorem opponent_shots_are_fresh_witness :
    ∃ ch, (pickTargetForAI pursuitSession 0).2 = some ch ∧ inBounds ch.r ch.c = true ∧
      pursuitSession.player.shots.has (key ch.r ch.c) = false :=
  opponent_shots_are_fresh.1 pursuitSession 0 (by decide) ⟨0, 0, by decide, by decide⟩

/-! ## The mission summary -/

/-- The search of `levels` ends at a `j` with `n < 2 ^ 2 ^ j` if there is one
within its fuel. -/
theorem levels_spec (fuel n k : Nat) (h : n < 2 ^ 2 ^ (k + fuel)) :
    n < 2 ^ 2 ^ levels fuel n k := by
  induction fuel generalizing k with
  | zero => simpa [levels] using h
  | succ f ih =>
    unfold levels
    cases hb : Nat.blt n (2 ^ 2 ^ k) with
    | true =>
      simp only [cond_true]
      exact Nat.blt_eq.mp hb
    | false =>
      simp only [cond_false]
      apply ih
      rw [show k + 1 + f = k + (f + 1) by omega]
      exact h

/-- For `0 < n < 2 ^ 2 ^ k` the result of `descend` is the exponent of the
power of two at or below `n`. -/
theorem descend_spec (k n : Nat) (h0 : 0 < n) (h : n < 2 ^ 2 ^ k) :
    2 ^ descend k n ≤ n ∧ n < 2 ^ (descend k n + 1) := by
  induction k generalizing n with
  | zero =>
    have : n = 1 := by simp at h; omega
    subst this
    simp [descend]
  | succ k ih =>
    unfold descend
    have hsq : 2 ^ 2 ^ (k + 1) = 2 ^ 2 ^ k * 2 ^ 2 ^ k := by
      rw [← pow_add, pow_succ]
      congr 1
      omega
    have hP : 0 < 2 ^ 2 ^ k := Nat.pow_pos (by decide)
    cases hb : Nat.ble (2 ^ 2 ^ k) n with
    | true =>
      simp only [cond_true]
      have hle : 2 ^ 2 ^ k ≤ n := Nat.ble_eq.mp hb
      have hq0 : 0 < n / 2 ^ 2 ^ k := Nat.div_pos hle hP
      have hq1 : n / 2 ^ 2 ^ k < 2 ^ 2 ^ k := by
        rw [Nat.div_lt_iff_lt_mul hP]
        rw [hsq] at h
        exact h
      obtain ⟨h1, h2⟩ := ih (n / 2 ^ 2 ^ k) hq0 hq1
      constructor
      · rw [pow_add]
        calc 2 ^ 2 ^ k * 2 ^ descend k (n / 2 ^ 2 ^ k)
            ≤ 2 ^ 2 ^ k * (n / 2 ^ 2 ^ k) := Nat.mul_le_mul_left _ h1
          _ ≤ n := Nat.mul_div_le n _
      · rw [show 2 ^ k + descend k (n / 2 ^ 2 ^ k) + 1 =
            2 ^ k + (descend k (n / 2 ^ 2 ^ k) + 1) by omega, pow_add]
        calc n < 2 ^ 2 ^ k * (n / 2 ^ 2 ^ k + 1) := Nat.lt_mul_div_succ n hP
          _ ≤ 2 ^ 2 ^ k * 2 ^ (descend k (n / 2 ^ 2 ^ k) + 1) :=
              Nat.mul_le_mul_left _ h2
    | false =>
      simp only [cond_false]
      have hlt : n < 2 ^ 2 ^ k := by
        by_contra hc
        have : Nat.ble (2 ^ 2 ^ k) n = true := Nat.ble_eq.mpr (by omega)
        rw [hb] at this
        cases this
      exact ih n h0 hlt

/-- The number `floorLog2 n` is the exponent of the power of two at or below
`n`. -/
theorem floorLog2_spec (n : Nat) (h0 : 0 < n) :
    2 ^ floorLog2 n ≤ n ∧ n < 2 ^ (floorLog2 n + 1) := by
  unfold floorLog2
  apply descend_spec _ n h0
  apply levels_spec
  rw [Nat.zero_add]
  calc n < 2 ^ n := Nat.lt_two_pow n
    _ ≤ 2 ^ 2 ^ n := Nat.pow_le_pow_right (by decide) (le_of_lt (Nat.lt_two_pow n))

/-- Rounding a whole number gives that number. -/
theorem roundHalfEven_one (n : Nat) : roundHalfEven n 1 = n := by
  simp [roundHalfEven, Nat.mod_one]

/-- A positive integer below `2 ^ 53` is a double: `toDouble` returns it
unchanged, as a fraction over a power of two. -/
theorem toDouble_of_int (n : Nat) (h0 : 0 < n) (h : n < 2 ^ 53) :
    (toDouble n 1).1 = n * (toDouble n 1).2 := by
  obtain ⟨h1, h2⟩ := floorLog2_spec n h0
  have ha : floorLog2 n ≤ 52 := by
    by_contra hc
    have : 2 ^ 53 ≤ 2 ^ floorLog2 n := Nat.pow_le_pow_right (by decide) (by omega)
    omega
  have hb : floorLog2 1 = 0 := by decide
  unfold toDouble
  rw [if_neg (by omega), hb]
  simp only [Nat.sub_zero, Nat.zero_sub, pow_zero, Nat.mul_one, Nat.one_mul]
  rw [if_pos h1]
  have hs : (0 : Int) ≤ 52 - ((floorLog2 n : Int) - ((0 : Nat) : Int) - 0) := by
    simp only [Nat.cast_zero, sub_zero]
    omega
  rw [if_pos hs, roundHalfEven_one]

/-- The double nearest to one tenth is `7205759403792794 / 2 ^ 56` (the
mantissa `0x1999999999999a`); 23 hits of 40 shots and 46 of 80 get 57
percent, the product in double arithmetic being just below 57.5. -/
theorem accuracy_examples :
    toDouble 1 10 = (7205759403792794, 2 ^ 56) ∧ accuracy 23 40 = 57 ∧ accuracy 46 80 = 57 := by
  decide

end Battleship
